import Mathlib

/-! The SQL builder of `builder/dao.go`.

A shallow embedding of the condition model (`Like`, `Eq`, `Ne`, `Lt`, `Lte`, `Gt`, `Gte`, `In`),
of `whereConnector` and of the four statement builders, followed by the properties proved
about them.

Modelling conventions.

* A Go `map[string]T` is an association list `GoMap T`; the order of the list is the order in
  which `for k := range m` happens to enumerate the map.  A Go map never holds a key twice, which
  is the predicate `GoMap.NodupKeys`; two presentations of one map are permutations of each other.
* A Go string is a Lean `String` (valid Unicode text).  `sort.Strings` orders strings bytewise,
  which on UTF-8 text is the lexicographic order of the code points (`strLE`).
* `interface{}` values are an arbitrary type `V`; its `default` element stands for the Go `nil`
  that a map lookup of an absent key returns.
* A slice is a `List`; the `nil` slice and the empty slice are both `[]`.  The only place where the
  code tells them apart is `nil == cons` in `whereConnector`, and every `Build` returns a nil
  fragment slice exactly when it returns no fragment at all.
* The placeholder counter `*placeHolderIndex` is threaded explicitly: a function taking the
  pointer takes the current value and returns the new one.  The statement builders start the
  counter at 0 and add one for each value that they bind; the condition model is first given
  with the counter counting in the integers, which is what the statement builders see of it.
  `Build` and `whereConnector` take the counter from their caller, so they are given a second
  time with the increment of the 64-bit Go `int`, which wraps around at the largest `int`
  (`Build64`, `whereConnector64`); the two agree while the counter stays in the range of `int`
  (`whereConnector64_eq`).
-/

namespace Builder

/-! ## Strings, maps and library functions -/

/-- Go `map[string]T` as the list of its entries in iteration order. -/
abbrev GoMap (α : Type) := List (String × α)

/-- The keys in iteration order: what `for k := range m` enumerates. -/
def GoMap.keys {α : Type} (m : GoMap α) : List String := m.map Prod.fst

/-- Well-formedness of a presentation of a Go map: no key occurs twice. -/
def GoMap.NodupKeys {α : Type} (m : GoMap α) : Prop := m.keys.Nodup

instance GoMap.NodupKeys.decidable {α : Type} (m : GoMap α) : Decidable m.NodupKeys :=
  inferInstanceAs (Decidable m.keys.Nodup)

/-- The index expression `m[k]`: the zero value when `k` is absent. -/
def GoMap.get {α : Type} [Inhabited α] (m : GoMap α) (k : String) : α :=
  (m.lookup k).getD default

/-- The comma-ok form `v, ok := m[k]`. -/
def GoMap.get? {α : Type} (m : GoMap α) (k : String) : Option α := m.lookup k

/-- The order of `sort.Strings`: lexicographic on the characters. -/
def strLE (a b : String) : Prop := a.data ≤ b.data

instance strLE.decidable : DecidableRel strLE :=
  fun a b => inferInstanceAs (Decidable (a.data ≤ b.data))

instance strLE.isTotal : IsTotal String strLE := ⟨fun a b => le_total a.data b.data⟩

instance strLE.isTrans : IsTrans String strLE :=
  ⟨fun a b c (h₁ : a.data ≤ b.data) (h₂ : b.data ≤ c.data) => le_trans h₁ h₂⟩

instance strLE.isAntisymm : IsAntisymm String strLE :=
  ⟨fun a b (h₁ : a.data ≤ b.data) (h₂ : b.data ≤ a.data) => String.ext (le_antisymm h₁ h₂)⟩

/-- Strict version of `strLE`. -/
def strLT (a b : String) : Prop := a.data < b.data

instance strLT.decidable : DecidableRel strLT :=
  fun a b => inferInstanceAs (Decidable (a.data < b.data))

/-- Go `var defaultSortAlgorithm = sort.Strings`: sorts ascending.  Equal strings are
indistinguishable, so the result does not depend on the sorting algorithm. -/
def defaultSortAlgorithm (xs : List String) : List String := xs.insertionSort strLE

/-- Go `fmt.Sprintf("%d", n)` for an `int`. -/
def itoa : Int → String
  | Int.ofNat n => Nat.repr n
  | Int.negSucc n => "-" ++ Nat.repr (n + 1)

/-- Go `strings.Join(elems, sep)`. -/
def strings.Join : List String → String → String
  | [], _ => ""
  | [a], _ => a
  | a :: b :: rest, sep => a ++ sep ++ strings.Join (b :: rest) sep

/-- Go `strings.Repeat(s, count)`. -/
def strings.Repeat (s : String) : Nat → String
  | 0 => ""
  | n + 1 => s ++ strings.Repeat s n

/-- Drops the leading characters that belong to `cutset`. -/
def strings.trimLeftChars (cutset : List Char) : List Char → List Char
  | [] => []
  | c :: cs => if c ∈ cutset then strings.trimLeftChars cutset cs else c :: cs

/-- Go `strings.TrimLeft(s, cutset)`. -/
def strings.TrimLeft (s cutset : String) : String :=
  ⟨strings.trimLeftChars cutset.data s.data⟩

/-- Go `strings.TrimRight(s, cutset)`. -/
def strings.TrimRight (s cutset : String) : String :=
  ⟨(strings.trimLeftChars cutset.data s.data.reverse).reverse⟩

/-- Go `strings.Trim(s, cutset)`. -/
def strings.Trim (s cutset : String) : String :=
  strings.TrimRight (strings.TrimLeft s cutset) cutset

/-- The errors declared at the top of `dao.go`. -/
inductive BuildError where
  | errInsertDataNotMatch
  | errInsertNullData
  | errOrderByParam
  deriving DecidableEq, Repr

/-! ## The condition model -/

/-- The deprecated `quoteField`: the identity. -/
def quoteField (field : String) : String := field

/-- The second loop of `Like.Build`, over the sorted keys `cond[j..]`. -/
def Like.loop {V : Type} [Inhabited V] (l : GoMap V) :
    List String → Int → List String × List V × Int
  | [], placeHolderIndex => ([], [], placeHolderIndex)
  | k :: rest, placeHolderIndex =>
    let val := l.get k
    let placeHolderIndex := placeHolderIndex + 1
    let c := k ++ " LIKE $" ++ itoa placeHolderIndex
    let r := Like.loop l rest placeHolderIndex
    (c :: r.1, val :: r.2.1, r.2.2)

/-- Go `func (l Like) Build(placeHolderIndex *int) ([]string, []interface{})`. -/
def Like.Build {V : Type} [Inhabited V] (l : GoMap V) (placeHolderIndex : Int) :
    List String × List V × Int :=
  if l.length = 0 then ([], [], placeHolderIndex)
  else Like.loop l (defaultSortAlgorithm l.keys) placeHolderIndex

/-- Go `assembleExpression`, reading the counter. -/
def assembleExpression (field op : String) (placeHolderIndex : Int) : String :=
  quoteField field ++ op ++ "$" ++ itoa placeHolderIndex

/-- The second loop of `build`, over the sorted keys `cond[i..]`. -/
def build.loop {V : Type} [Inhabited V] (m : GoMap V) (op : String) :
    List String → Int → List String × List V × Int
  | [], placeHolderIndex => ([], [], placeHolderIndex)
  | k :: rest, placeHolderIndex =>
    let val := m.get k
    let placeHolderIndex := placeHolderIndex + 1
    let c := assembleExpression k op placeHolderIndex
    let r := build.loop m op rest placeHolderIndex
    (c :: r.1, val :: r.2.1, r.2.2)

/-- Go `func build(m map[string]interface{}, op string, placeHolderIndex *int)`. -/
def build {V : Type} [Inhabited V] (m : GoMap V) (op : String) (placeHolderIndex : Int) :
    List String × List V × Int :=
  if m.length = 0 then ([], [], placeHolderIndex)
  else build.loop m op (defaultSortAlgorithm m.keys) placeHolderIndex

/-- Go `Eq.Build`. -/
def Eq.Build {V : Type} [Inhabited V] (e : GoMap V) (placeHolderIndex : Int) :=
  build e "=" placeHolderIndex

/-- Go `Ne.Build`. -/
def Ne.Build {V : Type} [Inhabited V] (n : GoMap V) (placeHolderIndex : Int) :=
  build n "!=" placeHolderIndex

/-- Go `Lt.Build`. -/
def Lt.Build {V : Type} [Inhabited V] (l : GoMap V) (placeHolderIndex : Int) :=
  build l "<" placeHolderIndex

/-- Go `Lte.Build`. -/
def Lte.Build {V : Type} [Inhabited V] (l : GoMap V) (placeHolderIndex : Int) :=
  build l "<=" placeHolderIndex

/-- Go `Gt.Build`. -/
def Gt.Build {V : Type} [Inhabited V] (g : GoMap V) (placeHolderIndex : Int) :=
  build g ">" placeHolderIndex

/-- Go `Gte.Build`. -/
def Gte.Build {V : Type} [Inhabited V] (g : GoMap V) (placeHolderIndex : Int) :=
  build g ">=" placeHolderIndex

/-- The loop of `buildIn` over the remaining elements `vals[i..]`: the text built and the
counter. -/
def buildIn.loop {V : Type} : List V → Int → String × Int
  | [], placeHolderIndex => ("", placeHolderIndex)
  | _ :: rest, placeHolderIndex =>
    let placeHolderIndex := placeHolderIndex + 1
    let r := buildIn.loop rest placeHolderIndex
    ("$" ++ itoa placeHolderIndex ++ (if rest.length = 0 then "" else ",") ++ r.1, r.2)

/-- Go `func buildIn(field string, vals []interface{}, placeHolderIndex *int) (cond string)`. -/
def buildIn {V : Type} (field : String) (vals : List V) (placeHolderIndex : Int) :
    String × Int :=
  let r := buildIn.loop vals placeHolderIndex
  (quoteField field ++ " IN (" ++ r.1 ++ ")", r.2)

/-- The second loop of `In.Build`, over the sorted keys `cond[j..]`. -/
def In.loop {V : Type} (i : GoMap (List V)) :
    List String → Int → List String × List V × Int
  | [], placeHolderIndex => ([], [], placeHolderIndex)
  | k :: rest, placeHolderIndex =>
    let val := i.get k
    let c := buildIn k val placeHolderIndex
    let r := In.loop i rest c.2
    (c.1 :: r.1, val ++ r.2.1, r.2.2)

/-- Go `func (i In) Build(placeHolderIndex *int) ([]string, []interface{})`. -/
def In.Build {V : Type} (i : GoMap (List V)) (placeHolderIndex : Int) :
    List String × List V × Int :=
  if i.length = 0 then ([], [], placeHolderIndex)
  else In.loop i (defaultSortAlgorithm i.keys) placeHolderIndex

/-- The implementations of the interface `Comparable` that the package declares. -/
inductive Comparable (V : Type) where
  | nilComparable : Comparable V
  | Like (m : GoMap V) : Comparable V
  | Eq (m : GoMap V) : Comparable V
  | Ne (m : GoMap V) : Comparable V
  | Lt (m : GoMap V) : Comparable V
  | Lte (m : GoMap V) : Comparable V
  | Gt (m : GoMap V) : Comparable V
  | Gte (m : GoMap V) : Comparable V
  | In (m : GoMap (List V)) : Comparable V

/-- Dynamic dispatch of `cond.Build(placeHolderIndex)`. -/
def Comparable.Build {V : Type} [Inhabited V] :
    Comparable V → Int → List String × List V × Int
  | Comparable.nilComparable, placeHolderIndex => ([], [], placeHolderIndex)
  | Comparable.Like m, placeHolderIndex => Like.Build m placeHolderIndex
  | Comparable.Eq m, placeHolderIndex => Eq.Build m placeHolderIndex
  | Comparable.Ne m, placeHolderIndex => Ne.Build m placeHolderIndex
  | Comparable.Lt m, placeHolderIndex => Lt.Build m placeHolderIndex
  | Comparable.Lte m, placeHolderIndex => Lte.Build m placeHolderIndex
  | Comparable.Gt m, placeHolderIndex => Gt.Build m placeHolderIndex
  | Comparable.Gte m, placeHolderIndex => Gte.Build m placeHolderIndex
  | Comparable.In m, placeHolderIndex => In.Build m placeHolderIndex

/-- The loop of `whereConnector`: the slices `where` and `values` and the counter. -/
def whereConnector.loop {V : Type} [Inhabited V] :
    List (Comparable V) → Int → List String × List V × Int
  | [], placeHolderIndex => ([], [], placeHolderIndex)
  | cond :: rest, placeHolderIndex =>
    let b := cond.Build placeHolderIndex
    let r := whereConnector.loop rest b.2.2
    if b.1.length = 0 then r else (b.1 ++ r.1, b.2.1 ++ r.2.1, r.2.2)

/-- Go `func whereConnector(placeHolderIndex *int, conditions ...Comparable) (string, []interface{})`,
with the final counter as third component. -/
def whereConnector {V : Type} [Inhabited V] (placeHolderIndex : Int)
    (conditions : List (Comparable V)) : String × List V × Int :=
  if conditions.length = 0 then ("", [], placeHolderIndex)
  else
    let r := whereConnector.loop conditions placeHolderIndex
    if r.1.length = 0 then ("", [], r.2.2)
    else ("(" ++ strings.Join r.1 " AND " ++ ")", r.2.1, r.2.2)

/-! ## The condition model with the counter of the machine

In `dao.go` the counter is a Go `int`, and `*placeHolderIndex++` takes the largest `int` to the
smallest one.  The functions of the previous section count in the integers.  The functions of
this section are the same functions counting as the code does where `int` has 64 bits; the two
agree for as long as the counter does not pass `maxInt`.  The statement builders start the
counter at 0 and count the values that they return. -/

/-- The largest Go `int`, `math.MaxInt64`. -/
def maxInt : Int := 9223372036854775807

/-- The smallest Go `int`, `math.MinInt64`. -/
def minInt : Int := -9223372036854775808

/-- The Go `int` that an integer is stored as: the two's complement value of its low 64 bits. -/
def wrapInt (x : Int) : Int :=
  (x + 9223372036854775808) % 18446744073709551616 - 9223372036854775808

/-- Go `x++` on an `int`: the successor, wrapping around from `maxInt` to `minInt`. -/
def succInt (x : Int) : Int := wrapInt (x + 1)

/-- The second loop of `Like.Build`, over the sorted keys `cond[j..]`, the counter a Go `int`. -/
def Like.loop64 {V : Type} [Inhabited V] (l : GoMap V) :
    List String → Int → List String × List V × Int
  | [], placeHolderIndex => ([], [], placeHolderIndex)
  | k :: rest, placeHolderIndex =>
    let val := l.get k
    let placeHolderIndex := succInt placeHolderIndex
    let c := k ++ " LIKE $" ++ itoa placeHolderIndex
    let r := Like.loop64 l rest placeHolderIndex
    (c :: r.1, val :: r.2.1, r.2.2)

/-- Go `func (l Like) Build(placeHolderIndex *int) ([]string, []interface{})`, the counter a Go
`int`. -/
def Like.Build64 {V : Type} [Inhabited V] (l : GoMap V) (placeHolderIndex : Int) :
    List String × List V × Int :=
  if l.length = 0 then ([], [], placeHolderIndex)
  else Like.loop64 l (defaultSortAlgorithm l.keys) placeHolderIndex

/-- The second loop of `build`, over the sorted keys `cond[i..]`, the counter a Go `int`. -/
def build.loop64 {V : Type} [Inhabited V] (m : GoMap V) (op : String) :
    List String → Int → List String × List V × Int
  | [], placeHolderIndex => ([], [], placeHolderIndex)
  | k :: rest, placeHolderIndex =>
    let val := m.get k
    let placeHolderIndex := succInt placeHolderIndex
    let c := assembleExpression k op placeHolderIndex
    let r := build.loop64 m op rest placeHolderIndex
    (c :: r.1, val :: r.2.1, r.2.2)

/-- Go `func build(m map[string]interface{}, op string, placeHolderIndex *int)`, the counter a
Go `int`. -/
def build64 {V : Type} [Inhabited V] (m : GoMap V) (op : String) (placeHolderIndex : Int) :
    List String × List V × Int :=
  if m.length = 0 then ([], [], placeHolderIndex)
  else build.loop64 m op (defaultSortAlgorithm m.keys) placeHolderIndex

/-- Go `Eq.Build`, the counter a Go `int`. -/
def Eq.Build64 {V : Type} [Inhabited V] (e : GoMap V) (placeHolderIndex : Int) :=
  build64 e "=" placeHolderIndex

/-- Go `Ne.Build`, the counter a Go `int`. -/
def Ne.Build64 {V : Type} [Inhabited V] (n : GoMap V) (placeHolderIndex : Int) :=
  build64 n "!=" placeHolderIndex

/-- Go `Lt.Build`, the counter a Go `int`. -/
def Lt.Build64 {V : Type} [Inhabited V] (l : GoMap V) (placeHolderIndex : Int) :=
  build64 l "<" placeHolderIndex

/-- Go `Lte.Build`, the counter a Go `int`. -/
def Lte.Build64 {V : Type} [Inhabited V] (l : GoMap V) (placeHolderIndex : Int) :=
  build64 l "<=" placeHolderIndex

/-- Go `Gt.Build`, the counter a Go `int`. -/
def Gt.Build64 {V : Type} [Inhabited V] (g : GoMap V) (placeHolderIndex : Int) :=
  build64 g ">" placeHolderIndex

/-- Go `Gte.Build`, the counter a Go `int`. -/
def Gte.Build64 {V : Type} [Inhabited V] (g : GoMap V) (placeHolderIndex : Int) :=
  build64 g ">=" placeHolderIndex

/-- The loop of `buildIn` over the remaining elements `vals[i..]`, the counter a Go `int`: the
text built and the counter. -/
def buildIn.loop64 {V : Type} : List V → Int → String × Int
  | [], placeHolderIndex => ("", placeHolderIndex)
  | _ :: rest, placeHolderIndex =>
    let placeHolderIndex := succInt placeHolderIndex
    let r := buildIn.loop64 rest placeHolderIndex
    ("$" ++ itoa placeHolderIndex ++ (if rest.length = 0 then "" else ",") ++ r.1, r.2)

/-- Go `func buildIn(field string, vals []interface{}, placeHolderIndex *int) (cond string)`,
the counter a Go `int`. -/
def buildIn64 {V : Type} (field : String) (vals : List V) (placeHolderIndex : Int) :
    String × Int :=
  let r := buildIn.loop64 vals placeHolderIndex
  (quoteField field ++ " IN (" ++ r.1 ++ ")", r.2)

/-- The second loop of `In.Build`, over the sorted keys `cond[j..]`, the counter a Go `int`. -/
def In.loop64 {V : Type} (i : GoMap (List V)) :
    List String → Int → List String × List V × Int
  | [], placeHolderIndex => ([], [], placeHolderIndex)
  | k :: rest, placeHolderIndex =>
    let val := i.get k
    let c := buildIn64 k val placeHolderIndex
    let r := In.loop64 i rest c.2
    (c.1 :: r.1, val ++ r.2.1, r.2.2)

/-- Go `func (i In) Build(placeHolderIndex *int) ([]string, []interface{})`, the counter a Go
`int`. -/
def In.Build64 {V : Type} (i : GoMap (List V)) (placeHolderIndex : Int) :
    List String × List V × Int :=
  if i.length = 0 then ([], [], placeHolderIndex)
  else In.loop64 i (defaultSortAlgorithm i.keys) placeHolderIndex

/-- Dynamic dispatch of `cond.Build(placeHolderIndex)`, the counter a Go `int`. -/
def Comparable.Build64 {V : Type} [Inhabited V] :
    Comparable V → Int → List String × List V × Int
  | Comparable.nilComparable, placeHolderIndex => ([], [], placeHolderIndex)
  | Comparable.Like m, placeHolderIndex => Like.Build64 m placeHolderIndex
  | Comparable.Eq m, placeHolderIndex => Eq.Build64 m placeHolderIndex
  | Comparable.Ne m, placeHolderIndex => Ne.Build64 m placeHolderIndex
  | Comparable.Lt m, placeHolderIndex => Lt.Build64 m placeHolderIndex
  | Comparable.Lte m, placeHolderIndex => Lte.Build64 m placeHolderIndex
  | Comparable.Gt m, placeHolderIndex => Gt.Build64 m placeHolderIndex
  | Comparable.Gte m, placeHolderIndex => Gte.Build64 m placeHolderIndex
  | Comparable.In m, placeHolderIndex => In.Build64 m placeHolderIndex

/-- The loop of `whereConnector`, the counter a Go `int`: the slices `where` and `values` and
the counter. -/
def whereConnector.loop64 {V : Type} [Inhabited V] :
    List (Comparable V) → Int → List String × List V × Int
  | [], placeHolderIndex => ([], [], placeHolderIndex)
  | cond :: rest, placeHolderIndex =>
    let b := cond.Build64 placeHolderIndex
    let r := whereConnector.loop64 rest b.2.2
    if b.1.length = 0 then r else (b.1 ++ r.1, b.2.1 ++ r.2.1, r.2.2)

/-- Go `func whereConnector(placeHolderIndex *int, conditions ...Comparable) (string, []interface{})`,
the counter a Go `int`, with the final counter as third component. -/
def whereConnector64 {V : Type} [Inhabited V] (placeHolderIndex : Int)
    (conditions : List (Comparable V)) : String × List V × Int :=
  if conditions.length = 0 then ("", [], placeHolderIndex)
  else
    let r := whereConnector.loop64 conditions placeHolderIndex
    if r.1.length = 0 then ("", [], r.2.2)
    else ("(" ++ strings.Join r.1 " AND " ++ ")", r.2.1, r.2.2)

/-! ## Helpers of the statement builders -/

/-- Go `func resolveKV(m map[string]interface{}) (keys []string, vals []interface{})`; it calls
`sort.Strings`, which is also the value of `defaultSortAlgorithm`. -/
def resolveKV {V : Type} [Inhabited V] (m : GoMap V) : List String × List V :=
  let keys := defaultSortAlgorithm m.keys
  (keys, keys.map (fun k => m.get k))

/-- Go `func resolveFields(m map[string]interface{}) []string`. -/
def resolveFields {V : Type} (m : GoMap V) : List String :=
  defaultSortAlgorithm (m.keys.map quoteField)

/-- Modelled from the spec: the struct `eleOrderBy`, whose declaration is not in `dao.go`; the
code reads its string fields `field` and `order`. -/
structure eleOrderBy where
  field : String
  order : String
  deriving DecidableEq, Repr

/-- Modelled from the spec: the struct `eleLimit`, whose declaration is not in `dao.go`; the code
prints its integer fields `begin` and `step` with `%d`. -/
structure eleLimit where
  begin : Int
  step : Int
  deriving DecidableEq, Repr

/-- Go `unicode.ToUpper` on one character, exact on every character whose upper case is an ASCII
letter: the ASCII letters, U+017F (long s, to `S`) and U+0131 (dotless i, to `I`).  The other
characters are left in place; in Go they go to characters outside ASCII, so the comparisons of
`orderBy` with `ASC` and `DESC` are decided the same way, and `orderBy` prints the upper-cased
text only when it is one of those two words. -/
def unicode.ToUpper (c : Char) : Char :=
  if c.toNat = 0x17F then 'S' else if c.toNat = 0x131 then 'I' else c.toUpper

/-- Go `strings.ToUpper(s)`. -/
def strings.ToUpper (s : String) : String := ⟨s.data.map unicode.ToUpper⟩

/-- The loop of `orderBy`: the slice `orders`, or `none` at the first invalid direction. -/
def orderBy.loop : List eleOrderBy → Option (List String)
  | [] => some []
  | orderInfo :: rest =>
    let realOrder := strings.ToUpper orderInfo.order
    if realOrder ≠ "ASC" ∧ realOrder ≠ "DESC" then none
    else
      let order := quoteField orderInfo.field ++ " " ++ realOrder
      match orderBy.loop rest with
      | none => none
      | some orders => some (order :: orders)

/-- Go `func orderBy(orderMap []eleOrderBy) (string, error)`. -/
def orderBy (orderMap : List eleOrderBy) : String × Option BuildError :=
  match orderBy.loop orderMap with
  | none => ("", some BuildError.errOrderByParam)
  | some orders => (strings.Join orders ",", none)

/-- Whether the dynamic type of a condition is `nilComparable`. -/
def Comparable.isNilComparable {V : Type} : Comparable V → Bool
  | Comparable.nilComparable => true
  | _ => false

/-- The loop of `splitCondition` started at `i = n - 1`: the value of `i` when it ends. -/
def splitCondition.loop {V : Type} (conditions : List (Comparable V)) : Nat → Int
  | 0 => -1
  | n + 1 =>
    match conditions.get? n with
    | some c => if c.isNilComparable then (n : Int) else splitCondition.loop conditions n
    | none => splitCondition.loop conditions n

/-- Go `func splitCondition(conditions []Comparable) ([]Comparable, []Comparable)`; the second
component is `none` for the nil slice. -/
def splitCondition {V : Type} (conditions : List (Comparable V)) :
    List (Comparable V) × Option (List (Comparable V)) :=
  let i := splitCondition.loop conditions conditions.length
  if 0 ≤ i ∧ i < (conditions.length : Int) - 1 then
    (conditions.take i.toNat, some (conditions.drop (i.toNat + 1)))
  else (conditions, none)

/-! ## `fmt.Sprintf` on a format built from user text -/

/-- The text `%!(EXTRA int=a, int=b, ...)` that `fmt.Sprintf` appends for unused operands. -/
def fmt.extra (a : List Int) : String :=
  if a.length = 0 then ""
  else "%!(EXTRA " ++ strings.Join (a.map (fun n => "int=" ++ itoa n)) ", " ++ ")"

/-- The characters after `%` that start a flag, a width, a precision or an argument index. -/
def fmt.isModifier (c : Char) : Bool :=
  c ∈ ['#', '0', '+', '-', ' ', '1', '2', '3', '4', '5', '6', '7', '8', '9', '.', '*', '[']

/-- The verbs other than `d` and `v` that format an `int` in a way of their own. -/
def fmt.isOtherIntVerb (c : Char) : Bool :=
  c ∈ ['b', 'c', 'o', 'O', 'q', 'x', 'X', 'U', 'T']

/-- Go `fmt.Sprintf(format, a...)` for operands of type `int`, on the characters of the format
that remain; the flag tells whether the character just read was the `%` that opens a directive.
Covered: plain text, `%%`, `%d` and `%v` (decimal), a verb that does not apply to an `int`
(`%!s(int=1)`), a verb with no operand left (`%!d(MISSING)`), a lone `%` at the end
(`%!(NOVERB)`) and unused operands (`%!(EXTRA ...)`).  The result is `none` when the format
has a directive outside this fragment: a flag, width, precision or argument index, or one of
the verbs `b c o O q x X U T` applied to an operand. -/
def fmt.sprintfChars : Bool → List Char → List Int → Option String
  | false, [], a => some (fmt.extra a)
  | false, c :: rest, a =>
    if c ≠ '%' then (fmt.sprintfChars false rest a).map (fun s => String.singleton c ++ s)
    else fmt.sprintfChars true rest a
  | true, [], a => some ("%!(NOVERB)" ++ fmt.extra a)
  | true, verb :: rest, a =>
    if verb = '%' then (fmt.sprintfChars false rest a).map (fun s => "%" ++ s)
    else if fmt.isModifier verb then none
    else
      match a with
      | [] =>
        (fmt.sprintfChars false rest []).map
          (fun s => "%!" ++ String.singleton verb ++ "(MISSING)" ++ s)
      | n :: a' =>
        if verb = 'd' ∨ verb = 'v' then
          (fmt.sprintfChars false rest a').map (fun s => itoa n ++ s)
        else if fmt.isOtherIntVerb verb then none
        else
          (fmt.sprintfChars false rest a').map
            (fun s => "%!" ++ String.singleton verb ++ "(int=" ++ itoa n ++ ")" ++ s)

/-- Go `fmt.Sprintf(format, a...)` with `int` operands; see `fmt.sprintfChars`. -/
def fmt.Sprintf (format : String) (a : List Int) : Option String :=
  fmt.sprintfChars false format.data a

/-! ## The statement builders -/

/-- The inner loop of `buildInsert` over `fields`: the values appended for one record, or
`none` when a field is not a key of the record. -/
def buildInsert.fieldLoop {V : Type} (mapItem : GoMap V) : List String → Option (List V)
  | [] => some []
  | field :: rest =>
    match mapItem.get? (strings.Trim field "`") with
    | none => none
    | some val =>
      match buildInsert.fieldLoop mapItem rest with
      | none => none
      | some vals => some (val :: vals)

/-- The outer loop of `buildInsert` over `setMap`: the slices `sets` and `vals`, or `none`
when it returns `errInsertDataNotMatch`. -/
def buildInsert.loop {V : Type} (fields : List String) (placeholder : String) :
    List (GoMap V) → Option (List String × List V)
  | [] => some ([], [])
  | mapItem :: rest =>
    match buildInsert.fieldLoop mapItem fields with
    | none => none
    | some rowVals =>
      match buildInsert.loop fields placeholder rest with
      | none => none
      | some r => some (placeholder :: r.1, rowVals ++ r.2)

/-- Go `func buildInsert(table string, setMap []map[string]interface{}) (string, []interface{}, error)`.
The first `fmt.Sprintf` has three `%s` verbs and three string operands, so it is a
concatenation; the second one formats the text so obtained with the holders `1, 2, ...`.  The result is
`none` when that second format is outside the fragment of `fmt.Sprintf`. -/
def buildInsert {V : Type} (table : String) (setMap : List (GoMap V)) :
    Option (String × List V × Option BuildError) :=
  match setMap with
  | [] => some ("", [], some BuildError.errInsertNullData)
  | first :: _ =>
    let fields := resolveFields first
    let placeholder := "(" ++ strings.TrimRight (strings.Repeat "$%d," fields.length) "," ++ ")"
    match buildInsert.loop fields placeholder setMap with
    | none => some ("", [], some BuildError.errInsertDataNotMatch)
    | some (sets, vals) =>
      let conds := "INSERT INTO " ++ quoteField table ++ " (" ++ strings.Join fields ","
        ++ ") VALUES " ++ strings.Join sets ","
      let holders := (List.range (fields.length * sets.length)).map
        (fun (i : Nat) => (i : Int) + 1)
      (fmt.Sprintf conds holders).map (fun conds => (conds, vals, none))

/-- The loop of `buildUpdate` over `keys`: the text `sets` and the counter. -/
def buildUpdate.loop : List String → Int → String × Int
  | [], placeHolderIndex => ("", placeHolderIndex)
  | k :: rest, placeHolderIndex =>
    let placeHolderIndex := placeHolderIndex + 1
    let r := buildUpdate.loop rest placeHolderIndex
    (quoteField k ++ "=$" ++ itoa placeHolderIndex ++ "," ++ r.1, r.2)

/-- Go `func buildUpdate(table string, update map[string]interface{}, conditions ...Comparable)`. -/
def buildUpdate {V : Type} [Inhabited V] (table : String) (update : GoMap V)
    (conditions : List (Comparable V)) : String × List V × Option BuildError :=
  let kv := resolveKV update
  let s := buildUpdate.loop kv.1 0
  let sets := strings.TrimRight s.1 ","
  let cond := "UPDATE " ++ quoteField table ++ " SET " ++ sets
  let w := whereConnector s.2 conditions
  if "" ≠ w.1 then (cond ++ " WHERE " ++ w.1, kv.2 ++ w.2.1, none)
  else (cond, kv.2, none)

/-- Go `func buildDelete(table string, conditions ...Comparable) (string, []interface{}, error)`. -/
def buildDelete {V : Type} [Inhabited V] (table : String)
    (conditions : List (Comparable V)) : String × List V × Option BuildError :=
  let w := whereConnector 0 conditions
  if "" = w.1 then ("DELETE FROM " ++ table, [], none)
  else ("DELETE FROM " ++ quoteField table ++ " WHERE " ++ w.1, w.2.1, none)

/-- Go `func buildSelect(table string, ufields []string, groupBy string, uOrderBy []eleOrderBy,
limit *eleLimit, conditions ...Comparable) (string, []interface{}, error)`. -/
def buildSelect {V : Type} [Inhabited V] (table : String) (ufields : List String)
    (groupBy : String) (uOrderBy : List eleOrderBy) (limit : Option eleLimit)
    (conditions : List (Comparable V)) : String × List V × Option BuildError :=
  let fields := if ufields.length > 0 then strings.Join (ufields.map quoteField) "," else "*"
  let cond := "SELECT " ++ fields ++ " FROM " ++ quoteField table
  let sp := splitCondition conditions
  let w := whereConnector 0 sp.1
  let cond := if "" ≠ w.1 then cond ++ " WHERE " ++ w.1 else cond
  let cond := if "" ≠ groupBy then cond ++ " GROUP BY " ++ quoteField groupBy else cond
  let hv : String × List V :=
    match sp.2 with
    | some having =>
      let h := whereConnector w.2.2 having
      (cond ++ " HAVING " ++ h.1, w.2.1 ++ h.2.1)
    | none => (cond, w.2.1)
  let ob : Except BuildError String :=
    if uOrderBy.length ≠ 0 then
      match orderBy uOrderBy with
      | (_, some err) => Except.error err
      | (str, none) => Except.ok (hv.1 ++ " ORDER BY " ++ str)
    else Except.ok hv.1
  match ob with
  | Except.error err => ("", [], some err)
  | Except.ok cond =>
    let cond :=
      match limit with
      | some l => cond ++ " LIMIT " ++ itoa l.begin ++ " OFFSET " ++ itoa l.step
      | none => cond
    (cond, hv.2, none)

/-! ## The generated text in pieces

The same functions with the generated text kept as a list of pieces, so that the placeholders
that the code emits, and the value that each of them stands for, can be read off the output. -/

/-- A piece of generated text: literal text, or the placeholder `$n` emitted for the value `v`. -/
inductive Piece (V : Type) where
  | text (s : String) : Piece V
  | holder (n : Int) (v : V) : Piece V

/-- The text of one piece. -/
def Piece.render {V : Type} : Piece V → String
  | Piece.text s => s
  | Piece.holder n _ => "$" ++ itoa n

/-- The text of a list of pieces. -/
def renderPieces {V : Type} : List (Piece V) → String
  | [] => ""
  | p :: ps => p.render ++ renderPieces ps

/-- The placeholders of a list of pieces from left to right, each with its value. -/
def holders {V : Type} : List (Piece V) → List (Int × V)
  | [] => []
  | Piece.text _ :: ps => holders ps
  | Piece.holder n v :: ps => (n, v) :: holders ps

/-- The highest placeholder number among the given placeholders, `0` when there is none. -/
def highestHolder {V : Type} (hs : List (Int × V)) : Int :=
  (hs.map Prod.fst).foldl max 0

/-- The values `vals` numbered from `c + 1`: the `k`-th value (from 1) with the number `c + k`. -/
def numbered {V : Type} (c : Int) (vals : List V) : List (Int × V) :=
  List.zip ((List.range vals.length).map (fun (k : Nat) => c + ((k : Int) + 1))) vals

/-- Function `strings.Join` on pieces. -/
def joinPieces {V : Type} : List (List (Piece V)) → String → List (Piece V)
  | [], _ => []
  | [a], _ => a
  | a :: b :: rest, sep => a ++ Piece.text sep :: joinPieces (b :: rest) sep

/-- Function `build.loop` in pieces: the fragments. -/
def build.loopT {V : Type} [Inhabited V] (m : GoMap V) (op : String) :
    List String → Int → List (List (Piece V))
  | [], _ => []
  | k :: rest, placeHolderIndex =>
    let val := m.get k
    let placeHolderIndex := placeHolderIndex + 1
    [Piece.text (quoteField k ++ op), Piece.holder placeHolderIndex val]
      :: build.loopT m op rest placeHolderIndex

/-- Function `build` in pieces. -/
def buildT {V : Type} [Inhabited V] (m : GoMap V) (op : String) (placeHolderIndex : Int) :
    List (List (Piece V)) :=
  if m.length = 0 then [] else build.loopT m op (defaultSortAlgorithm m.keys) placeHolderIndex

/-- Function `buildIn.loop` in pieces. -/
def buildIn.loopT {V : Type} : List V → Int → List (Piece V)
  | [], _ => []
  | v :: rest, placeHolderIndex =>
    let placeHolderIndex := placeHolderIndex + 1
    Piece.holder placeHolderIndex v :: Piece.text (if rest.length = 0 then "" else ",")
      :: buildIn.loopT rest placeHolderIndex

/-- Function `buildIn` in pieces. -/
def buildInT {V : Type} (field : String) (vals : List V) (placeHolderIndex : Int) :
    List (Piece V) :=
  Piece.text (quoteField field ++ " IN (") :: (buildIn.loopT vals placeHolderIndex
    ++ [Piece.text ")"])

/-- Function `In.loop` in pieces: the fragments. -/
def In.loopT {V : Type} (i : GoMap (List V)) : List String → Int → List (List (Piece V))
  | [], _ => []
  | k :: rest, placeHolderIndex =>
    let val := i.get k
    buildInT k val placeHolderIndex :: In.loopT i rest (buildIn k val placeHolderIndex).2

/-- Function `In.Build` in pieces. -/
def In.BuildT {V : Type} (i : GoMap (List V)) (placeHolderIndex : Int) :
    List (List (Piece V)) :=
  if i.length = 0 then [] else In.loopT i (defaultSortAlgorithm i.keys) placeHolderIndex

/-- Function `cond.Build` in pieces: the fragments; `Like.Build` is `build` with ` LIKE `. -/
def Comparable.BuildT {V : Type} [Inhabited V] : Comparable V → Int → List (List (Piece V))
  | Comparable.nilComparable, _ => []
  | Comparable.Like m, placeHolderIndex => buildT m " LIKE " placeHolderIndex
  | Comparable.Eq m, placeHolderIndex => buildT m "=" placeHolderIndex
  | Comparable.Ne m, placeHolderIndex => buildT m "!=" placeHolderIndex
  | Comparable.Lt m, placeHolderIndex => buildT m "<" placeHolderIndex
  | Comparable.Lte m, placeHolderIndex => buildT m "<=" placeHolderIndex
  | Comparable.Gt m, placeHolderIndex => buildT m ">" placeHolderIndex
  | Comparable.Gte m, placeHolderIndex => buildT m ">=" placeHolderIndex
  | Comparable.In m, placeHolderIndex => In.BuildT m placeHolderIndex

/-- Function `whereConnector.loop` in pieces: the slice `where`. -/
def whereConnector.loopT {V : Type} [Inhabited V] :
    List (Comparable V) → Int → List (List (Piece V))
  | [], _ => []
  | cond :: rest, placeHolderIndex =>
    let b := cond.BuildT placeHolderIndex
    let r := whereConnector.loopT rest (cond.Build placeHolderIndex).2.2
    if b.length = 0 then r else b ++ r

/-- Function `whereConnector` in pieces: the returned string. -/
def whereConnectorT {V : Type} [Inhabited V] (placeHolderIndex : Int)
    (conditions : List (Comparable V)) : List (Piece V) :=
  if conditions.length = 0 then []
  else
    let r := whereConnector.loopT conditions placeHolderIndex
    if r.length = 0 then []
    else Piece.text "(" :: (joinPieces r " AND " ++ [Piece.text ")"])

/-- The assignments of `buildUpdate` in pieces, after the final comma has been trimmed. -/
def buildUpdate.setsT {V : Type} [Inhabited V] (update : GoMap V) :
    List String → Int → List (Piece V)
  | [], _ => []
  | [k], placeHolderIndex =>
    [Piece.text (quoteField k ++ "="), Piece.holder (placeHolderIndex + 1) (update.get k)]
  | k :: k' :: rest, placeHolderIndex =>
    Piece.text (quoteField k ++ "=") :: Piece.holder (placeHolderIndex + 1) (update.get k)
      :: Piece.text "," :: buildUpdate.setsT update (k' :: rest) (placeHolderIndex + 1)

/-- Function `buildUpdate` in pieces: the returned text. -/
def buildUpdateT {V : Type} [Inhabited V] (table : String) (update : GoMap V)
    (conditions : List (Comparable V)) : List (Piece V) :=
  let kv := resolveKV update
  let s := buildUpdate.loop kv.1 0
  let w := whereConnector s.2 conditions
  Piece.text ("UPDATE " ++ quoteField table ++ " SET ") :: (buildUpdate.setsT update kv.1 0
    ++ (if "" ≠ w.1 then Piece.text " WHERE " :: whereConnectorT s.2 conditions else []))

/-- Function `buildDelete` in pieces: the returned text. -/
def buildDeleteT {V : Type} [Inhabited V] (table : String)
    (conditions : List (Comparable V)) : List (Piece V) :=
  let w := whereConnector 0 conditions
  if "" = w.1 then [Piece.text ("DELETE FROM " ++ table)]
  else Piece.text ("DELETE FROM " ++ quoteField table ++ " WHERE ") :: whereConnectorT 0 conditions

/-- Function `buildSelect` in pieces: the returned text. -/
def buildSelectT {V : Type} [Inhabited V] (table : String) (ufields : List String)
    (groupBy : String) (uOrderBy : List eleOrderBy) (limit : Option eleLimit)
    (conditions : List (Comparable V)) : List (Piece V) :=
  let fields := if ufields.length > 0 then strings.Join (ufields.map quoteField) "," else "*"
  let cond : List (Piece V) := [Piece.text ("SELECT " ++ fields ++ " FROM " ++ quoteField table)]
  let sp := splitCondition conditions
  let w := whereConnector 0 sp.1
  let cond := if "" ≠ w.1 then cond ++ Piece.text " WHERE " :: whereConnectorT 0 sp.1 else cond
  let cond := if "" ≠ groupBy then cond ++ [Piece.text (" GROUP BY " ++ quoteField groupBy)]
    else cond
  let cond :=
    match sp.2 with
    | some having => cond ++ Piece.text " HAVING " :: whereConnectorT w.2.2 having
    | none => cond
  let ob : Option (List (Piece V)) :=
    if uOrderBy.length ≠ 0 then
      match orderBy uOrderBy with
      | (_, some _) => none
      | (str, none) => some (cond ++ [Piece.text (" ORDER BY " ++ str)])
    else some cond
  match ob with
  | none => []
  | some cond =>
    match limit with
    | some l => cond ++ [Piece.text (" LIMIT " ++ itoa l.begin ++ " OFFSET " ++ itoa l.step)]
    | none => cond

/-! ## Definitions used to state the properties -/

/-- The result that the scalar operator `op` is to return on the map `m` from the counter `c`:
with `ks` the keys in strictly ascending order, fragment `i` (from 0) is
`ks[i] ++ op ++ "$" ++ decimal (c + i + 1)`, value `i` is `m[ks[i]]`, and the counter ends at
`c + n`, where `n` is the number of keys. -/
def ScalarResult {V : Type} [Inhabited V] (m : GoMap V) (op : String) (c : Int)
    (r : List String × List V × Int) : Prop :=
  ∃ ks : List String, ks.Perm m.keys ∧ ks.Sorted strLT ∧
    r.1.length = m.length ∧ r.2.1.length = m.length ∧
    (∀ (i : Nat) (h : i < ks.length),
      r.1[i]? = some (ks[i] ++ op ++ "$" ++ itoa (c + (i + 1))) ∧
      r.2.1[i]? = some (m.get ks[i])) ∧
    r.2.2 = c + m.length

/-- The text `$p+1,$p+2,...,$p+n`: the `n` placeholders that follow the counter value `p`,
joined by commas. -/
def placeholderList (p : Int) (n : Nat) : String :=
  strings.Join ((List.range n).map (fun (j : Nat) => "$" ++ itoa (p + ((j : Int) + 1)))) ","

/-- The result that `In.Build` is to return on the map `m` from the counter `c`: with `ks` the
fields in strictly ascending order, there is one fragment per field; the fragment of field
`ks[i]`, bound to a sequence of length `n`, is `ks[i] IN ($p+1,...,$p+n)` where `p` is `c` plus
the lengths of the sequences of the fields before it; the values are the sequences
concatenated in the order of `ks`; the counter ends at `c` plus the number of values. -/
def InResult {V : Type} (m : GoMap (List V)) (c : Int) (r : List String × List V × Int) :
    Prop :=
  ∃ ks : List String, ks.Perm m.keys ∧ ks.Sorted strLT ∧
    r.1.length = m.length ∧
    (∀ (i : Nat) (h : i < ks.length),
      r.1[i]? = some (ks[i] ++ " IN ("
        ++ placeholderList (c + (((ks.take i).map (fun k => (m.get k).length)).sum : Nat))
            (m.get ks[i]).length ++ ")")) ∧
    r.2.1 = (ks.map (fun k => m.get k)).flatten ∧
    r.2.2 = c + r.2.1.length

/-- The conditions rendered one after the other in list order, each from the counter value at
which the previous one stopped: the fragments and the values of each. -/
def threadedBuild {V : Type} [Inhabited V] :
    List (Comparable V) → Int → List (List String × List V)
  | [], _ => []
  | cond :: rest, c => ((cond.Build c).1, (cond.Build c).2.1) :: threadedBuild rest (cond.Build c).2.2

/-- The backtick character. -/
def backtick : Char := Char.ofNat 96

/-- The string neither begins nor ends with a backtick. -/
def noBacktickEnds (k : String) : Prop :=
  k.data.head? ≠ some backtick ∧ k.data.getLast? ≠ some backtick

instance noBacktickEnds.decidable (k : String) : Decidable (noBacktickEnds k) :=
  inferInstanceAs (Decidable (_ ∧ _))

/-- Two presentations of one Go map: the same entries, none of them with a repeated key,
enumerated in possibly different orders. -/
def GoMap.Same {α : Type} (m m' : GoMap α) : Prop := m.NodupKeys ∧ m.Perm m'

/-- Two presentations of one condition: the same variant on two presentations of one map. -/
inductive Comparable.Same {V : Type} : Comparable V → Comparable V → Prop
  | nilComparable : Comparable.Same Comparable.nilComparable Comparable.nilComparable
  | Like {m m' : GoMap V} : m.Same m' → Comparable.Same (Comparable.Like m) (Comparable.Like m')
  | Eq {m m' : GoMap V} : m.Same m' → Comparable.Same (Comparable.Eq m) (Comparable.Eq m')
  | Ne {m m' : GoMap V} : m.Same m' → Comparable.Same (Comparable.Ne m) (Comparable.Ne m')
  | Lt {m m' : GoMap V} : m.Same m' → Comparable.Same (Comparable.Lt m) (Comparable.Lt m')
  | Lte {m m' : GoMap V} : m.Same m' → Comparable.Same (Comparable.Lte m) (Comparable.Lte m')
  | Gt {m m' : GoMap V} : m.Same m' → Comparable.Same (Comparable.Gt m) (Comparable.Gt m')
  | Gte {m m' : GoMap V} : m.Same m' → Comparable.Same (Comparable.Gte m) (Comparable.Gte m')
  | In {m m' : GoMap (List V)} : m.Same m' →
      Comparable.Same (Comparable.In m) (Comparable.In m')

/-- The assignments `k=$n` of an UPDATE for the keys `ks`, numbered from `c + 1` in the order
of the keys. -/
def assignments (c : Int) : List String → List String
  | [] => []
  | k :: ks => (k ++ "=$" ++ itoa (c + 1)) :: assignments (c + 1) ks

/-- The direction of an order-by entry is `ASC` or `DESC` after upper-casing. -/
def validOrder (o : eleOrderBy) : Prop :=
  strings.ToUpper o.order = "ASC" ∨ strings.ToUpper o.order = "DESC"

instance validOrder.decidable (o : eleOrderBy) : Decidable (validOrder o) :=
  inferInstanceAs (Decidable (_ ∨ _))

/-- An order-by entry rendered as the field, a blank and the upper-cased direction. -/
def renderOrder (o : eleOrderBy) : String := o.field ++ " " ++ strings.ToUpper o.order

/-- The opening of a SELECT: `SELECT <F> FROM <table>`, where `F` is `*` for the empty field
list and the fields joined by `,` otherwise. -/
def selectHead (table : String) (ufields : List String) : String :=
  "SELECT " ++ (if ufields.length = 0 then "*" else strings.Join ufields ",") ++ " FROM "
    ++ table

/-- The clause ` WHERE <w>`, present when `w` is not empty. -/
def whereClause (w : String) : String := if w = "" then "" else " WHERE " ++ w

/-- The clause ` GROUP BY <groupBy>`, present when `groupBy` is not empty. -/
def groupByClause (groupBy : String) : String :=
  if groupBy = "" then "" else " GROUP BY " ++ groupBy

/-- The clause ` ORDER BY <O>`, present when the order-by list is not empty; `O` is the list of
the entries rendered by `renderOrder`, joined by `,`. -/
def orderByClause (uOrderBy : List eleOrderBy) : String :=
  if uOrderBy.length = 0 then "" else " ORDER BY " ++ strings.Join (uOrderBy.map renderOrder) ","

/-- The clause ` LIMIT <first> OFFSET <second>`, present when a limit is given. -/
def limitClause : Option eleLimit → String
  | none => ""
  | some l => " LIMIT " ++ itoa l.begin ++ " OFFSET " ++ itoa l.step

/-- What `buildSelect` does with the having slice `having` when the counter stands at `c`:
nothing for the nil slice, and otherwise the text ` HAVING ` followed by the string of
`whereConnector`, with the values of `whereConnector`. -/
def havingStep {V : Type} [Inhabited V] (c : Int) :
    Option (List (Comparable V)) → String × List V
  | none => ("", [])
  | some having => (" HAVING " ++ (whereConnector c having).1, (whereConnector c having).2.1)

/-- The integers `p + 1, ..., p + n`. -/
def seqFrom (p : Int) (n : Nat) : List Int :=
  (List.range n).map (fun (i : Nat) => p + ((i : Int) + 1))

/-- The tuple `($p+1,...,$p+k)` of a record of `k` columns whose placeholders follow `p`. -/
def tupleText (p : Int) (k : Nat) : String := "(" ++ placeholderList p k ++ ")"

/-- The tuples of `r` records of `k` columns each, the placeholders of the first one following
`p`: `($p+1,...,$p+k)`, `($p+k+1,...,$p+2k)`, and so on. -/
def tuplesFrom (p : Int) (k : Nat) : Nat → List String
  | 0 => []
  | r + 1 => tupleText p k :: tuplesFrom (p + k) k r

/-- Whether position `i` of the condition list holds a `nilComparable`. -/
def sentinelAt {V : Type} (conds : List (Comparable V)) (i : Nat) : Bool :=
  match conds.get? i with
  | some c => c.isNilComparable
  | none => false

/-- The index of the last `nilComparable` of the condition list, if it has one. -/
def lastSentinel {V : Type} (conds : List (Comparable V)) : Option Nat :=
  ((List.range conds.length).filter (sentinelAt conds)).getLast?

/-- The condition is the sentinel or has an empty map. -/
def Comparable.rendersNothing {V : Type} : Comparable V → Bool
  | Comparable.nilComparable => true
  | Comparable.Like m => m.isEmpty
  | Comparable.Eq m => m.isEmpty
  | Comparable.Ne m => m.isEmpty
  | Comparable.Lt m => m.isEmpty
  | Comparable.Lte m => m.isEmpty
  | Comparable.Gt m => m.isEmpty
  | Comparable.Gte m => m.isEmpty
  | Comparable.In m => m.isEmpty

/-- The keys of the map of a condition. -/
def Comparable.fields {V : Type} : Comparable V → List String
  | Comparable.nilComparable => []
  | Comparable.Like m => m.keys
  | Comparable.Eq m => m.keys
  | Comparable.Ne m => m.keys
  | Comparable.Lt m => m.keys
  | Comparable.Lte m => m.keys
  | Comparable.Gt m => m.keys
  | Comparable.Gte m => m.keys
  | Comparable.In m => m.keys

/-- The number that a run of decimal digits denotes. -/
def digitsValue (ds : List Char) : Nat :=
  ds.foldl (fun a ch => 10 * a + (ch.toNat - 48)) 0

/-- The number denoted by the longest run of digits at the head of a text, if that run is not
empty. -/
def readDigits (cs : List Char) : Option Nat :=
  if cs.takeWhile Char.isDigit = [] then none
  else some (digitsValue (cs.takeWhile Char.isDigit))

/-- The decimal numeral at the head of a text, if there is one: an optional `-` and the longest
run of digits, which is not empty. -/
def readNumeral : List Char → Option Int
  | [] => none
  | ch :: cs =>
    if ch = '-' then (readDigits cs).map (fun (n : Nat) => -(n : Int))
    else (readDigits (ch :: cs)).map (fun (n : Nat) => (n : Int))

/-- The placeholders of a text from left to right: the number `n` of each occurrence of `$n`,
a `$` directly followed by a decimal numeral. -/
def placeholderNumbers : List Char → List Int
  | [] => []
  | ch :: cs =>
    if ch = '$' then
      match readNumeral cs with
      | some n => n :: placeholderNumbers cs
      | none => placeholderNumbers cs
    else placeholderNumbers cs

/-- The highest placeholder number of a text, `0` when it has no placeholder. -/
def highestPlaceholder (text : String) : Int := (placeholderNumbers text.data).foldl max 0

/-- The string holds no placeholder: no `$` in it is directly followed by a decimal numeral. -/
def placeholderFree (s : String) : Prop := placeholderNumbers s.data = []

instance placeholderFree.decidable (s : String) : Decidable (placeholderFree s) :=
  inferInstanceAs (Decidable (placeholderNumbers s.data = []))

/-- The string holds no `$`. -/
def dollarFree (s : String) : Prop := '$' ∉ s.data

instance dollarFree.decidable (s : String) : Decidable (dollarFree s) :=
  inferInstanceAs (Decidable ('$' ∉ s.data))

/-- The text does not begin with a digit. -/
def noDigitHead (cs : List Char) : Prop := ∀ ch, cs.head? = some ch → ch.isDigit = false

/-- The text begins neither with a digit nor with `-`: put behind a `$` it makes no
placeholder. -/
def safeHead (cs : List Char) : Prop :=
  ∀ ch, cs.head? = some ch → ch.isDigit = false ∧ ch ≠ '-'

/-- The text adds no placeholder to whatever follows it. -/
def Sealed (cs : List Char) : Prop :=
  ∀ rest, placeholderNumbers (cs ++ rest) = placeholderNumbers rest

/-- A list of pieces whose placeholders can be read off its text: a literal text adds no
placeholder to what follows it, or it holds no placeholder and what follows it begins neither
with a digit nor with `-`; and no placeholder is directly followed by a digit. -/
def Readable {V : Type} : List (Piece V) → Prop
  | [] => True
  | Piece.text s :: ps =>
    (Sealed s.data ∨ (placeholderFree s ∧ safeHead (renderPieces ps).data)) ∧ Readable ps
  | Piece.holder _ _ :: ps => noDigitHead (renderPieces ps).data ∧ Readable ps

/-- The record `r` without the entries whose key is not a key of the record `first`. -/
def restrictTo {V : Type} (first r : GoMap V) : GoMap V :=
  r.filter (fun p => decide (p.1 ∈ first.keys))

/-! ## The order of `sort.Strings` -/

theorem strLT_of_strLE_of_ne {a b : String} (h : strLE a b) (hne : a ≠ b) : strLT a b := by
  have h' : a.data ≤ b.data := h
  have hd : a.data ≠ b.data := fun e => hne (String.ext e)
  exact lt_of_le_of_ne h' hd

theorem defaultSortAlgorithm_perm (xs : List String) : (defaultSortAlgorithm xs).Perm xs :=
  List.perm_insertionSort strLE xs

theorem defaultSortAlgorithm_sorted (xs : List String) :
    (defaultSortAlgorithm xs).Sorted strLE :=
  List.sorted_insertionSort strLE xs

theorem defaultSortAlgorithm_length (xs : List String) :
    (defaultSortAlgorithm xs).length = xs.length :=
  (defaultSortAlgorithm_perm xs).length_eq

/-- On a list without repetition the sorted list is strictly ascending. -/
theorem defaultSortAlgorithm_strict (xs : List String) (h : xs.Nodup) :
    (defaultSortAlgorithm xs).Sorted strLT := by
  have hs := defaultSortAlgorithm_sorted xs
  have hn : (defaultSortAlgorithm xs).Nodup := (defaultSortAlgorithm_perm xs).nodup_iff.mpr h
  unfold List.Sorted at hs ⊢
  exact (hs.and hn).imp (fun hab => strLT_of_strLE_of_ne hab.1 hab.2)

/-- Sorting does not see the order in which the strings are presented. -/
theorem defaultSortAlgorithm_congr {xs ys : List String} (h : xs.Perm ys) :
    defaultSortAlgorithm xs = defaultSortAlgorithm ys :=
  List.eq_of_perm_of_sorted
    (((defaultSortAlgorithm_perm xs).trans h).trans (defaultSortAlgorithm_perm ys).symm)
    (defaultSortAlgorithm_sorted xs) (defaultSortAlgorithm_sorted ys)

/-! ## The scalar operators (`build`) -/

theorem build_eq_loop {V : Type} [Inhabited V] (m : GoMap V) (op : String) (c : Int) :
    build m op c = build.loop m op (defaultSortAlgorithm m.keys) c := by
  unfold build
  split
  · next h =>
    have hm : m = [] := List.length_eq_zero.mp h
    subst hm
    rfl
  · rfl

theorem build_loop_length {V : Type} [Inhabited V] (m : GoMap V) (op : String) :
    ∀ (ks : List String) (c : Int), (build.loop m op ks c).1.length = ks.length
  | [], _ => rfl
  | _ :: rest, c => by simp [build.loop, build_loop_length m op rest]

theorem build_loop_vals {V : Type} [Inhabited V] (m : GoMap V) (op : String) :
    ∀ (ks : List String) (c : Int), (build.loop m op ks c).2.1 = ks.map (fun k => m.get k)
  | [], _ => rfl
  | _ :: rest, c => by simp [build.loop, build_loop_vals m op rest]

theorem build_loop_counter {V : Type} [Inhabited V] (m : GoMap V) (op : String) :
    ∀ (ks : List String) (c : Int), (build.loop m op ks c).2.2 = c + ks.length
  | [], c => by simp [build.loop]
  | _ :: rest, c => by
    simp [build.loop, build_loop_counter m op rest]
    omega

theorem build_loop_frag {V : Type} [Inhabited V] (m : GoMap V) (op : String) :
    ∀ (ks : List String) (c : Int) (i : Nat) (h : i < ks.length),
      (build.loop m op ks c).1[i]? = some (ks[i] ++ op ++ "$" ++ itoa (c + (i + 1)))
  | [], _, _, h => absurd h (by simp)
  | k :: rest, c, 0, _ => by simp [build.loop, assembleExpression, quoteField]
  | k :: rest, c, i + 1, h => by
    have h' : i < rest.length := by simpa using h
    have ih := build_loop_frag m op rest (c + 1) i h'
    simp only [build.loop, List.getElem?_cons_succ, List.getElem_cons_succ]
    rw [ih]
    congr 3
    push_cast
    omega

theorem build_scalarResult {V : Type} [Inhabited V] (m : GoMap V) (op : String) (c : Int)
    (hm : m.NodupKeys) : ScalarResult m op c (build m op c) := by
  have hlen : (defaultSortAlgorithm m.keys).length = m.length := by
    rw [defaultSortAlgorithm_length]; simp [GoMap.keys]
  refine ⟨defaultSortAlgorithm m.keys, defaultSortAlgorithm_perm _,
    defaultSortAlgorithm_strict _ hm, ?_, ?_, ?_, ?_⟩
  · rw [build_eq_loop, build_loop_length, hlen]
  · rw [build_eq_loop, build_loop_vals, List.length_map, hlen]
  · intro i h
    refine ⟨?_, ?_⟩
    · rw [build_eq_loop]; exact build_loop_frag m op _ c i h
    · rw [build_eq_loop, build_loop_vals]; simp [h]
  · rw [build_eq_loop, build_loop_counter, hlen]

/-! ## `Like` -/

theorem Like_Build_eq_loop {V : Type} [Inhabited V] (m : GoMap V) (c : Int) :
    Like.Build m c = Like.loop m (defaultSortAlgorithm m.keys) c := by
  unfold Like.Build
  split
  · next h =>
    have hm : m = [] := List.length_eq_zero.mp h
    subst hm
    rfl
  · rfl

/-- The loop of `Like.Build` is the loop of `build` with the operator ` LIKE `. -/
theorem Like_loop_eq_build_loop {V : Type} [Inhabited V] (m : GoMap V) :
    ∀ (ks : List String) (c : Int), Like.loop m ks c = build.loop m " LIKE " ks c
  | [], _ => rfl
  | k :: rest, c => by
    have e : k ++ " LIKE $" = k ++ " LIKE " ++ "$" := by
      rw [String.append_assoc]; rfl
    simp only [Like.loop, build.loop, assembleExpression, quoteField,
      Like_loop_eq_build_loop m rest, e]

/-! ## Empty maps -/

/-- C4: for every condition variant and every counter `c`, `Build` on the nil or empty map
returns no fragments and no values and leaves the counter at `c`. -/
theorem Build_empty {V : Type} [Inhabited V] (c : Int) :
    Like.Build ([] : GoMap V) c = ([], [], c) ∧
    Eq.Build ([] : GoMap V) c = ([], [], c) ∧
    Ne.Build ([] : GoMap V) c = ([], [], c) ∧
    Lt.Build ([] : GoMap V) c = ([], [], c) ∧
    Lte.Build ([] : GoMap V) c = ([], [], c) ∧
    Gt.Build ([] : GoMap V) c = ([], [], c) ∧
    Gte.Build ([] : GoMap V) c = ([], [], c) ∧
    In.Build ([] : GoMap (List V)) c = ([], [], c) :=
  ⟨rfl, rfl, rfl, rfl, rfl, rfl, rfl, rfl⟩

/-! ## `In` -/

theorem strings_Join_cons {a : String} {l : List String} (sep : String) (h : l ≠ []) :
    strings.Join (a :: l) sep = a ++ sep ++ strings.Join l sep := by
  cases l with
  | nil => exact absurd rfl h
  | cons b rest => rfl

theorem placeholderList_succ (p : Int) (n : Nat) :
    (List.range (n + 1)).map (fun (j : Nat) => "$" ++ itoa (p + ((j : Int) + 1)))
      = ("$" ++ itoa (p + 1)) ::
        (List.range n).map (fun (j : Nat) => "$" ++ itoa (p + 1 + ((j : Int) + 1))) := by
  rw [List.range_succ_eq_map, List.map_cons, List.map_map]
  congr 1
  apply List.map_congr_left
  intro j _
  simp only [Function.comp, Nat.succ_eq_add_one]
  congr 2
  push_cast
  omega

theorem buildIn_loop_counter {V : Type} :
    ∀ (vals : List V) (c : Int), (buildIn.loop vals c).2 = c + vals.length
  | [], c => by simp [buildIn.loop]
  | _ :: rest, c => by
    simp [buildIn.loop, buildIn_loop_counter rest]
    omega

theorem buildIn_loop_text {V : Type} :
    ∀ (vals : List V) (c : Int), (buildIn.loop vals c).1 = placeholderList c vals.length
  | [], _ => rfl
  | _ :: rest, c => by
    have ih := buildIn_loop_text rest (c + 1)
    unfold placeholderList at ih ⊢
    simp only [buildIn.loop, List.length_cons]
    rw [placeholderList_succ, ih]
    cases rest with
    | nil => simp [strings.Join]
    | cons r rs =>
      rw [strings_Join_cons]
      · simp
      · simp [List.range_succ_eq_map]

theorem buildIn_eq {V : Type} (field : String) (vals : List V) (c : Int) :
    buildIn field vals c
      = (field ++ " IN (" ++ placeholderList c vals.length ++ ")", c + vals.length) := by
  simp [buildIn, buildIn_loop_text, buildIn_loop_counter, quoteField]

theorem In_Build_eq_loop {V : Type} (m : GoMap (List V)) (c : Int) :
    In.Build m c = In.loop m (defaultSortAlgorithm m.keys) c := by
  unfold In.Build
  split
  · next h =>
    have hm : m = [] := List.length_eq_zero.mp h
    subst hm
    rfl
  · rfl

theorem In_loop_length {V : Type} (m : GoMap (List V)) :
    ∀ (ks : List String) (c : Int), (In.loop m ks c).1.length = ks.length
  | [], _ => rfl
  | _ :: rest, c => by simp [In.loop, In_loop_length m rest]

theorem In_loop_vals {V : Type} (m : GoMap (List V)) :
    ∀ (ks : List String) (c : Int),
      (In.loop m ks c).2.1 = (ks.map (fun k => m.get k)).flatten
  | [], _ => rfl
  | _ :: rest, c => by simp [In.loop, In_loop_vals m rest]

theorem In_loop_counter {V : Type} (m : GoMap (List V)) :
    ∀ (ks : List String) (c : Int),
      (In.loop m ks c).2.2 = c + ((ks.map (fun k => (m.get k).length)).sum : Nat)
  | [], c => by simp [In.loop]
  | _ :: rest, c => by
    simp [In.loop, In_loop_counter m rest, buildIn_eq]
    omega

theorem In_loop_frag {V : Type} (m : GoMap (List V)) :
    ∀ (ks : List String) (c : Int) (i : Nat) (h : i < ks.length),
      (In.loop m ks c).1[i]? = some (ks[i] ++ " IN ("
        ++ placeholderList (c + (((ks.take i).map (fun k => (m.get k).length)).sum : Nat))
            (m.get ks[i]).length ++ ")")
  | [], _, _, h => absurd h (by simp)
  | k :: rest, c, 0, _ => by simp [In.loop, buildIn_eq]
  | k :: rest, c, i + 1, h => by
    have h' : i < rest.length := by simpa using h
    have ih := In_loop_frag m rest (c + (m.get k).length) i h'
    simp only [In.loop, buildIn_eq, List.getElem?_cons_succ, List.getElem_cons_succ,
      List.take_succ_cons, List.map_cons, List.sum_cons]
    rw [ih]
    have e : c + ((m.get k).length : Int)
          + ((List.map (fun k => (m.get k).length) (List.take i rest)).sum : Nat)
        = c + (((m.get k).length
          + (List.map (fun k => (m.get k).length) (List.take i rest)).sum : Nat) : Int) := by
      push_cast
      omega
    rw [e]

/-- The result of `In.Build` with the counter counting in the integers. -/
theorem In_Build_inResult {V : Type} (m : GoMap (List V)) (c : Int) (hm : m.NodupKeys) :
    InResult m c (In.Build m c) := by
  have hlen : (defaultSortAlgorithm m.keys).length = m.length := by
    rw [defaultSortAlgorithm_length]; simp [GoMap.keys]
  refine ⟨defaultSortAlgorithm m.keys, defaultSortAlgorithm_perm _,
    defaultSortAlgorithm_strict _ hm, ?_, ?_, ?_, ?_⟩
  · rw [In_Build_eq_loop, In_loop_length, hlen]
  · intro i h
    rw [In_Build_eq_loop]
    exact In_loop_frag m _ c i h
  · rw [In_Build_eq_loop, In_loop_vals]
  · rw [In_Build_eq_loop, In_loop_counter, In_loop_vals, List.length_flatten, List.map_map]
    rfl

/-! ## `whereConnector` -/

theorem build_no_frag {V : Type} [Inhabited V] (m : GoMap V) (op : String) (c : Int)
    (h : (build m op c).1.length = 0) : m = [] := by
  rw [build_eq_loop, build_loop_length, defaultSortAlgorithm_length] at h
  simpa [GoMap.keys] using h

theorem Like_Build_no_frag {V : Type} [Inhabited V] (m : GoMap V) (c : Int)
    (h : (Like.Build m c).1.length = 0) : m = [] := by
  rw [Like_Build_eq_loop, Like_loop_eq_build_loop, build_loop_length,
    defaultSortAlgorithm_length] at h
  simpa [GoMap.keys] using h

theorem In_Build_no_frag {V : Type} (m : GoMap (List V)) (c : Int)
    (h : (In.Build m c).1.length = 0) : m = [] := by
  rw [In_Build_eq_loop, In_loop_length, defaultSortAlgorithm_length] at h
  simpa [GoMap.keys] using h

/-- A condition that returns no fragment returns no value and leaves the counter alone. -/
theorem Comparable_Build_no_frag {V : Type} [Inhabited V] (cond : Comparable V) (c : Int)
    (h : (cond.Build c).1.length = 0) : cond.Build c = ([], [], c) := by
  cases cond with
  | nilComparable => rfl
  | Like m => have := Like_Build_no_frag m c h; subst this; rfl
  | Eq m => have := build_no_frag m "=" c h; subst this; rfl
  | Ne m => have := build_no_frag m "!=" c h; subst this; rfl
  | Lt m => have := build_no_frag m "<" c h; subst this; rfl
  | Lte m => have := build_no_frag m "<=" c h; subst this; rfl
  | Gt m => have := build_no_frag m ">" c h; subst this; rfl
  | Gte m => have := build_no_frag m ">=" c h; subst this; rfl
  | In m => have := In_Build_no_frag m c h; subst this; rfl

theorem whereConnector_loop_eq {V : Type} [Inhabited V] :
    ∀ (conds : List (Comparable V)) (c : Int),
      (whereConnector.loop conds c).1 = ((threadedBuild conds c).map Prod.fst).flatten ∧
      (whereConnector.loop conds c).2.1 = ((threadedBuild conds c).map Prod.snd).flatten
  | [], _ => ⟨rfl, rfl⟩
  | cond :: rest, c => by
    have ih := whereConnector_loop_eq rest (cond.Build c).2.2
    simp only [whereConnector.loop, threadedBuild, List.map_cons, List.flatten_cons]
    split
    · next h =>
      have hb := Comparable_Build_no_frag cond c h
      rw [hb] at ih ⊢
      simpa using ih
    · exact ⟨by rw [ih.1], by rw [ih.2]⟩

/-- C5: `whereConnector` renders the conditions in list order with the counter threaded from
each condition to the next; when at least one fragment is produced it returns `(`, the
fragments in that order joined by ` AND `, and `)`, together with the concatenation of the
values of the conditions in the same order; when no fragment is produced (in particular for
the empty list) it returns the empty string and no values. -/
theorem whereConnector_joins {V : Type} [Inhabited V] (conds : List (Comparable V)) (c : Int) :
    ((whereConnector c conds).1, (whereConnector c conds).2.1)
      = if ((threadedBuild conds c).map Prod.fst).flatten.length = 0 then ("", [])
        else ("(" ++ strings.Join ((threadedBuild conds c).map Prod.fst).flatten " AND " ++ ")",
              ((threadedBuild conds c).map Prod.snd).flatten) := by
  have hl := whereConnector_loop_eq conds c
  unfold whereConnector
  split
  · next h =>
    have : conds = [] := List.length_eq_zero.mp h
    subst this
    rfl
  · simp only []
    rw [hl.1, hl.2]
    split <;> rfl

/-! ## Placeholders and values -/

theorem renderPieces_append {V : Type} :
    ∀ (a b : List (Piece V)), renderPieces (a ++ b) = renderPieces a ++ renderPieces b
  | [], b => by simp [renderPieces]
  | p :: ps, b => by
    simp [renderPieces, renderPieces_append ps b, String.append_assoc]

theorem holders_append {V : Type} :
    ∀ (a b : List (Piece V)), holders (a ++ b) = holders a ++ holders b
  | [], _ => rfl
  | Piece.text _ :: ps, b => by simp [holders, holders_append ps b]
  | Piece.holder _ _ :: ps, b => by simp [holders, holders_append ps b]

theorem numbered_nil {V : Type} (c : Int) : numbered c ([] : List V) = [] := rfl

theorem numbered_cons {V : Type} (c : Int) (v : V) (vs : List V) :
    numbered c (v :: vs) = (c + 1, v) :: numbered (c + 1) vs := by
  unfold numbered
  rw [List.length_cons, List.range_succ_eq_map, List.map_cons, List.zip_cons_cons, List.map_map]
  congr 2
  apply List.map_congr_left
  intro k _
  simp only [Function.comp, Nat.succ_eq_add_one]
  push_cast
  omega

theorem numbered_append {V : Type} :
    ∀ (c : Int) (a b : List V),
      numbered c (a ++ b) = numbered c a ++ numbered (c + a.length) b
  | c, [], b => by simp [numbered_nil]
  | c, v :: vs, b => by
    rw [List.cons_append, numbered_cons, numbered_cons, numbered_append (c + 1) vs b,
      List.cons_append]
    congr 3
    simp only [List.length_cons]
    push_cast
    omega

theorem numbered_length {V : Type} (c : Int) (vals : List V) :
    (numbered c vals).length = vals.length := by
  simp [numbered]

theorem holders_joinPieces {V : Type} (sep : String) :
    ∀ (l : List (List (Piece V))), holders (joinPieces l sep) = holders l.flatten
  | [] => rfl
  | [a] => by simp [joinPieces]
  | a :: b :: rest => by
    have ih := holders_joinPieces sep (b :: rest)
    simp only [joinPieces, List.flatten_cons, holders_append, holders] at ih ⊢
    rw [ih]

theorem renderPieces_joinPieces {V : Type} (sep : String) :
    ∀ (l : List (List (Piece V))),
      renderPieces (joinPieces l sep) = strings.Join (l.map renderPieces) sep
  | [] => rfl
  | [a] => by simp [joinPieces, strings.Join]
  | a :: b :: rest => by
    have ih := renderPieces_joinPieces sep (b :: rest)
    simp only [joinPieces, List.map_cons, strings.Join, renderPieces_append, renderPieces,
      Piece.render] at ih ⊢
    rw [ih, String.append_assoc]

theorem build_loopT_render {V : Type} [Inhabited V] (m : GoMap V) (op : String) :
    ∀ (ks : List String) (c : Int),
      (build.loopT m op ks c).map renderPieces = (build.loop m op ks c).1
  | [], _ => rfl
  | k :: rest, c => by
    simp only [build.loopT, build.loop, List.map_cons, build_loopT_render m op rest,
      renderPieces, Piece.render, assembleExpression, String.append_assoc, String.append_empty]

theorem build_loopT_holders {V : Type} [Inhabited V] (m : GoMap V) (op : String) :
    ∀ (ks : List String) (c : Int),
      holders (build.loopT m op ks c).flatten = numbered c (build.loop m op ks c).2.1
  | [], _ => rfl
  | k :: rest, c => by
    have ih := build_loopT_holders m op rest (c + 1)
    simp only [build.loopT, build.loop, List.flatten_cons, List.cons_append, List.nil_append,
      holders, numbered_cons]
    exact congrArg (fun t => (c + 1, m.get k) :: t) ih

theorem buildT_render {V : Type} [Inhabited V] (m : GoMap V) (op : String) (c : Int) :
    (buildT m op c).map renderPieces = (build m op c).1 := by
  unfold buildT build
  split
  · rfl
  · exact build_loopT_render m op _ c

theorem buildT_holders {V : Type} [Inhabited V] (m : GoMap V) (op : String) (c : Int) :
    holders (buildT m op c).flatten = numbered c (build m op c).2.1 := by
  unfold buildT build
  split
  · rfl
  · exact build_loopT_holders m op _ c

theorem build_counter {V : Type} [Inhabited V] (m : GoMap V) (op : String) (c : Int) :
    (build m op c).2.2 = c + (build m op c).2.1.length := by
  rw [build_eq_loop, build_loop_counter, build_loop_vals, List.length_map]

theorem buildIn_loopT_render {V : Type} :
    ∀ (vals : List V) (c : Int),
      renderPieces (buildIn.loopT vals c) = (buildIn.loop vals c).1
  | [], _ => rfl
  | v :: rest, c => by
    simp only [buildIn.loopT, buildIn.loop, renderPieces, Piece.render,
      buildIn_loopT_render rest, String.append_assoc]

theorem buildIn_loopT_holders {V : Type} :
    ∀ (vals : List V) (c : Int), holders (buildIn.loopT vals c) = numbered c vals
  | [], _ => rfl
  | v :: rest, c => by
    simp only [buildIn.loopT, holders, buildIn_loopT_holders rest, numbered_cons]

theorem buildInT_render {V : Type} (field : String) (vals : List V) (c : Int) :
    renderPieces (buildInT field vals c) = (buildIn field vals c).1 := by
  simp only [buildInT, buildIn, renderPieces, renderPieces_append, Piece.render,
    buildIn_loopT_render, String.append_assoc, String.append_empty]

theorem buildInT_holders {V : Type} (field : String) (vals : List V) (c : Int) :
    holders (buildInT field vals c) = numbered c vals := by
  simp [buildInT, holders, holders_append, buildIn_loopT_holders]

theorem In_loopT_render {V : Type} (m : GoMap (List V)) :
    ∀ (ks : List String) (c : Int),
      (In.loopT m ks c).map renderPieces = (In.loop m ks c).1
  | [], _ => rfl
  | k :: rest, c => by
    simp only [In.loopT, In.loop, List.map_cons, In_loopT_render m rest, buildInT_render]

theorem In_loopT_holders {V : Type} (m : GoMap (List V)) :
    ∀ (ks : List String) (c : Int),
      holders (In.loopT m ks c).flatten = numbered c (In.loop m ks c).2.1
  | [], _ => rfl
  | k :: rest, c => by
    simp only [In.loopT, In.loop, List.flatten_cons, holders_append, buildInT_holders,
      In_loopT_holders m rest, numbered_append, buildIn_eq]

theorem In_BuildT_render {V : Type} (m : GoMap (List V)) (c : Int) :
    (In.BuildT m c).map renderPieces = (In.Build m c).1 := by
  unfold In.BuildT In.Build
  split
  · rfl
  · exact In_loopT_render m _ c

theorem In_BuildT_holders {V : Type} (m : GoMap (List V)) (c : Int) :
    holders (In.BuildT m c).flatten = numbered c (In.Build m c).2.1 := by
  unfold In.BuildT In.Build
  split
  · rfl
  · exact In_loopT_holders m _ c

theorem In_Build_counter {V : Type} (m : GoMap (List V)) (c : Int) :
    (In.Build m c).2.2 = c + (In.Build m c).2.1.length := by
  rw [In_Build_eq_loop, In_loop_counter, In_loop_vals, List.length_flatten, List.map_map]
  rfl

theorem Like_Build_eq_build {V : Type} [Inhabited V] (m : GoMap V) (c : Int) :
    Like.Build m c = build m " LIKE " c := by
  rw [Like_Build_eq_loop, Like_loop_eq_build_loop, ← build_eq_loop]

theorem Comparable_BuildT_render {V : Type} [Inhabited V] (cond : Comparable V) (c : Int) :
    (cond.BuildT c).map renderPieces = (cond.Build c).1 := by
  cases cond with
  | nilComparable => rfl
  | Like m =>
    simp only [Comparable.BuildT, Comparable.Build, Like_Build_eq_build, buildT_render]
  | In m => exact In_BuildT_render m c
  | _ => exact buildT_render _ _ c

theorem Comparable_BuildT_holders {V : Type} [Inhabited V] (cond : Comparable V) (c : Int) :
    holders (cond.BuildT c).flatten = numbered c (cond.Build c).2.1 := by
  cases cond with
  | nilComparable => rfl
  | Like m =>
    simp only [Comparable.BuildT, Comparable.Build, Like_Build_eq_build, buildT_holders]
  | In m => exact In_BuildT_holders m c
  | _ => exact buildT_holders _ _ c

theorem Comparable_Build_counter {V : Type} [Inhabited V] (cond : Comparable V) (c : Int) :
    (cond.Build c).2.2 = c + (cond.Build c).2.1.length := by
  cases cond with
  | nilComparable => simp [Comparable.Build]
  | Like m => simp only [Comparable.Build, Like_Build_eq_build]; exact build_counter m _ c
  | In m => exact In_Build_counter m c
  | _ => exact build_counter _ _ c


theorem digitChar_ne_comma (d : Nat) (h : d < 10) : Nat.digitChar d ≠ ',' := by
  interval_cases d <;> decide

theorem toDigitsCore_suffix (fuel : Nat) :
    ∀ (n : Nat) (ds : List Char), ∃ pre, Nat.toDigitsCore 10 fuel n ds = pre ++ ds := by
  induction fuel with
  | zero => intro n ds; exact ⟨[], rfl⟩
  | succ f ih =>
    intro n ds
    simp only [Nat.toDigitsCore]
    split
    · exact ⟨[Nat.digitChar (n % 10)], rfl⟩
    · obtain ⟨pre, hp⟩ := ih (n / 10) (Nat.digitChar (n % 10) :: ds)
      exact ⟨pre ++ [Nat.digitChar (n % 10)], by rw [hp]; simp⟩

theorem toDigits_last (n : Nat) :
    ∃ pre, Nat.toDigits 10 n = pre ++ [Nat.digitChar (n % 10)] := by
  unfold Nat.toDigits
  simp only [Nat.toDigitsCore]
  split
  · exact ⟨[], rfl⟩
  · exact toDigitsCore_suffix n (n / 10) [Nat.digitChar (n % 10)]

/-- The decimal numeral of an integer ends in a digit. -/
theorem itoa_last (n : Int) :
    ∃ pre d, d < 10 ∧ (itoa n).data = pre ++ [Nat.digitChar d] := by
  cases n with
  | ofNat k =>
    obtain ⟨pre, hp⟩ := toDigits_last k
    exact ⟨pre, k % 10, Nat.mod_lt _ (by decide), by simp [itoa, Nat.repr, hp, List.asString]⟩
  | negSucc k =>
    obtain ⟨pre, hp⟩ := toDigits_last (k + 1)
    exact ⟨'-' :: pre, (k + 1) % 10, Nat.mod_lt _ (by decide),
      by simp [itoa, Nat.repr, hp, List.asString]⟩

theorem trimLeftChars_of_not_mem (cutset : List Char) (c : Char) (cs : List Char)
    (h : c ∉ cutset) : strings.trimLeftChars cutset (c :: cs) = c :: cs := by
  simp [strings.trimLeftChars, h]

/-- Trimming commas on the right of a text that ends in a digit and one comma removes that
comma only. -/
theorem TrimRight_comma (l : List Char) (d : Nat) (h : d < 10) :
    strings.TrimRight ⟨l ++ [Nat.digitChar d] ++ [',']⟩ "," = ⟨l ++ [Nat.digitChar d]⟩ := by
  have hd := digitChar_ne_comma d h
  simp [strings.TrimRight, strings.trimLeftChars, hd]


theorem whereConnector_loopT_render {V : Type} [Inhabited V] :
    ∀ (conds : List (Comparable V)) (c : Int),
      (whereConnector.loopT conds c).map renderPieces = (whereConnector.loop conds c).1
  | [], _ => rfl
  | cond :: rest, c => by
    have ih := whereConnector_loopT_render rest (cond.Build c).2.2
    have hb := Comparable_BuildT_render cond c
    have hl : (cond.BuildT c).length = (cond.Build c).1.length := by
      rw [← hb, List.length_map]
    simp only [whereConnector.loopT, whereConnector.loop, hl]
    split
    · exact ih
    · rw [List.map_append, hb, ih]

theorem whereConnector_loopT_holders {V : Type} [Inhabited V] :
    ∀ (conds : List (Comparable V)) (c : Int),
      holders (whereConnector.loopT conds c).flatten
        = numbered c (whereConnector.loop conds c).2.1
  | [], _ => rfl
  | cond :: rest, c => by
    have ih := whereConnector_loopT_holders rest (cond.Build c).2.2
    have hb := Comparable_BuildT_render cond c
    have hl : (cond.BuildT c).length = (cond.Build c).1.length := by
      rw [← hb, List.length_map]
    simp only [whereConnector.loopT, whereConnector.loop, hl]
    split
    · next h =>
      rw [ih, Comparable_Build_no_frag cond c h]
    · rw [List.flatten_append, holders_append, Comparable_BuildT_holders, ih,
        numbered_append, Comparable_Build_counter]

theorem whereConnector_loop_counter {V : Type} [Inhabited V] :
    ∀ (conds : List (Comparable V)) (c : Int),
      (whereConnector.loop conds c).2.2 = c + (whereConnector.loop conds c).2.1.length
  | [], c => by simp [whereConnector.loop]
  | cond :: rest, c => by
    have ih := whereConnector_loop_counter rest (cond.Build c).2.2
    simp only [whereConnector.loop]
    split
    · next h =>
      rw [ih, Comparable_Build_no_frag cond c h]
    · simp only [List.length_append]
      rw [ih, Comparable_Build_counter]
      push_cast
      omega

/-- When the loop of `whereConnector` collects no fragment it collects no value. -/
theorem whereConnector_loop_no_frag {V : Type} [Inhabited V] (conds : List (Comparable V))
    (c : Int) (h : (whereConnector.loop conds c).1.length = 0) :
    (whereConnector.loop conds c).2.1 = [] := by
  have hr := whereConnector_loopT_render conds c
  have hh := whereConnector_loopT_holders conds c
  have hnil : whereConnector.loopT conds c = [] := by
    apply List.length_eq_zero.mp
    rw [← h, ← hr, List.length_map]
  rw [hnil] at hh
  have hlen := numbered_length c (whereConnector.loop conds c).2.1
  rw [← hh] at hlen
  exact List.length_eq_zero.mp hlen.symm

theorem whereConnectorT_render {V : Type} [Inhabited V] (conds : List (Comparable V))
    (c : Int) : renderPieces (whereConnectorT c conds) = (whereConnector c conds).1 := by
  have hr := whereConnector_loopT_render conds c
  have hl : (whereConnector.loopT conds c).length = (whereConnector.loop conds c).1.length := by
    rw [← hr, List.length_map]
  unfold whereConnectorT whereConnector
  split
  · rfl
  · simp only [hl]
    split
    · rfl
    · simp only [renderPieces, renderPieces_append, Piece.render, renderPieces_joinPieces, hr,
        String.append_assoc, String.append_empty]

theorem whereConnectorT_holders {V : Type} [Inhabited V] (conds : List (Comparable V))
    (c : Int) : holders (whereConnectorT c conds) = numbered c (whereConnector c conds).2.1 := by
  have hr := whereConnector_loopT_render conds c
  have hl : (whereConnector.loopT conds c).length = (whereConnector.loop conds c).1.length := by
    rw [← hr, List.length_map]
  unfold whereConnectorT whereConnector
  split
  · rfl
  · simp only [hl]
    split
    · rfl
    · simp only [holders, holders_append, holders_joinPieces, List.append_nil]
      exact whereConnector_loopT_holders conds c

theorem whereConnector_counter {V : Type} [Inhabited V] (conds : List (Comparable V))
    (c : Int) : (whereConnector c conds).2.2 = c + (whereConnector c conds).2.1.length := by
  unfold whereConnector
  split
  · simp
  · simp only []
    split
    · next h =>
      have := whereConnector_loop_counter conds c
      rw [whereConnector_loop_no_frag conds c h] at this
      simpa using this
    · exact whereConnector_loop_counter conds c

/-- The string of `whereConnector` is empty only when it returns no value. -/
theorem whereConnector_vals_of_empty {V : Type} [Inhabited V] (conds : List (Comparable V))
    (c : Int) (h : "" = (whereConnector c conds).1) : (whereConnector c conds).2.1 = [] := by
  by_cases h0 : conds.length = 0
  · simp [whereConnector, h0]
  · by_cases h1 : (whereConnector.loop conds c).1.length = 0
    · simp [whereConnector, h0, h1]
    · simp only [whereConnector, if_neg h0, if_neg h1] at h
      have hlen := congrArg String.length h
      rw [String.length_append, String.length_append] at hlen
      have h1 : "(".length = 1 := by decide
      have h0 : "".length = 0 := by decide
      omega


theorem highestHolder_numbered {V : Type} :
    ∀ (vals : List V) (c : Int),
      List.foldl max c ((numbered c vals).map Prod.fst) = c + vals.length
  | [], c => by simp [numbered_nil]
  | v :: vs, c => by
    rw [numbered_cons, List.map_cons, List.foldl_cons]
    have hm : max c (c + 1) = c + 1 := max_eq_right (by omega)
    rw [hm, highestHolder_numbered vs (c + 1), List.length_cons]
    push_cast
    omega

theorem buildDeleteT_render {V : Type} [Inhabited V] (table : String)
    (conds : List (Comparable V)) :
    renderPieces (buildDeleteT table conds) = (buildDelete table conds).1 := by
  unfold buildDeleteT buildDelete
  simp only []
  split
  · simp [renderPieces, Piece.render]
  · simp only [renderPieces, Piece.render, whereConnectorT_render]

theorem buildDeleteT_holders {V : Type} [Inhabited V] (table : String)
    (conds : List (Comparable V)) :
    holders (buildDeleteT table conds) = numbered 0 (buildDelete table conds).2.1 := by
  unfold buildDeleteT buildDelete
  simp only []
  split
  · rfl
  · simp only [holders, whereConnectorT_holders]

theorem buildUpdate_loop_counter :
    ∀ (ks : List String) (c : Int), (buildUpdate.loop ks c).2 = c + ks.length
  | [], c => by simp [buildUpdate.loop]
  | _ :: rest, c => by
    simp [buildUpdate.loop, buildUpdate_loop_counter rest]
    omega

theorem setsT_holders {V : Type} [Inhabited V] (update : GoMap V) :
    ∀ (ks : List String) (c : Int),
      holders (buildUpdate.setsT update ks c) = numbered c (ks.map (fun k => update.get k))
  | [], _ => rfl
  | [k], c => by simp [buildUpdate.setsT, holders, numbered_cons, numbered_nil]
  | k :: k' :: rest, c => by
    have ih := setsT_holders update (k' :: rest) (c + 1)
    simp only [buildUpdate.setsT, holders, List.map_cons, numbered_cons] at ih ⊢
    rw [ih]

theorem setsT_untrimmed {V : Type} [Inhabited V] (update : GoMap V) :
    ∀ (ks : List String) (c : Int), ks ≠ [] →
      (buildUpdate.loop ks c).1 = renderPieces (buildUpdate.setsT update ks c) ++ ","
  | [], _, h => absurd rfl h
  | [k], c, _ => by
    have e : k ++ "=$" = k ++ "=" ++ "$" := by rw [String.append_assoc]; rfl
    simp only [buildUpdate.loop, buildUpdate.setsT, renderPieces, Piece.render, quoteField, e,
      String.append_assoc, String.append_empty]
  | k :: k' :: rest, c, _ => by
    have ih := setsT_untrimmed update (k' :: rest) (c + 1) (by simp)
    have e : k ++ "=$" = k ++ "=" ++ "$" := by rw [String.append_assoc]; rfl
    rw [buildUpdate.loop]
    simp only []
    rw [ih]
    simp only [buildUpdate.setsT, renderPieces, Piece.render, quoteField, e,
      String.append_assoc]

theorem setsT_last {V : Type} [Inhabited V] (update : GoMap V) :
    ∀ (ks : List String) (c : Int), ks ≠ [] →
      ∃ l d, d < 10 ∧ (renderPieces (buildUpdate.setsT update ks c)).data
        = l ++ [Nat.digitChar d]
  | [], _, h => absurd rfl h
  | [k], c, _ => by
    obtain ⟨pre, d, hd, hp⟩ := itoa_last (c + 1)
    refine ⟨(quoteField k ++ "=").data ++ '$' :: pre, d, hd, ?_⟩
    simp [buildUpdate.setsT, renderPieces, Piece.render, hp]
  | k :: k' :: rest, c, _ => by
    obtain ⟨l, d, hd, hp⟩ := setsT_last update (k' :: rest) (c + 1) (by simp)
    refine ⟨(quoteField k ++ "=").data ++ ("$" ++ itoa (c + 1)).data ++ ',' :: l, d, hd, ?_⟩
    simp only [buildUpdate.setsT, renderPieces, Piece.render, String.data_append]
    rw [hp]
    simp

theorem setsT_render {V : Type} [Inhabited V] (update : GoMap V) (ks : List String) (c : Int) :
    renderPieces (buildUpdate.setsT update ks c)
      = strings.TrimRight (buildUpdate.loop ks c).1 "," := by
  cases ks with
  | nil => rfl
  | cons k rest =>
    obtain ⟨l, d, hd, hp⟩ := setsT_last update (k :: rest) c (by simp)
    rw [setsT_untrimmed update (k :: rest) c (by simp)]
    have e1 : renderPieces (buildUpdate.setsT update (k :: rest) c) ++ ","
        = ⟨l ++ [Nat.digitChar d] ++ [',']⟩ := by
      apply String.ext
      simp [String.data_append, hp]
    rw [e1, TrimRight_comma l d hd]
    exact String.ext hp


theorem resolveKV_vals_length {V : Type} [Inhabited V] (m : GoMap V) :
    ((resolveKV m).2.length : Int) = (resolveKV m).1.length := by
  simp [resolveKV]

theorem buildUpdateT_render {V : Type} [Inhabited V] (table : String) (update : GoMap V)
    (conds : List (Comparable V)) :
    renderPieces (buildUpdateT table update conds) = (buildUpdate table update conds).1 := by
  unfold buildUpdateT buildUpdate
  simp only []
  split
  · simp only [renderPieces, renderPieces_append, Piece.render, setsT_render,
      whereConnectorT_render, String.append_assoc]
  · simp only [renderPieces, renderPieces_append, Piece.render, setsT_render,
      String.append_empty]

theorem buildUpdateT_holders {V : Type} [Inhabited V] (table : String) (update : GoMap V)
    (conds : List (Comparable V)) :
    holders (buildUpdateT table update conds)
      = numbered 0 (buildUpdate table update conds).2.1 := by
  unfold buildUpdateT buildUpdate
  simp only []
  have hk : (resolveKV update).2 = (resolveKV update).1.map (fun k => update.get k) := rfl
  split
  · simp only [holders, holders_append, setsT_holders, whereConnectorT_holders,
      numbered_append, buildUpdate_loop_counter, ← hk, resolveKV_vals_length]
  · simp only [holders, holders_append, setsT_holders, List.append_nil, ← hk]

theorem buildSelectT_render {V : Type} [Inhabited V] (table : String) (ufields : List String)
    (groupBy : String) (uOrderBy : List eleOrderBy) (limit : Option eleLimit)
    (conds : List (Comparable V)) :
    renderPieces (buildSelectT table ufields groupBy uOrderBy limit conds)
      = (buildSelect table ufields groupBy uOrderBy limit conds).1 := by
  unfold buildSelectT buildSelect
  simp only []
  generalize (if ufields.length > 0 then strings.Join (ufields.map quoteField) "," else "*")
    = fields
  cases (splitCondition conds).2 <;> cases limit <;> cases orderBy uOrderBy with
  | mk str err =>
    cases err <;> simp only [] <;> split_ifs <;>
    simp only [renderPieces, renderPieces_append, Piece.render, whereConnectorT_render,
      String.append_assoc, String.append_empty, List.cons_append, List.nil_append,
      List.append_assoc, List.append_eq]

theorem buildSelectT_holders {V : Type} [Inhabited V] (table : String) (ufields : List String)
    (groupBy : String) (uOrderBy : List eleOrderBy) (limit : Option eleLimit)
    (conds : List (Comparable V)) :
    holders (buildSelectT table ufields groupBy uOrderBy limit conds)
      = numbered 0 (buildSelect table ufields groupBy uOrderBy limit conds).2.1 := by
  have hw := whereConnector_counter (splitCondition conds).1 0
  have he := whereConnector_vals_of_empty (splitCondition conds).1 0
  unfold buildSelectT buildSelect
  simp only []
  generalize (if ufields.length > 0 then strings.Join (ufields.map quoteField) "," else "*")
    = fields
  cases (splitCondition conds).2 <;> cases limit <;> cases orderBy uOrderBy with
  | mk str err =>
    cases err <;> simp only [] <;> split_ifs <;>
    simp only [holders, holders_append, whereConnectorT_holders, numbered_append, numbered_nil,
      List.cons_append, List.nil_append, List.append_nil, List.append_assoc, List.append_eq] <;>
    (try rw [hw]) <;>
    (try rw [he (Classical.not_not.mp (by assumption))]) <;>
    (try simp [numbered_nil])

theorem highestHolder_of_numbered {V : Type} {ps : List (Piece V)} {vals : List V}
    (h : holders ps = numbered 0 vals) : highestHolder (holders ps) = vals.length := by
  unfold highestHolder
  rw [h, highestHolder_numbered vals 0, zero_add]

/-! ## Independence of the iteration order of maps -/

theorem GoMap.lookup_eq_some_iff {α : Type} :
    ∀ (m : GoMap α), m.NodupKeys → ∀ (k : String) (v : α),
      (m.lookup k = some v ↔ (k, v) ∈ m)
  | [], _, _, _ => by simp
  | (k', v') :: rest, hnd, k, v => by
    have hnd' : (k' ∉ GoMap.keys rest) ∧ GoMap.NodupKeys rest := by
      simpa [GoMap.NodupKeys, GoMap.keys] using hnd
    have ih := GoMap.lookup_eq_some_iff rest hnd'.2 k v
    by_cases hk : k = k'
    · subst hk
      have hno : (k, v) ∉ rest := fun hmem =>
        hnd'.1 (by simpa [GoMap.keys] using ⟨v, hmem⟩)
      simp [List.lookup, hno, eq_comm]
    · have hb : (k == k') = false := by simpa using hk
      simp [List.lookup, hb, ih, hk]

theorem GoMap.Same.symm_nodup {α : Type} {m m' : GoMap α} (h : m.Same m') : m'.NodupKeys := by
  have hp : (GoMap.keys m).Perm (GoMap.keys m') := h.2.map Prod.fst
  exact hp.nodup_iff.mp h.1

theorem GoMap.Same.lookup_eq {α : Type} {m m' : GoMap α} (h : m.Same m') (k : String) :
    m.lookup k = m'.lookup k := by
  apply Option.ext
  intro v
  simp only [Option.mem_def]
  rw [GoMap.lookup_eq_some_iff m h.1, GoMap.lookup_eq_some_iff m' h.symm_nodup, h.2.mem_iff]

theorem GoMap.Same.get_eq {α : Type} [Inhabited α] {m m' : GoMap α} (h : m.Same m')
    (k : String) : m.get k = m'.get k := by
  simp [GoMap.get, h.lookup_eq k]

theorem GoMap.Same.sorted_keys_eq {α : Type} {m m' : GoMap α} (h : m.Same m') :
    defaultSortAlgorithm m.keys = defaultSortAlgorithm m'.keys :=
  defaultSortAlgorithm_congr (h.2.map Prod.fst)

theorem build_loop_congr {V : Type} [Inhabited V] {m m' : GoMap V} (h : m.Same m')
    (op : String) :
    ∀ (ks : List String) (c : Int), build.loop m op ks c = build.loop m' op ks c
  | [], _ => rfl
  | k :: rest, c => by
    simp only [build.loop, h.get_eq k, build_loop_congr h op rest]

theorem build_congr {V : Type} [Inhabited V] {m m' : GoMap V} (h : m.Same m') (op : String)
    (c : Int) : build m op c = build m' op c := by
  rw [build_eq_loop, build_eq_loop, h.sorted_keys_eq, build_loop_congr h]

theorem In_loop_congr {V : Type} {m m' : GoMap (List V)} (h : m.Same m') :
    ∀ (ks : List String) (c : Int), In.loop m ks c = In.loop m' ks c
  | [], _ => rfl
  | k :: rest, c => by
    simp only [In.loop, h.get_eq k, In_loop_congr h rest]

theorem In_Build_congr {V : Type} {m m' : GoMap (List V)} (h : m.Same m') (c : Int) :
    In.Build m c = In.Build m' c := by
  rw [In_Build_eq_loop, In_Build_eq_loop, h.sorted_keys_eq, In_loop_congr h]

theorem Comparable_Build_congr {V : Type} [Inhabited V] {a b : Comparable V}
    (h : Comparable.Same a b) (c : Int) : a.Build c = b.Build c := by
  cases h with
  | nilComparable => rfl
  | Like hm => simp only [Comparable.Build, Like_Build_eq_build, build_congr hm]
  | In hm => exact In_Build_congr hm c
  | Eq hm => exact build_congr hm _ c
  | Ne hm => exact build_congr hm _ c
  | Lt hm => exact build_congr hm _ c
  | Lte hm => exact build_congr hm _ c
  | Gt hm => exact build_congr hm _ c
  | Gte hm => exact build_congr hm _ c

theorem whereConnector_loop_congr {V : Type} [Inhabited V] {conds conds' : List (Comparable V)}
    (h : List.Forall₂ Comparable.Same conds conds') :
    ∀ (c : Int), whereConnector.loop conds c = whereConnector.loop conds' c := by
  induction h with
  | nil => intro c; rfl
  | cons hab _ ih =>
    intro c
    simp only [whereConnector.loop, Comparable_Build_congr hab c, ih]

theorem whereConnector_congr {V : Type} [Inhabited V] {conds conds' : List (Comparable V)}
    (h : List.Forall₂ Comparable.Same conds conds') (c : Int) :
    whereConnector c conds = whereConnector c conds' := by
  unfold whereConnector
  rw [whereConnector_loop_congr h c, h.length_eq]

theorem isNilComparable_congr {V : Type} {a b : Comparable V} (h : Comparable.Same a b) :
    a.isNilComparable = b.isNilComparable := by
  cases h <;> rfl

theorem get?_isNilComparable_congr {V : Type} {conds conds' : List (Comparable V)}
    (h : List.Forall₂ Comparable.Same conds conds') :
    ∀ (n : Nat), (conds.get? n).map Comparable.isNilComparable
      = (conds'.get? n).map Comparable.isNilComparable := by
  induction h with
  | nil => intro n; rfl
  | cons hab _ ih =>
    intro n
    cases n with
    | zero => simp [isNilComparable_congr hab]
    | succ n => simpa using ih n

theorem splitCondition_loop_congr {V : Type} {conds conds' : List (Comparable V)}
    (h : List.Forall₂ Comparable.Same conds conds') :
    ∀ (n : Nat), splitCondition.loop conds n = splitCondition.loop conds' n
  | 0 => rfl
  | n + 1 => by
    have ih := splitCondition_loop_congr h n
    have hn := get?_isNilComparable_congr h n
    simp only [splitCondition.loop, ih]
    cases h1 : conds.get? n <;> cases h2 : conds'.get? n <;> rw [h1, h2] at hn <;>
      simp at hn ⊢
    rw [hn]

theorem splitCondition_congr {V : Type} {conds conds' : List (Comparable V)}
    (h : List.Forall₂ Comparable.Same conds conds') :
    List.Forall₂ Comparable.Same (splitCondition conds).1 (splitCondition conds').1 ∧
    Option.Rel (List.Forall₂ Comparable.Same) (splitCondition conds).2
      (splitCondition conds').2 := by
  unfold splitCondition
  simp only [splitCondition_loop_congr h, h.length_eq]
  split
  · exact ⟨List.forall₂_take _ h, Option.Rel.some (List.forall₂_drop _ h)⟩
  · exact ⟨h, Option.Rel.none⟩

theorem buildSelect_congr {V : Type} [Inhabited V] {conds conds' : List (Comparable V)}
    (h : List.Forall₂ Comparable.Same conds conds') (table : String) (ufields : List String)
    (groupBy : String) (uOrderBy : List eleOrderBy) (limit : Option eleLimit) :
    buildSelect table ufields groupBy uOrderBy limit conds
      = buildSelect table ufields groupBy uOrderBy limit conds' := by
  have hs := splitCondition_congr h
  unfold buildSelect
  revert hs
  generalize splitCondition conds = sp
  generalize splitCondition conds' = sp'
  rintro ⟨h1, h2⟩
  obtain ⟨w, hv⟩ := sp
  obtain ⟨w', hv'⟩ := sp'
  simp only [] at h1 h2 ⊢
  rw [whereConnector_congr h1]
  cases h2 with
  | none => rfl
  | some hh => simp only [whereConnector_congr hh]

theorem resolveKV_congr {V : Type} [Inhabited V] {m m' : GoMap V} (h : m.Same m') :
    resolveKV m = resolveKV m' := by
  unfold resolveKV
  simp only [h.sorted_keys_eq]
  congr 1
  apply List.map_congr_left
  intro k _
  exact h.get_eq k

theorem resolveFields_congr {V : Type} {m m' : GoMap V} (h : m.Same m') :
    resolveFields m = resolveFields m' := by
  unfold resolveFields
  exact defaultSortAlgorithm_congr ((h.2.map Prod.fst).map quoteField)

theorem buildUpdate_congr {V : Type} [Inhabited V] {update update' : GoMap V}
    (hu : update.Same update') {conds conds' : List (Comparable V)}
    (h : List.Forall₂ Comparable.Same conds conds') (table : String) :
    buildUpdate table update conds = buildUpdate table update' conds' := by
  unfold buildUpdate
  simp only [resolveKV_congr hu, whereConnector_congr h]

theorem buildDelete_congr {V : Type} [Inhabited V] {conds conds' : List (Comparable V)}
    (h : List.Forall₂ Comparable.Same conds conds') (table : String) :
    buildDelete table conds = buildDelete table conds' := by
  unfold buildDelete
  simp only [whereConnector_congr h]

theorem buildInsert_fieldLoop_congr {V : Type} {r r' : GoMap V} (h : r.Same r') :
    ∀ (fields : List String), buildInsert.fieldLoop r fields = buildInsert.fieldLoop r' fields
  | [] => rfl
  | field :: rest => by
    simp only [buildInsert.fieldLoop, GoMap.get?, h.lookup_eq,
      buildInsert_fieldLoop_congr h rest]

theorem buildInsert_loop_congr {V : Type} {recs recs' : List (GoMap V)}
    (h : List.Forall₂ GoMap.Same recs recs') (fields : List String) (placeholder : String) :
    buildInsert.loop fields placeholder recs = buildInsert.loop fields placeholder recs' := by
  induction h with
  | nil => rfl
  | cons hab _ ih =>
    simp only [buildInsert.loop, buildInsert_fieldLoop_congr hab, ih]

theorem buildInsert_congr {V : Type} {recs recs' : List (GoMap V)}
    (h : List.Forall₂ GoMap.Same recs recs') (table : String) :
    buildInsert table recs = buildInsert table recs' := by
  cases h with
  | nil => rfl
  | cons hab hrest =>
    have hl := buildInsert_loop_congr (List.Forall₂.cons hab hrest)
    simp only [buildInsert, resolveFields_congr hab, hl]

/-- C7: determinism with respect to the iteration order of maps.  For two presentations of one
map (the same entries with distinct keys, enumerated in different orders) every `Build`
returns the same fragments, the same values and the same final counter, `resolveKV` and
`resolveFields` return the same lists, and the four statement builders, given conditions and
records that differ only in the presentation of their maps, return the same result. -/
theorem deterministic {V : Type} [Inhabited V] (c : Int) {m m' : GoMap V}
    {mi mi' : GoMap (List V)} {conds conds' : List (Comparable V)}
    {recs recs' : List (GoMap V)} (hm : m.Same m') (hi : mi.Same mi')
    (hc : List.Forall₂ Comparable.Same conds conds') (hr : List.Forall₂ GoMap.Same recs recs')
    (table : String) (ufields : List String) (groupBy : String) (uOrderBy : List eleOrderBy)
    (limit : Option eleLimit) :
    (Like.Build m c = Like.Build m' c ∧ Eq.Build m c = Eq.Build m' c ∧
      Ne.Build m c = Ne.Build m' c ∧ Lt.Build m c = Lt.Build m' c ∧
      Lte.Build m c = Lte.Build m' c ∧ Gt.Build m c = Gt.Build m' c ∧
      Gte.Build m c = Gte.Build m' c ∧ In.Build mi c = In.Build mi' c) ∧
    (resolveKV m = resolveKV m' ∧ resolveFields m = resolveFields m') ∧
    (buildSelect table ufields groupBy uOrderBy limit conds
        = buildSelect table ufields groupBy uOrderBy limit conds' ∧
      buildInsert table recs = buildInsert table recs' ∧
      buildUpdate table m conds = buildUpdate table m' conds' ∧
      buildDelete table conds = buildDelete table conds') :=
  ⟨⟨by rw [Like_Build_eq_build, Like_Build_eq_build, build_congr hm],
      build_congr hm _ c, build_congr hm _ c, build_congr hm _ c, build_congr hm _ c,
      build_congr hm _ c, build_congr hm _ c, In_Build_congr hi c⟩,
    ⟨resolveKV_congr hm, resolveFields_congr hm⟩,
    ⟨buildSelect_congr hc table ufields groupBy uOrderBy limit, buildInsert_congr hr table,
      buildUpdate_congr hm hc table, buildDelete_congr hc table⟩⟩

theorem deterministic_witness :
    GoMap.Same [("foo", 1), ("bar", 2)] [("bar", 2), ("foo", 1)] ∧
    GoMap.Same [("qq", [4, 5]), ("age", [6])] [("age", [6]), ("qq", [4, 5])] ∧
    buildDelete "tb" [Comparable.Eq [("foo", 1), ("bar", 2)],
        Comparable.In [("qq", [4, 5]), ("age", [6])]]
      = buildDelete "tb" [Comparable.Eq [("bar", 2), ("foo", 1)],
        Comparable.In [("age", [6]), ("qq", [4, 5])]] :=
  have hm : GoMap.Same [("foo", 1), ("bar", 2)] [("bar", 2), ("foo", 1)] :=
    ⟨by decide, List.Perm.swap _ _ _⟩
  have hi : GoMap.Same [("qq", [4, 5]), ("age", [6])] [("age", [6]), ("qq", [4, 5])] :=
    ⟨by decide, List.Perm.swap _ _ _⟩
  ⟨hm, hi,
    (deterministic 0 hm hi
      (List.Forall₂.cons (Comparable.Same.Eq hm)
        (List.Forall₂.cons (Comparable.Same.In hi) List.Forall₂.nil))
      (List.Forall₂.cons hm List.Forall₂.nil) "tb" [] "" [] none).2.2.2.2.2⟩

/-! ## `buildInsert`: the errors -/

/-- C8: for every table name, `buildInsert` on the empty (or nil) list of records returns the
error `errInsertNullData`, with empty text and no values. -/
theorem buildInsert_no_records {V : Type} (table : String) :
    buildInsert table ([] : List (GoMap V))
      = some ("", [], some BuildError.errInsertNullData) := rfl

/-- C9, at a failing input: the first record has the columns `a` wrapped in backticks and `a`,
the second record has only `a`, so it omits a column of the first record; `buildInsert`
looks both columns up under the name `a`, reports no error and binds the value of `a`
twice for each record. -/
theorem buildInsert_omitted_backtick_column :
    ("`a`" ∈ GoMap.keys [("`a`", 1), ("a", 2)] ∧ "`a`" ∉ GoMap.keys [("a", 3)]) ∧
    buildInsert "t" [[("`a`", 1), ("a", 2)], [("a", 3)]]
      = some ("INSERT INTO t (`a`,a) VALUES ($1,$2),($3,$4)", [2, 2, 3, 3], none) :=
  ⟨by decide, by rfl⟩

/-- C10 fails as stated: the second record adds the column `b`, which the first record does
not have, and `buildInsert` returns no error; the added column is ignored. -/
theorem buildInsert_added_column_accepted :
    ("b" ∈ GoMap.keys [("a", 2), ("b", 3)] ∧ "b" ∉ GoMap.keys [("a", 1)]) ∧
    buildInsert "t" [[("a", 1)], [("a", 2), ("b", 3)]]
      = some ("INSERT INTO t (a) VALUES ($1),($2)", [1, 2], none) :=
  ⟨by decide, by rfl⟩

theorem GoMap.lookup_eq_none_iff {α : Type} :
    ∀ (m : GoMap α) (k : String), m.lookup k = none ↔ k ∉ m.keys
  | [], _ => by simp [GoMap.keys]
  | (k', v') :: rest, k => by
    have ih := GoMap.lookup_eq_none_iff rest k
    by_cases hk : k = k'
    · subst hk
      simp [List.lookup, GoMap.keys]
    · have hb : (k == k') = false := by simpa using hk
      simp only [GoMap.keys] at ih
      simp [List.lookup, hb, ih, GoMap.keys, hk]

theorem trimLeftChars_id (cutset cs : List Char) (h : ∀ c, cs.head? = some c → c ∉ cutset) :
    strings.trimLeftChars cutset cs = cs := by
  cases cs with
  | nil => rfl
  | cons c rest => simp [strings.trimLeftChars, h c rfl]

theorem Trim_of_noBacktickEnds (k : String) (h : noBacktickEnds k) :
    strings.Trim k "`" = k := by
  have hcut : ("`" : String).data = [backtick] := by decide
  have h1 : strings.TrimLeft k "`" = k := by
    apply String.ext
    simp only [strings.TrimLeft, hcut]
    apply trimLeftChars_id
    intro c hc hmem
    rw [List.mem_singleton] at hmem
    subst hmem
    exact h.1 hc
  unfold strings.Trim
  rw [h1]
  apply String.ext
  simp only [strings.TrimRight, hcut]
  rw [trimLeftChars_id, List.reverse_reverse]
  intro c hc hmem
  rw [List.mem_singleton] at hmem
  rw [List.head?_reverse] at hc
  subst hmem
  exact h.2 hc

theorem buildInsert_fieldLoop_none {V : Type} (r : GoMap V) :
    ∀ (fields : List String),
      buildInsert.fieldLoop r fields = none
        ↔ ∃ f ∈ fields, strings.Trim f "`" ∉ r.keys
  | [] => by simp [buildInsert.fieldLoop]
  | field :: rest => by
    have ih := buildInsert_fieldLoop_none r rest
    have hl := GoMap.lookup_eq_none_iff r (strings.Trim field "`")
    simp only [buildInsert.fieldLoop, GoMap.get?, List.exists_mem_cons_iff, ← hl]
    cases hlook : List.lookup (strings.Trim field "`") r with
    | none => simp
    | some v =>
      cases hrest : buildInsert.fieldLoop r rest with
      | none => simpa [hrest] using ih
      | some vs => simpa [hrest] using ih

theorem buildInsert_loop_none {V : Type} (fields : List String) (placeholder : String) :
    ∀ (recs : List (GoMap V)),
      buildInsert.loop fields placeholder recs = none
        ↔ ∃ r ∈ recs, buildInsert.fieldLoop r fields = none
  | [] => by simp [buildInsert.loop]
  | r :: rest => by
    have ih := buildInsert_loop_none fields placeholder rest
    simp only [buildInsert.loop, List.exists_mem_cons_iff]
    cases hrow : buildInsert.fieldLoop r fields with
    | none => simp
    | some vs =>
      cases hrest : buildInsert.loop fields placeholder rest with
      | none => simpa [hrest] using ih
      | some p => simpa [hrest] using ih

theorem buildInsert_error_iff_loop {V : Type} (table : String) (first : GoMap V)
    (rest : List (GoMap V)) :
    buildInsert table (first :: rest) = some ("", [], some BuildError.errInsertDataNotMatch)
      ↔ buildInsert.loop (resolveFields first)
          ("(" ++ strings.TrimRight (strings.Repeat "$%d," (resolveFields first).length) ","
            ++ ")") (first :: rest) = none := by
  simp only [buildInsert]
  cases hl : buildInsert.loop (resolveFields first)
      ("(" ++ strings.TrimRight (strings.Repeat "$%d," (resolveFields first).length) ","
        ++ ")") (first :: rest) with
  | none => simp
  | some p =>
    obtain ⟨sets, vals⟩ := p
    constructor
    · intro h
      simp at h
    · intro h
      simp at h

/-- As long as no key of the first record begins or ends with a backtick, `buildInsert` returns
`errInsertDataNotMatch` exactly when some record after the first lacks one of the first
record's keys. -/
theorem buildInsert_error_iff_missing_key {V : Type} (table : String) (first : GoMap V)
    (rest : List (GoMap V)) (hq : ∀ k ∈ first.keys, noBacktickEnds k) :
    buildInsert table (first :: rest) = some ("", [], some BuildError.errInsertDataNotMatch)
      ↔ ∃ r ∈ rest, ∃ k ∈ first.keys, k ∉ r.keys := by
  have hmem : ∀ f, f ∈ resolveFields first ↔ f ∈ first.keys := by
    intro f
    unfold resolveFields
    rw [(defaultSortAlgorithm_perm _).mem_iff]
    simp [quoteField]
  rw [buildInsert_error_iff_loop, buildInsert_loop_none]
  simp only [buildInsert_fieldLoop_none, hmem, List.exists_mem_cons_iff]
  constructor
  · rintro (⟨k, hk, hno⟩ | ⟨r, hr, k, hk, hno⟩)
    · rw [Trim_of_noBacktickEnds k (hq k hk)] at hno
      exact absurd hk hno
    · rw [Trim_of_noBacktickEnds k (hq k hk)] at hno
      exact ⟨r, hr, k, hk, hno⟩
  · rintro ⟨r, hr, k, hk, hno⟩
    refine Or.inr ⟨r, hr, k, hk, ?_⟩
    rw [Trim_of_noBacktickEnds k (hq k hk)]
    exact hno

/-! ## `buildDelete`, `buildUpdate` and `orderBy` -/

theorem paren_ne_empty (s t : String) : "(" ++ s ++ t ≠ "" := by
  intro h
  have hlen := congrArg String.length h
  rw [String.length_append, String.length_append] at hlen
  have h1 : "(".length = 1 := by decide
  have h0 : "".length = 0 := by decide
  omega

/-- The string of `whereConnector` is empty exactly when no condition produces a fragment. -/
theorem whereConnector_text_empty_iff {V : Type} [Inhabited V] (conds : List (Comparable V))
    (c : Int) :
    (whereConnector c conds).1 = ""
      ↔ ((threadedBuild conds c).map Prod.fst).flatten.length = 0 := by
  have hl := (whereConnector_loop_eq conds c).1
  unfold whereConnector
  split
  · next h =>
    have : conds = [] := List.length_eq_zero.mp h
    subst this
    simp [threadedBuild]
  · simp only []
    rw [hl]
    split
    · next h => simp [h]
    · next h =>
      constructor
      · intro he
        exact absurd he (paren_ne_empty _ _)
      · intro he
        exact absurd he h

/-- C13: `buildDelete` never returns an error.  When the conditions produce no fragment, in
particular when there is no condition, the text is `DELETE FROM <table>` and there are no
values; otherwise the text is `DELETE FROM <table> WHERE <W>` and the values are those of
`whereConnector` run on the conditions from the counter `0`, `W` being its string. -/
theorem buildDelete_spec {V : Type} [Inhabited V] (table : String)
    (conds : List (Comparable V)) :
    buildDelete table conds
      = (if ((threadedBuild conds 0).map Prod.fst).flatten.length = 0 then
          ("DELETE FROM " ++ table, [], none)
        else ("DELETE FROM " ++ table ++ " WHERE " ++ (whereConnector 0 conds).1,
              (whereConnector 0 conds).2.1, none)) ∧
    buildDelete table ([] : List (Comparable V)) = ("DELETE FROM " ++ table, [], none) := by
  refine ⟨?_, rfl⟩
  have hiff := whereConnector_text_empty_iff conds 0
  unfold buildDelete
  simp only [quoteField]
  by_cases h : ((threadedBuild conds 0).map Prod.fst).flatten.length = 0
  · rw [if_pos h, if_pos (hiff.mpr h).symm]
  · rw [if_neg h, if_neg (fun e => h (hiff.mp e.symm))]

theorem orderBy_loop_valid :
    ∀ (l : List eleOrderBy), (∀ o ∈ l, validOrder o) →
      orderBy.loop l = some (l.map renderOrder)
  | [], _ => rfl
  | o :: rest, h => by
    have ho : validOrder o := h o (List.mem_cons_self _ _)
    have ih := orderBy_loop_valid rest (fun x hx => h x (List.mem_cons_of_mem _ hx))
    have hc : ¬(strings.ToUpper o.order ≠ "ASC" ∧ strings.ToUpper o.order ≠ "DESC") := by
      intro hne
      cases ho with
      | inl h1 => exact hne.1 h1
      | inr h2 => exact hne.2 h2
    simp only [orderBy.loop, if_neg hc, ih, List.map_cons, renderOrder, quoteField]

theorem orderBy_loop_invalid :
    ∀ (l : List eleOrderBy), (∃ o ∈ l, ¬validOrder o) → orderBy.loop l = none
  | [], h => by simp at h
  | o :: rest, h => by
    by_cases ho : validOrder o
    · have hrest : ∃ x ∈ rest, ¬validOrder x := by
        obtain ⟨x, hx, hv⟩ := h
        rcases List.mem_cons.mp hx with rfl | hx'
        · exact absurd ho hv
        · exact ⟨x, hx', hv⟩
      have ih := orderBy_loop_invalid rest hrest
      have hc : ¬(strings.ToUpper o.order ≠ "ASC" ∧ strings.ToUpper o.order ≠ "DESC") := by
        intro hne
        cases ho with
        | inl h1 => exact hne.1 h1
        | inr h2 => exact hne.2 h2
      simp only [orderBy.loop, if_neg hc, ih]
    · have hc : strings.ToUpper o.order ≠ "ASC" ∧ strings.ToUpper o.order ≠ "DESC" :=
        ⟨fun e => ho (Or.inl e), fun e => ho (Or.inr e)⟩
      simp only [orderBy.loop, if_pos hc]

theorem orderBy_valid (l : List eleOrderBy) (h : ∀ o ∈ l, validOrder o) :
    orderBy l = (strings.Join (l.map renderOrder) ",", none) := by
  simp only [orderBy, orderBy_loop_valid l h]

theorem orderBy_invalid (l : List eleOrderBy) (h : ∃ o ∈ l, ¬validOrder o) :
    orderBy l = ("", some BuildError.errOrderByParam) := by
  simp only [orderBy, orderBy_loop_invalid l h]

/-- C17: `orderBy` returns the error `errOrderByParam` with an empty string exactly when the
direction of some entry, after upper-casing, is neither `ASC` nor `DESC`; exactly when there
is no such entry it returns no error and the entries rendered as the field, a blank and the
upper-cased direction, joined by `,` in input order. -/
theorem orderBy_spec (l : List eleOrderBy) :
    (orderBy l = ("", some BuildError.errOrderByParam) ↔ ∃ o ∈ l, ¬validOrder o) ∧
    (orderBy l = (strings.Join (l.map renderOrder) ",", none) ↔ ∀ o ∈ l, validOrder o) := by
  by_cases h : ∀ o ∈ l, validOrder o
  · have hv := orderBy_valid l h
    refine ⟨⟨fun he => ?_, fun hex => ?_⟩, ⟨fun _ => h, fun _ => hv⟩⟩
    · rw [hv] at he
      simp at he
    · obtain ⟨o, ho, hno⟩ := hex
      exact absurd (h o ho) hno
  · have hex : ∃ o ∈ l, ¬validOrder o := by
      simpa using h
    have hi := orderBy_invalid l hex
    refine ⟨⟨fun _ => hex, fun _ => hi⟩, ⟨fun he => ?_, fun hall => absurd hall h⟩⟩
    rw [hi] at he
    simp at he

theorem setsT_render_assignments {V : Type} [Inhabited V] (update : GoMap V) :
    ∀ (ks : List String) (c : Int),
      renderPieces (buildUpdate.setsT update ks c) = strings.Join (assignments c ks) ","
  | [], _ => rfl
  | [k], c => by
    have e : k ++ "=$" = k ++ "=" ++ "$" := by rw [String.append_assoc]; rfl
    simp only [buildUpdate.setsT, renderPieces, Piece.render, quoteField, assignments,
      strings.Join, e, String.append_assoc, String.append_empty]
  | k :: k' :: rest, c => by
    have ih := setsT_render_assignments update (k' :: rest) (c + 1)
    have e : k ++ "=$" = k ++ "=" ++ "$" := by rw [String.append_assoc]; rfl
    rw [buildUpdate.setsT]
    simp only [renderPieces, Piece.render, quoteField]
    rw [ih]
    simp only [assignments, strings.Join, e, String.append_assoc]

/-- C12: `buildUpdate` never returns an error.  With `ks` the keys of the set map in strictly
ascending order and `k` their number, the text is `UPDATE <table> SET ` followed by the
assignments `ks[i]=$i+1` joined by `,`, followed by ` WHERE <W>` exactly when `whereConnector`
run on the conditions from the counter `k` returns a non-empty string `W`; the values are the
set values in the order of `ks` followed by the values of that `whereConnector`. -/
theorem buildUpdate_spec {V : Type} [Inhabited V] (table : String) (update : GoMap V)
    (conds : List (Comparable V)) (hu : update.NodupKeys) :
    ∃ ks : List String, ks.Perm update.keys ∧ ks.Sorted strLT ∧ ks.length = update.length ∧
      buildUpdate table update conds
        = ("UPDATE " ++ table ++ " SET " ++ strings.Join (assignments 0 ks) ","
            ++ (if (whereConnector (ks.length : Int) conds).1 = "" then ""
                else " WHERE " ++ (whereConnector (ks.length : Int) conds).1),
           ks.map (fun k => update.get k) ++ (whereConnector (ks.length : Int) conds).2.1,
           none) := by
  refine ⟨defaultSortAlgorithm update.keys, defaultSortAlgorithm_perm _,
    defaultSortAlgorithm_strict _ hu, ?_, ?_⟩
  · rw [defaultSortAlgorithm_length]; simp [GoMap.keys]
  · have hs := setsT_render update (defaultSortAlgorithm update.keys) 0
    rw [setsT_render_assignments] at hs
    have hc := buildUpdate_loop_counter (defaultSortAlgorithm update.keys) 0
    rw [zero_add] at hc
    unfold buildUpdate
    simp only [resolveKV, quoteField, ← hs, hc]
    by_cases hw : (whereConnector ((defaultSortAlgorithm update.keys).length : Int) conds).1 = ""
    · have hv := whereConnector_vals_of_empty conds _ hw.symm
      rw [if_neg (fun hne : "" ≠ _ => hne hw.symm), if_pos hw, hv]
      simp
    · rw [if_pos (fun e : "" = _ => hw e.symm), if_neg hw]
      simp only [String.append_assoc]

theorem buildUpdate_spec_witness :
    GoMap.NodupKeys [("name", 7), ("age", 23)] ∧
    ∃ ks : List String, ks.Perm (GoMap.keys [("name", 7), ("age", 23)]) ∧ ks.Sorted strLT ∧
      ks.length = 2 ∧
      buildUpdate "tb" [("name", 7), ("age", 23)] [Comparable.Eq [("foo", 5), ("qq", 1)]]
        = ("UPDATE " ++ "tb" ++ " SET " ++ strings.Join (assignments 0 ks) ","
            ++ (if (whereConnector (ks.length : Int)
                  [Comparable.Eq [("foo", 5), ("qq", 1)]]).1 = "" then ""
                else " WHERE " ++ (whereConnector (ks.length : Int)
                  [Comparable.Eq [("foo", 5), ("qq", 1)]]).1),
           ks.map (fun k => GoMap.get [("name", 7), ("age", 23)] k)
            ++ (whereConnector (ks.length : Int) [Comparable.Eq [("foo", 5), ("qq", 1)]]).2.1,
           none) :=
  ⟨by decide,
    buildUpdate_spec "tb" [("name", 7), ("age", 23)] [Comparable.Eq [("foo", 5), ("qq", 1)]]
      (by decide)⟩

/-! ## `buildSelect` -/

/-- The shape of every result of `buildSelect`: the error of an invalid order direction, or
the clauses in their fixed order. -/
theorem buildSelect_shape {V : Type} [Inhabited V] (table : String) (ufields : List String)
    (groupBy : String) (uOrderBy : List eleOrderBy) (limit : Option eleLimit)
    (conds : List (Comparable V)) :
    buildSelect table ufields groupBy uOrderBy limit conds
      = if ∃ o ∈ uOrderBy, ¬validOrder o then ("", [], some BuildError.errOrderByParam)
        else
          (selectHead table ufields
              ++ whereClause (whereConnector 0 (splitCondition conds).1).1
              ++ groupByClause groupBy
              ++ (havingStep (whereConnector 0 (splitCondition conds).1).2.2
                    (splitCondition conds).2).1
              ++ orderByClause uOrderBy ++ limitClause limit,
            (whereConnector 0 (splitCondition conds).1).2.1
              ++ (havingStep (whereConnector 0 (splitCondition conds).1).2.2
                    (splitCondition conds).2).2,
            none) := by
  have hf : (if ufields.length > 0 then strings.Join (ufields.map quoteField) "," else "*")
      = (if ufields.length = 0 then "*" else strings.Join ufields ",") := by
    have hq : ufields.map quoteField = ufields := by
      have hid : quoteField = id := funext (fun _ => rfl)
      rw [hid, List.map_id]
    by_cases h0 : ufields.length = 0
    · rw [if_pos h0, if_neg (by omega)]
    · rw [if_neg h0, if_pos (by omega), hq]
  have hswap : ∀ (s : String) (a b : String), (if "" ≠ s then a else b)
      = (if s = "" then b else a) := by
    intro s a b
    by_cases hs : s = ""
    · rw [if_pos hs, if_neg (fun hne : "" ≠ s => hne hs.symm)]
    · rw [if_neg hs, if_pos (fun e : "" = s => hs e.symm)]
  unfold buildSelect
  simp only [hf, quoteField, hswap]
  generalize (whereConnector 0 (splitCondition conds).1) = w
  by_cases hbad : ∃ o ∈ uOrderBy, ¬validOrder o
  · have hne : uOrderBy.length ≠ 0 := by
      obtain ⟨o, ho, _⟩ := hbad
      intro h0
      rw [List.length_eq_zero.mp h0] at ho
      simp at ho
    rw [if_pos hbad, orderBy_invalid uOrderBy hbad]
    simp only [if_pos hne]
  · have hall : ∀ o ∈ uOrderBy, validOrder o := by
      simpa using hbad
    rw [if_neg hbad, orderBy_valid uOrderBy hall]
    simp only [selectHead, whereClause, groupByClause, orderByClause]
    cases (splitCondition conds).2 <;> cases limit <;>
      simp only [havingStep, limitClause] <;> split_ifs <;>
      simp only [String.append_assoc, String.append_empty, String.empty_append,
        List.append_nil] <;>
      first | rfl | omega

/-- The backward scan of `splitCondition` passes over conditions that are not the sentinel. -/
theorem splitCondition_loop_skip {V : Type} (conds : List (Comparable V)) (i : Nat) :
    ∀ (d : Nat),
      (∀ j c, i ≤ j → j < i + d → conds.get? j = some c → c.isNilComparable = false) →
      splitCondition.loop conds (i + d) = splitCondition.loop conds i
  | 0, _ => rfl
  | d + 1, h => by
    have ih := splitCondition_loop_skip conds i d
      (fun j c h1 h2 h3 => h j c h1 (by omega) h3)
    rw [← Nat.add_assoc, splitCondition.loop]
    cases hg : conds.get? (i + d) with
    | none => simpa using ih
    | some c =>
      have hc := h (i + d) c (by omega) (by omega) hg
      simp only [hc]
      simpa using ih

theorem splitCondition_no_sentinel {V : Type} (conds : List (Comparable V))
    (h : ∀ c ∈ conds, c.isNilComparable = false) : splitCondition conds = (conds, none) := by
  have hl : splitCondition.loop conds conds.length = -1 := by
    have := splitCondition_loop_skip conds 0 conds.length
      (fun j c _ _ hg => h c (List.get?_mem hg))
    rw [Nat.zero_add] at this
    rw [this]
    rfl
  unfold splitCondition
  simp only [hl]
  rw [if_neg (by omega)]

theorem splitCondition_at_sentinel {V : Type} (W H : List (Comparable V)) (hne : H ≠ [])
    (h : ∀ c ∈ H, c.isNilComparable = false) :
    splitCondition (W ++ Comparable.nilComparable :: H) = (W, some H) := by
  have hlen : (W ++ Comparable.nilComparable :: H).length = (W.length + 1) + H.length := by
    simp
    omega
  have hl : splitCondition.loop (W ++ Comparable.nilComparable :: H)
      (W ++ Comparable.nilComparable :: H).length = (W.length : Int) := by
    rw [hlen, splitCondition_loop_skip]
    · rw [splitCondition.loop]
      have hg : (W ++ Comparable.nilComparable :: H).get? W.length
          = some Comparable.nilComparable := by
        rw [List.get?_eq_getElem?, List.getElem?_append_right (le_refl _), Nat.sub_self,
          List.getElem?_cons_zero]
      simp only [hg, Comparable.isNilComparable, if_true]
    · intro j c h1 h2 hg
      have hj : (W ++ Comparable.nilComparable :: H).get? j = H.get? (j - (W.length + 1)) := by
        rw [List.get?_eq_getElem?, List.get?_eq_getElem?,
          List.getElem?_append_right (by omega)]
        have e : j - W.length = (j - (W.length + 1)) + 1 := by omega
        rw [e, List.getElem?_cons_succ]
      rw [hj] at hg
      exact h c (List.get?_mem hg)
  have hpos : H.length ≠ 0 := fun e => hne (List.length_eq_zero.mp e)
  unfold splitCondition
  simp only [hl]
  rw [if_pos (by rw [hlen]; push_cast; omega)]
  simp

/-- C14: with no having sentinel among the conditions and only valid order directions,
`buildSelect` returns no error and the text is, in this order, `SELECT <F> FROM <table>`
(`F` being `*` for the empty field list and the fields joined by `,` otherwise), ` WHERE <W>`
when the string `W` of `whereConnector` is not empty, ` GROUP BY <groupBy>` when `groupBy` is
not empty, ` ORDER BY <O>` when the order-by list is not empty, and ` LIMIT <first> OFFSET
<second>` when a limit is given; the values are those of `whereConnector`. -/
theorem buildSelect_plain {V : Type} [Inhabited V] (table : String) (ufields : List String)
    (groupBy : String) (uOrderBy : List eleOrderBy) (limit : Option eleLimit)
    (conds : List (Comparable V)) (hs : ∀ c ∈ conds, c.isNilComparable = false)
    (ho : ∀ o ∈ uOrderBy, validOrder o) :
    buildSelect table ufields groupBy uOrderBy limit conds
      = (selectHead table ufields ++ whereClause (whereConnector 0 conds).1
          ++ groupByClause groupBy ++ orderByClause uOrderBy ++ limitClause limit,
         (whereConnector 0 conds).2.1, none) := by
  have hno : ¬∃ o ∈ uOrderBy, ¬validOrder o := fun ⟨o, hmem, hbad⟩ => hbad (ho o hmem)
  rw [buildSelect_shape, if_neg hno, splitCondition_no_sentinel conds hs]
  simp only [havingStep, String.append_empty, List.append_nil]

theorem buildSelect_plain_witness :
    (∀ c ∈ [Comparable.Eq [("foo", 1), ("bar", 2)], Comparable.In [("qq", [4, 5, 6])]],
      c.isNilComparable = false) ∧
    (∀ o ∈ [eleOrderBy.mk "foo" "desc"], validOrder o) ∧
    buildSelect "tb" ["foo", "bar"] "" [eleOrderBy.mk "foo" "desc"] (some (eleLimit.mk 10 20))
        [Comparable.Eq [("foo", 1), ("bar", 2)], Comparable.In [("qq", [4, 5, 6])]]
      = (selectHead "tb" ["foo", "bar"]
          ++ whereClause (whereConnector 0
              [Comparable.Eq [("foo", 1), ("bar", 2)], Comparable.In [("qq", [4, 5, 6])]]).1
          ++ groupByClause "" ++ orderByClause [eleOrderBy.mk "foo" "desc"]
          ++ limitClause (some (eleLimit.mk 10 20)),
         (whereConnector 0
            [Comparable.Eq [("foo", 1), ("bar", 2)], Comparable.In [("qq", [4, 5, 6])]]).2.1,
         none) :=
  ⟨by decide, by decide,
    buildSelect_plain "tb" ["foo", "bar"] "" [eleOrderBy.mk "foo" "desc"]
      (some (eleLimit.mk 10 20))
      [Comparable.Eq [("foo", 1), ("bar", 2)], Comparable.In [("qq", [4, 5, 6])]]
      (by decide) (by decide)⟩

/-- When some condition produces a fragment, `whereConnector` returns the fragments joined by
` AND ` in parentheses and all the values. -/
theorem whereConnector_of_frags {V : Type} [Inhabited V] (conds : List (Comparable V))
    (c : Int) (h : ((threadedBuild conds c).map Prod.fst).flatten ≠ []) :
    (whereConnector c conds).1
        = "(" ++ strings.Join ((threadedBuild conds c).map Prod.fst).flatten " AND " ++ ")" ∧
    (whereConnector c conds).2.1 = ((threadedBuild conds c).map Prod.snd).flatten := by
  have hl := whereConnector_loop_eq conds c
  have hlen : ((threadedBuild conds c).map Prod.fst).flatten.length ≠ 0 :=
    fun e => h (List.length_eq_zero.mp e)
  have hc : conds.length ≠ 0 := by
    intro e
    rw [List.length_eq_zero.mp e] at h
    exact h rfl
  unfold whereConnector
  rw [if_neg hc]
  simp only []
  rw [hl.1, hl.2, if_neg hlen]
  exact ⟨rfl, rfl⟩

/-- C15 fails as stated: the call has a having part that produces a fragment, but the order
direction `up` is invalid, so `buildSelect` returns the error with an empty text, which
contains no HAVING clause, and no values. -/
theorem buildSelect_having_invalid_order :
    buildSelect "tb" [] "g" [eleOrderBy.mk "foo" "up"] none
        [Comparable.Eq [("foo", 1)], Comparable.nilComparable, Comparable.Gt [("bar", 2)]]
      = ("", [], some BuildError.errOrderByParam) := by
  rfl

/-- C15, amended: for a condition list `W ++ [sentinel] ++ H`, where `H` is not empty, holds
no sentinel and produces at least one fragment, and for an order-by list with only valid
directions, `buildSelect` returns no error; the text has ` HAVING (<fragments of H joined by
AND>)` after the WHERE and GROUP BY clauses and before ORDER BY and LIMIT; the fragments of
`H` are numbered from the number `n` of WHERE values on, so that the placeholders of the HAVING
clause are `n + 1, n + 2, ...`, the `k`-th one for the `k`-th HAVING value; and the values are
the WHERE values followed by the HAVING values. -/
theorem buildSelect_having {V : Type} [Inhabited V] (table : String) (ufields : List String)
    (groupBy : String) (uOrderBy : List eleOrderBy) (limit : Option eleLimit)
    (W H : List (Comparable V)) (hne : H ≠ []) (hH : ∀ c ∈ H, c.isNilComparable = false)
    (hfrag : ((threadedBuild H ((whereConnector 0 W).2.1.length : Int)).map Prod.fst).flatten
      ≠ [])
    (ho : ∀ o ∈ uOrderBy, validOrder o) :
    buildSelect table ufields groupBy uOrderBy limit (W ++ Comparable.nilComparable :: H)
        = (selectHead table ufields ++ whereClause (whereConnector 0 W).1
            ++ groupByClause groupBy
            ++ (" HAVING " ++ ("(" ++ strings.Join
                ((threadedBuild H ((whereConnector 0 W).2.1.length : Int)).map
                  Prod.fst).flatten " AND " ++ ")"))
            ++ orderByClause uOrderBy ++ limitClause limit,
           (whereConnector 0 W).2.1
            ++ ((threadedBuild H ((whereConnector 0 W).2.1.length : Int)).map
                  Prod.snd).flatten,
           none) ∧
    renderPieces (whereConnectorT ((whereConnector 0 W).2.1.length : Int) H)
        = "(" ++ strings.Join
            ((threadedBuild H ((whereConnector 0 W).2.1.length : Int)).map Prod.fst).flatten
            " AND " ++ ")" ∧
    holders (whereConnectorT ((whereConnector 0 W).2.1.length : Int) H)
        = numbered ((whereConnector 0 W).2.1.length : Int)
            ((threadedBuild H ((whereConnector 0 W).2.1.length : Int)).map Prod.snd).flatten := by
  have hno : ¬∃ o ∈ uOrderBy, ¬validOrder o := fun ⟨o, hmem, hbad⟩ => hbad (ho o hmem)
  have hc := whereConnector_counter W 0
  rw [zero_add] at hc
  obtain ⟨h1, h2⟩ := whereConnector_of_frags H _ hfrag
  refine ⟨?_, ?_, ?_⟩
  · rw [buildSelect_shape, if_neg hno, splitCondition_at_sentinel W H hne hH]
    simp only [havingStep, hc, h1, h2]
  · rw [whereConnectorT_render, h1]
  · rw [whereConnectorT_holders, h2]

theorem buildSelect_having_witness :
    ([Comparable.Gt [("bar", 2)]] ≠ ([] : List (Comparable Nat))) ∧
    (∀ c ∈ [Comparable.Gt [("bar", 2)]], c.isNilComparable = false) ∧
    (((threadedBuild [Comparable.Gt [("bar", 2)]]
        ((whereConnector 0 [Comparable.Eq [("foo", 1)]]).2.1.length : Int)).map
          Prod.fst).flatten ≠ []) ∧
    (∀ o ∈ ([] : List eleOrderBy), validOrder o) ∧
    buildSelect "tb" [] "g" [] none
        ([Comparable.Eq [("foo", 1)]] ++ Comparable.nilComparable :: [Comparable.Gt [("bar", 2)]])
      = ("SELECT * FROM tb WHERE (foo=$1) GROUP BY g HAVING (bar>$2)", [1, 2], none) :=
  ⟨by simp, by decide, by decide, by simp,
    ((buildSelect_having "tb" [] "g" [] none [Comparable.Eq [("foo", 1)]]
      [Comparable.Gt [("bar", 2)]] (by simp) (by decide) (by decide) (by simp)).1).trans
      (by rfl)⟩

/-- C16, at a failing input: the having part is the single condition `Gt` with an empty map, which
produces no fragment; `buildSelect` still appends ` HAVING ` with nothing after it, so the text
differs from the text of the same call without the having part. -/
theorem buildSelect_empty_having :
    buildSelect "tb" [] "g" [] none
        [Comparable.Eq [("foo", 1)], Comparable.nilComparable, Comparable.Gt ([] : GoMap Nat)]
      = ("SELECT * FROM tb WHERE (foo=$1) GROUP BY g HAVING ", [1], none) ∧
    buildSelect "tb" [] "g" [] none [Comparable.Eq [("foo", 1)]]
      = ("SELECT * FROM tb WHERE (foo=$1) GROUP BY g", [1], none) :=
  ⟨by rfl, by rfl⟩

/-- C18: `buildSelect` returns `errOrderByParam`, with an empty text and no values, exactly when
the order-by list has an entry whose direction, upper-cased, is neither `ASC` nor `DESC`; and
it returns no error at all exactly when there is no such entry, so an invalid order direction
is the only way in which it returns an error. -/
theorem buildSelect_error_iff {V : Type} [Inhabited V] (table : String) (ufields : List String)
    (groupBy : String) (uOrderBy : List eleOrderBy) (limit : Option eleLimit)
    (conds : List (Comparable V)) :
    (buildSelect table ufields groupBy uOrderBy limit conds
        = ("", [], some BuildError.errOrderByParam) ↔ ∃ o ∈ uOrderBy, ¬validOrder o) ∧
    ((buildSelect table ufields groupBy uOrderBy limit conds).2.2 = none
        ↔ ∀ o ∈ uOrderBy, validOrder o) := by
  rw [buildSelect_shape]
  by_cases hbad : ∃ o ∈ uOrderBy, ¬validOrder o
  · rw [if_pos hbad]
    refine ⟨⟨fun _ => hbad, fun _ => rfl⟩, ⟨fun he => ?_, fun hall => ?_⟩⟩
    · simp at he
    · obtain ⟨o, hmem, hno⟩ := hbad
      exact absurd (hall o hmem) hno
  · have hall : ∀ o ∈ uOrderBy, validOrder o := by
      simpa using hbad
    rw [if_neg hbad]
    refine ⟨⟨fun he => ?_, fun hex => absurd hex hbad⟩, ⟨fun _ => hall, fun _ => rfl⟩⟩
    simp at he

/-! ## `buildInsert`: names with special characters -/

/-- C19, at a failing input: the table name `t%d` is not passed through; the second
formatting pass reads its `%d` as a directive, prints the first holder in its place and runs
out of holders for the last placeholder. -/
theorem buildInsert_percent_table :
    buildInsert "t%d" [[("foo", 1), ("bar", 2)]]
      = some ("INSERT INTO t1 (bar,foo) VALUES ($2,$%!d(MISSING))", [2, 1], none) := by
  rfl

/-- C20, at a failing input: a single record whose only key is `a` wrapped in backticks; the
key is looked up with the backticks removed, is not found in the record itself, and
`buildInsert` returns `errInsertDataNotMatch`. -/
theorem buildInsert_single_backtick_record :
    buildInsert "t" [[("`a`", 1)]] = some ("", [], some BuildError.errInsertDataNotMatch) := by
  rfl

/-! ## `buildInsert`: the statement -/

theorem seqFrom_zero (p : Int) : seqFrom p 0 = [] := rfl

theorem seqFrom_succ (p : Int) (n : Nat) : seqFrom p (n + 1) = (p + 1) :: seqFrom (p + 1) n := by
  unfold seqFrom
  rw [List.range_succ_eq_map, List.map_cons, List.map_map]
  have h0 : p + (((0 : Nat) : Int) + 1) = p + 1 := by simp
  rw [h0]
  congr 1
  apply List.map_congr_left
  intro i _
  simp only [Function.comp, Nat.succ_eq_add_one]
  push_cast
  omega

theorem seqFrom_add (n m : Nat) : ∀ (p : Int),
    seqFrom p (n + m) = seqFrom p n ++ seqFrom (p + n) m := by
  induction n with
  | zero => intro p; simp [seqFrom_zero]
  | succ n ih =>
    intro p
    have e : n + 1 + m = (n + m) + 1 := by omega
    rw [e, seqFrom_succ, seqFrom_succ, ih (p + 1), List.cons_append]
    congr 3
    push_cast
    omega

theorem sprintfChars_char (c : Char) (hc : c ≠ '%') (rest : List Char) (a : List Int) :
    fmt.sprintfChars false (c :: rest) a
      = (fmt.sprintfChars false rest a).map (fun s => String.singleton c ++ s) := by
  rw [fmt.sprintfChars, if_pos hc]

theorem sprintfChars_text (pre : List Char) (h : '%' ∉ pre) (rest : List Char)
    (a : List Int) :
    fmt.sprintfChars false (pre ++ rest) a
      = (fmt.sprintfChars false rest a).map (fun s => String.mk pre ++ s) := by
  induction pre with
  | nil =>
    have : (fun s : String => String.mk [] ++ s) = id := by
      funext s
      apply String.ext
      simp
    simp [this]
  | cons c cs ih =>
    have hc : c ≠ '%' := fun e => h (by simp [e])
    have hcs : '%' ∉ cs := fun e => h (List.mem_cons_of_mem _ e)
    rw [List.cons_append, sprintfChars_char c hc, ih hcs, Option.map_map]
    rfl

theorem sprintfChars_d (rest : List Char) (n : Int) (a : List Int) :
    fmt.sprintfChars false ('%' :: 'd' :: rest) (n :: a)
      = (fmt.sprintfChars false rest a).map (fun s => itoa n ++ s) := by
  rw [fmt.sprintfChars, if_neg (by decide), fmt.sprintfChars, if_neg (by decide),
    if_neg (by decide)]
  simp only [true_or, if_true]

theorem placeholderList_zero (p : Int) : placeholderList p 0 = "" := rfl

theorem placeholderList_one (p : Int) : placeholderList p 1 = "$" ++ itoa (p + 1) := by
  unfold placeholderList
  rw [placeholderList_succ]
  rfl

theorem placeholderList_succ_succ (p : Int) (k : Nat) :
    placeholderList p (k + 2)
      = "$" ++ itoa (p + 1) ++ "," ++ placeholderList (p + 1) (k + 1) := by
  unfold placeholderList
  rw [placeholderList_succ p (k + 1), strings_Join_cons]
  simp [List.range_succ_eq_map]

/-- The format of one tuple without its parentheses: `k` times `$%d`, joined by `,`. -/
theorem sprintfChars_holders :
    ∀ (k : Nat) (p : Int) (rest : List Char) (a : List Int),
      fmt.sprintfChars false
          ((strings.Join (List.replicate k "$%d") ",").data ++ rest) (seqFrom p k ++ a)
        = (fmt.sprintfChars false rest a).map (fun s => placeholderList p k ++ s)
  | 0, p, rest, a => by
    have : (fun s : String => placeholderList p 0 ++ s) = id := by
      funext s
      rw [placeholderList_zero, String.empty_append]
      rfl
    simp [this, seqFrom_zero, strings.Join]
  | 1, p, rest, a => by
    have hd : (strings.Join (List.replicate 1 "$%d") ",").data = ['$', '%', 'd'] := by
      decide
    rw [hd, seqFrom_succ, seqFrom_zero]
    simp only [List.cons_append, List.nil_append]
    rw [sprintfChars_char '$' (by decide), sprintfChars_d, Option.map_map, placeholderList_one]
    rfl
  | k + 2, p, rest, a => by
    have ih := sprintfChars_holders (k + 1) (p + 1) rest a
    have hj : strings.Join (List.replicate (k + 2) "$%d") ","
        = "$%d" ++ "," ++ strings.Join (List.replicate (k + 1) "$%d") "," := by
      rw [List.replicate_succ, strings_Join_cons]
      simp [List.replicate_succ]
    have hd : ("$%d" ++ "," ++ strings.Join (List.replicate (k + 1) "$%d") ",").data
        = '$' :: '%' :: 'd' :: ',' :: (strings.Join (List.replicate (k + 1) "$%d") ",").data := by
      simp [String.data_append]
    rw [hj, hd, seqFrom_succ]
    simp only [List.cons_append]
    rw [sprintfChars_char '$' (by decide), sprintfChars_d, sprintfChars_char ',' (by decide),
      ih, Option.map_map, Option.map_map, Option.map_map, placeholderList_succ_succ]
    congr 1
    funext s
    simp only [Function.comp, String.append_assoc]
    rfl


theorem Repeat_holders (k : Nat) :
    strings.Repeat "$%d," (k + 1)
      = strings.Join (List.replicate (k + 1) "$%d") "," ++ "," := by
  induction k with
  | zero => decide
  | succ k ih =>
    have hj : strings.Join (List.replicate (k + 2) "$%d") ","
        = "$%d" ++ "," ++ strings.Join (List.replicate (k + 1) "$%d") "," := by
      rw [List.replicate_succ, strings_Join_cons]
      simp [List.replicate_succ]
    have e : "$%d," = "$%d" ++ "," := by decide
    rw [strings.Repeat, ih, hj, e]
    simp only [String.append_assoc]

theorem Join_holders_last (k : Nat) :
    ∃ l, (strings.Join (List.replicate (k + 1) "$%d") ",").data = l ++ ['d'] := by
  induction k with
  | zero => exact ⟨['$', '%'], by decide⟩
  | succ k ih =>
    obtain ⟨l, hl⟩ := ih
    refine ⟨'$' :: '%' :: 'd' :: ',' :: l, ?_⟩
    have hj : strings.Join (List.replicate (k + 2) "$%d") ","
        = "$%d" ++ "," ++ strings.Join (List.replicate (k + 1) "$%d") "," := by
      rw [List.replicate_succ, strings_Join_cons]
      simp [List.replicate_succ]
    rw [hj]
    simp only [String.data_append, hl]
    rfl

theorem TrimRight_comma_after (l : List Char) (ch : Char) (h : ch ≠ ',') :
    strings.TrimRight ⟨l ++ [ch] ++ [',']⟩ "," = ⟨l ++ [ch]⟩ := by
  simp [strings.TrimRight, strings.trimLeftChars, h]

/-- The text between the parentheses of the tuple format of `buildInsert`. -/
theorem TrimRight_Repeat_holders (k : Nat) :
    strings.TrimRight (strings.Repeat "$%d," k) ","
      = strings.Join (List.replicate k "$%d") "," := by
  cases k with
  | zero => decide
  | succ k =>
    obtain ⟨l, hl⟩ := Join_holders_last k
    have e : strings.Repeat "$%d," (k + 1) = ⟨l ++ ['d'] ++ [',']⟩ := by
      rw [Repeat_holders]
      apply String.ext
      simp [String.data_append, hl]
    rw [e, TrimRight_comma_after l 'd' (by decide)]
    exact String.ext hl.symm

theorem tuplesFrom_length (k : Nat) : ∀ (r : Nat) (p : Int), (tuplesFrom p k r).length = r
  | 0, _ => rfl
  | r + 1, p => by simp [tuplesFrom, tuplesFrom_length k r]

/-- Tuple `j` (from 0) carries the placeholders `p + j * k + 1, ..., p + j * k + k`. -/
theorem tuplesFrom_getElem? (k : Nat) :
    ∀ (r : Nat) (p : Int) (j : Nat), j < r →
      (tuplesFrom p k r)[j]? = some (tupleText (p + ((j * k : Nat) : Int)) k)
  | 0, _, _, h => absurd h (by omega)
  | r + 1, p, 0, _ => by simp [tuplesFrom]
  | r + 1, p, j + 1, h => by
    have ih := tuplesFrom_getElem? k r (p + k) j (by omega)
    rw [tuplesFrom, List.getElem?_cons_succ, ih]
    congr 2
    push_cast
    ring

theorem sprintfChars_tuple (k : Nat) (p : Int) (rest : List Char) (a : List Int) :
    fmt.sprintfChars false
        (("(" ++ strings.Join (List.replicate k "$%d") "," ++ ")").data ++ rest)
        (seqFrom p k ++ a)
      = (fmt.sprintfChars false rest a).map (fun s => tupleText p k ++ s) := by
  have hd : ("(" ++ strings.Join (List.replicate k "$%d") "," ++ ")").data ++ rest
      = '(' :: ((strings.Join (List.replicate k "$%d") ",").data ++ (')' :: rest)) := by
    simp [String.data_append]
  rw [hd, sprintfChars_char '(' (by decide), sprintfChars_holders,
    sprintfChars_char ')' (by decide), Option.map_map, Option.map_map]
  congr 1
  funext s
  simp only [Function.comp, tupleText, String.append_assoc]
  rfl

theorem sprintfChars_tuples (k : Nat) :
    ∀ (r : Nat) (p : Int) (rest : List Char) (a : List Int),
      fmt.sprintfChars false
          ((strings.Join (List.replicate r
            ("(" ++ strings.Join (List.replicate k "$%d") "," ++ ")")) ",").data ++ rest)
          (seqFrom p (k * r) ++ a)
        = (fmt.sprintfChars false rest a).map
            (fun s => strings.Join (tuplesFrom p k r) "," ++ s)
  | 0, p, rest, a => by
    have : (fun s : String => strings.Join (tuplesFrom p k 0) "," ++ s) = id := by
      funext s
      simp [tuplesFrom, strings.Join]
    simp [this, seqFrom_zero, strings.Join]
  | 1, p, rest, a => by
    simp only [List.replicate_one, strings.Join, Nat.mul_one, tuplesFrom]
    exact sprintfChars_tuple k p rest a
  | r + 2, p, rest, a => by
    have ih := sprintfChars_tuples k (r + 1) (p + k) rest a
    have hj : ∀ (x : String), strings.Join (List.replicate (r + 2) x) ","
        = x ++ "," ++ strings.Join (List.replicate (r + 1) x) "," := by
      intro x
      rw [List.replicate_succ, strings_Join_cons]
      simp [List.replicate_succ]
    have ht : strings.Join (tuplesFrom p k (r + 2)) ","
        = tupleText p k ++ "," ++ strings.Join (tuplesFrom (p + k) k (r + 1)) "," := by
      rw [tuplesFrom, strings_Join_cons]
      simp [tuplesFrom]
    have hs : seqFrom p (k * (r + 2)) = seqFrom p k ++ seqFrom (p + k) (k * (r + 1)) := by
      rw [← seqFrom_add]
      congr 1
      ring
    rw [hj, hs, ht, String.data_append, String.data_append, List.append_assoc,
      List.append_assoc, List.append_assoc, sprintfChars_tuple]
    have hc : (",": String).data = [','] := rfl
    rw [hc, List.cons_append, List.nil_append, sprintfChars_char ',' (by decide), ih,
      Option.map_map, Option.map_map]
    congr 1
    funext s
    simp only [Function.comp, String.append_assoc]
    rfl

theorem tuplesFrom_eq_map (k r : Nat) :
    tuplesFrom 0 k r
      = (List.range r).map (fun (j : Nat) => tupleText ((j * k : Nat) : Int) k) := by
  apply List.ext_getElem?
  intro j
  by_cases hj : j < r
  · rw [tuplesFrom_getElem? k r 0 j hj, zero_add]
    simp [hj]
  · have h1 : (tuplesFrom 0 k r)[j]? = none := by
      apply List.getElem?_eq_none
      rw [tuplesFrom_length]
      omega
    rw [h1]
    symm
    apply List.getElem?_eq_none
    simp
    omega

theorem Join_no_percent :
    ∀ (l : List String), (∀ s ∈ l, '%' ∉ s.data) → '%' ∉ (strings.Join l ",").data
  | [], _ => by simp [strings.Join]
  | [a], h => by simpa [strings.Join] using h a (by simp)
  | a :: b :: rest, h => by
    have ih := Join_no_percent (b :: rest) (fun s hs => h s (List.mem_cons_of_mem _ hs))
    have ha := h a (by simp)
    simp only [strings.Join, String.data_append, List.mem_append, not_or]
    exact ⟨⟨ha, by decide⟩, ih⟩

theorem buildInsert_fieldLoop_some {V : Type} (r : GoMap V) :
    ∀ (fields : List String), (∀ f ∈ fields, strings.Trim f "`" ∈ r.keys) →
      ∃ vs, buildInsert.fieldLoop r fields = some vs ∧
        vs.map some = fields.map (fun f => r.get? (strings.Trim f "`"))
  | [], _ => ⟨[], rfl, rfl⟩
  | field :: rest, h => by
    obtain ⟨vs, hvs, hmap⟩ :=
      buildInsert_fieldLoop_some r rest (fun f hf => h f (List.mem_cons_of_mem _ hf))
    have hk := h field (by simp)
    cases hl : r.get? (strings.Trim field "`") with
    | none =>
      exact absurd hk ((GoMap.lookup_eq_none_iff r _).mp hl)
    | some v =>
      refine ⟨v :: vs, ?_, ?_⟩
      · simp only [buildInsert.fieldLoop, hl, hvs]
      · simp only [List.map_cons, hl, hmap]

theorem buildInsert_loop_some {V : Type} (fields : List String) (placeholder : String) :
    ∀ (recs : List (GoMap V)),
      (∀ r ∈ recs, ∀ f ∈ fields, strings.Trim f "`" ∈ r.keys) →
      ∃ vals, buildInsert.loop fields placeholder recs
          = some (List.replicate recs.length placeholder, vals) ∧
        vals.map some
          = (recs.map (fun r => fields.map (fun f => r.get? (strings.Trim f "`")))).flatten
  | [], _ => ⟨[], rfl, rfl⟩
  | r :: rest, h => by
    obtain ⟨vals, hvals, hmap⟩ :=
      buildInsert_loop_some fields placeholder rest
        (fun x hx => h x (List.mem_cons_of_mem _ hx))
    obtain ⟨vs, hvs, hrow⟩ := buildInsert_fieldLoop_some r fields (h r (by simp))
    refine ⟨vs ++ vals, ?_, ?_⟩
    · simp only [buildInsert.loop, hvs, hvals, List.length_cons, List.replicate_succ]
    · simp only [List.map_append, List.map_cons, List.flatten_cons, hrow, hmap]

/-- In the concatenation of rows of one length `k`, position `j * k + i` is position `i` of
row `j`. -/
theorem flatten_getElem?_uniform {α : Type} (k : Nat) :
    ∀ (rows : List (List α)), (∀ row ∈ rows, row.length = k) →
      ∀ (j i : Nat), i < k → rows.flatten[j * k + i]? = (rows.getD j [])[i]?
  | [], _, j, i, _ => by simp
  | row :: rest, h, 0, i, hi => by
    have hr := h row (by simp)
    simp only [List.flatten_cons, Nat.zero_mul, Nat.zero_add, List.getD_cons_zero]
    rw [List.getElem?_append_left (by omega)]
  | row :: rest, h, j + 1, i, hi => by
    have hr := h row (by simp)
    have ih := flatten_getElem?_uniform k rest (fun x hx => h x (List.mem_cons_of_mem _ hx))
      j i hi
    simp only [List.flatten_cons, List.getD_cons_succ]
    have hge : row.length ≤ (j + 1) * k + i := by
      rw [hr, Nat.add_mul]
      omega
    rw [List.getElem?_append_right hge]
    have e : (j + 1) * k + i - row.length = j * k + i := by
      rw [hr, Nat.add_mul]
      omega
    rw [e, ih]

theorem resolveFields_eq_sorted_keys {V : Type} (m : GoMap V) :
    resolveFields m = defaultSortAlgorithm m.keys := by
  have hid : quoteField = id := funext (fun _ => rfl)
  rw [resolveFields, hid, List.map_id]

theorem sprintf_insert_format (pre : String) (hpre : '%' ∉ pre.data) (k r : Nat) :
    fmt.Sprintf
        (pre ++ strings.Join (List.replicate r
          ("(" ++ strings.Join (List.replicate k "$%d") "," ++ ")")) ",")
        ((List.range (k * r)).map (fun (i : Nat) => (i : Int) + 1))
      = some (pre ++ strings.Join (tuplesFrom 0 k r) ",") := by
  have hh : (List.range (k * r)).map (fun (i : Nat) => (i : Int) + 1)
      = seqFrom 0 (k * r) ++ [] := by
    rw [List.append_nil]
    unfold seqFrom
    apply List.map_congr_left
    intro i _
    rw [zero_add]
  have hd : (pre ++ strings.Join (List.replicate r
      ("(" ++ strings.Join (List.replicate k "$%d") "," ++ ")")) ",").data
      = pre.data ++ ((strings.Join (List.replicate r
          ("(" ++ strings.Join (List.replicate k "$%d") "," ++ ")")) ",").data ++ []) := by
    rw [String.data_append, List.append_nil]
  unfold fmt.Sprintf
  rw [hh, hd, sprintfChars_text pre.data hpre, sprintfChars_tuples]
  simp only [fmt.sprintfChars, fmt.extra, List.length_nil, if_true, Option.map_some',
    String.append_empty]

/-- C11: for a table name and keys without `%`, keys that neither begin nor end with a
backtick, and records that all have the key set of the first record, `buildInsert` returns
no error.  With `cs` the keys of the first record in strictly ascending order, `k` their
number and `r` the number of records, the text is `INSERT INTO <table> (<cs joined by ,>)
VALUES ` followed by the `r` tuples joined by `,`, the tuple of record `j` (from 0) being
`($jk+1,...,$jk+k)`; there are `r * k` values, and the value at position `j * k + i` is the
value of record `j` for the column `cs[i]`. -/
theorem buildInsert_success {V : Type} (table : String) (first : GoMap V)
    (rest : List (GoMap V)) (hnd : first.NodupKeys)
    (hkeys : ∀ r ∈ rest, ∀ k, k ∈ r.keys ↔ k ∈ first.keys)
    (htab : '%' ∉ table.data) (hpct : ∀ k ∈ first.keys, '%' ∉ k.data)
    (hbt : ∀ k ∈ first.keys, noBacktickEnds k) :
    ∃ (cs : List String) (vals : List V), cs.Perm first.keys ∧ cs.Sorted strLT ∧
      buildInsert table (first :: rest)
        = some ("INSERT INTO " ++ table ++ " (" ++ strings.Join cs "," ++ ") VALUES "
            ++ strings.Join ((List.range (rest.length + 1)).map
                (fun (j : Nat) => tupleText ((j * cs.length : Nat) : Int) cs.length)) ",",
          vals, none) ∧
      vals.length = (rest.length + 1) * cs.length ∧
      ∀ (j i : Nat) (hj : j < (first :: rest).length) (hi : i < cs.length),
        ∃ v, (first :: rest)[j].get? cs[i] = some v ∧ vals[j * cs.length + i]? = some v := by
  have hcs := resolveFields_eq_sorted_keys first
  have hperm : (resolveFields first).Perm first.keys := by
    rw [hcs]; exact defaultSortAlgorithm_perm _
  have hmem : ∀ f ∈ resolveFields first, f ∈ first.keys := fun f hf => hperm.mem_iff.mp hf
  have hall : ∀ r ∈ first :: rest, ∀ f ∈ resolveFields first,
      strings.Trim f "`" ∈ r.keys := by
    intro r hr f hf
    rw [Trim_of_noBacktickEnds f (hbt f (hmem f hf))]
    rcases List.mem_cons.mp hr with rfl | hr'
    · exact hmem f hf
    · exact (hkeys r hr' f).mpr (hmem f hf)
  obtain ⟨vals, hloop, hmap⟩ := buildInsert_loop_some (resolveFields first)
    ("(" ++ strings.TrimRight (strings.Repeat "$%d," (resolveFields first).length) "," ++ ")")
    (first :: rest) hall
  have hrows : (first :: rest).map
        (fun r => (resolveFields first).map (fun f => r.get? (strings.Trim f "`")))
      = (first :: rest).map (fun r => (resolveFields first).map (fun f => r.get? f)) := by
    apply List.map_congr_left
    intro r _
    apply List.map_congr_left
    intro f hf
    rw [Trim_of_noBacktickEnds f (hbt f (hmem f hf))]
  rw [hrows] at hmap
  have hpre : '%' ∉ ("INSERT INTO " ++ table ++ " (" ++ strings.Join (resolveFields first) ","
      ++ ") VALUES ").data := by
    have hj := Join_no_percent (resolveFields first) (fun s hs => hpct s (hmem s hs))
    simp only [String.data_append, List.mem_append, not_or]
    exact ⟨⟨⟨⟨by decide, htab⟩, by decide⟩, hj⟩, by decide⟩
  refine ⟨resolveFields first, vals, hperm, ?_, ?_, ?_, ?_⟩
  · rw [hcs]; exact defaultSortAlgorithm_strict _ hnd
  · simp only [buildInsert, hloop, quoteField]
    rw [TrimRight_Repeat_holders, List.length_replicate,
      sprintf_insert_format _ hpre, tuplesFrom_eq_map]
    rfl
  · have hl := congrArg List.length hmap
    rw [List.length_map, List.length_flatten] at hl
    rw [hl]
    simp [Function.comp_def]
    ring
  · intro j i hj hi
    have hu := flatten_getElem?_uniform (resolveFields first).length
      ((first :: rest).map (fun r => (resolveFields first).map (fun f => r.get? f)))
      (by
        intro row hrow
        obtain ⟨r, _, rfl⟩ := List.mem_map.mp hrow
        simp)
      j i hi
    rw [← hmap, List.getElem?_map] at hu
    have hrow : (List.map (fun r => (resolveFields first).map (fun f => r.get? f))
        (first :: rest)).getD j [] = (resolveFields first).map
          (fun f => (first :: rest)[j].get? f) := by
      rw [List.getD_eq_getElem?_getD, List.getElem?_map, List.getElem?_eq_getElem hj]
      rfl
    rw [hrow, List.getElem?_map, List.getElem?_eq_getElem hi] at hu
    simp only [Option.map_some'] at hu
    cases hv : vals[j * (resolveFields first).length + i]? with
    | none => rw [hv] at hu; simp at hu
    | some v =>
      rw [hv] at hu
      simp only [Option.map_some', Option.some.injEq] at hu
      exact ⟨v, hu.symm, rfl⟩

theorem buildInsert_success_witness :
    GoMap.NodupKeys [("foo", 1), ("bar", 2)] ∧
    (∀ r ∈ [[("bar", 4), ("foo", 3)]], ∀ k,
      k ∈ GoMap.keys r ↔ k ∈ GoMap.keys [("foo", 1), ("bar", 2)]) ∧
    '%' ∉ ("tb1" : String).data ∧
    (∀ k ∈ GoMap.keys [("foo", 1), ("bar", 2)], '%' ∉ k.data) ∧
    (∀ k ∈ GoMap.keys [("foo", 1), ("bar", 2)], noBacktickEnds k) ∧
    ∃ (cs : List String) (vals : List Nat),
      cs.Perm (GoMap.keys [("foo", 1), ("bar", 2)]) ∧ cs.Sorted strLT ∧
      buildInsert "tb1" [[("foo", 1), ("bar", 2)], [("bar", 4), ("foo", 3)]]
        = some ("INSERT INTO " ++ "tb1" ++ " (" ++ strings.Join cs "," ++ ") VALUES "
            ++ strings.Join ((List.range 2).map
                (fun (j : Nat) => tupleText ((j * cs.length : Nat) : Int) cs.length)) ",",
          vals, none) ∧
      vals.length = 2 * cs.length ∧
      ∀ (j i : Nat) (hj : j < 2) (hi : i < cs.length),
        ∃ v, ([[("foo", 1), ("bar", 2)], [("bar", 4), ("foo", 3)]] : List (GoMap Nat))[j].get? cs[i]
          = some v ∧ vals[j * cs.length + i]? = some v :=
  have hk : ∀ r ∈ [[("bar", 4), ("foo", 3)]], ∀ k,
      k ∈ GoMap.keys r ↔ k ∈ GoMap.keys [("foo", 1), ("bar", 2)] := by
    intro r hr k
    rw [List.mem_singleton] at hr
    subst hr
    simp [GoMap.keys, or_comm]
  ⟨by decide, hk, by decide, by decide, by decide,
    buildInsert_success "tb1" [("foo", 1), ("bar", 2)] [[("bar", 4), ("foo", 3)]]
      (by decide) hk (by decide) (by decide) (by decide)⟩

/-! ## `splitCondition` -/

/-- The last index below `n` at which `p` holds, read off the filtered range. -/
theorem lastIndex_spec (p : Nat → Bool) :
    ∀ (n : Nat),
      (((List.range n).filter p).getLast? = none ∧ ∀ j, j < n → p j = false) ∨
      ∃ i, ((List.range n).filter p).getLast? = some i ∧ i < n ∧ p i = true ∧
        ∀ j, i < j → j < n → p j = false
  | 0 => Or.inl ⟨rfl, fun j hj => absurd hj (by omega)⟩
  | n + 1 => by
    rw [List.range_succ, List.filter_append]
    by_cases hp : p n = true
    · right
      refine ⟨n, ?_, by omega, hp, fun j h1 h2 => absurd h2 (by omega)⟩
      simp [List.filter, hp]
    · have hp' : p n = false := by simpa using hp
      have hf : List.filter p [n] = [] := by simp [List.filter, hp']
      rw [hf, List.append_nil]
      rcases lastIndex_spec p n with ⟨h1, h2⟩ | ⟨i, h1, h2, h3, h4⟩
      · left
        refine ⟨h1, fun j hj => ?_⟩
        by_cases hjn : j = n
        · rw [hjn]; exact hp'
        · exact h2 j (by omega)
      · right
        refine ⟨i, h1, by omega, h3, fun j hj1 hj2 => ?_⟩
        by_cases hjn : j = n
        · rw [hjn]; exact hp'
        · exact h4 j hj1 (by omega)

/-- The backward scan of `splitCondition` started below `n` ends at the last sentinel below
`n`, or at `-1`. -/
theorem splitCondition_loop_eq_last {V : Type} (conds : List (Comparable V)) :
    ∀ (n : Nat),
      splitCondition.loop conds n
        = match ((List.range n).filter (sentinelAt conds)).getLast? with
          | none => -1
          | some i => (i : Int)
  | 0 => rfl
  | n + 1 => by
    have ih := splitCondition_loop_eq_last conds n
    rw [List.range_succ, List.filter_append, splitCondition.loop]
    cases hg : conds.get? n with
    | none =>
      have hs : sentinelAt conds n = false := by unfold sentinelAt; rw [hg]
      have hf : List.filter (sentinelAt conds) [n] = [] := by simp [List.filter, hs]
      rw [hf, List.append_nil]
      exact ih
    | some c =>
      by_cases hc : c.isNilComparable = true
      · have hs : sentinelAt conds n = true := by unfold sentinelAt; rw [hg]; exact hc
        have hf : List.filter (sentinelAt conds) [n] = [n] := by simp [List.filter, hs]
        rw [hf]
        simp [hc]
      · have hc' : c.isNilComparable = false := by simpa using hc
        have hs : sentinelAt conds n = false := by unfold sentinelAt; rw [hg]; exact hc'
        have hf : List.filter (sentinelAt conds) [n] = [] := by simp [List.filter, hs]
        rw [hf, List.append_nil]
        simp only [hc']
        exact ih

theorem isNilComparable_eq {V : Type} (c : Comparable V) (h : c.isNilComparable = true) :
    c = Comparable.nilComparable := by
  cases c <;> first | rfl | simp [Comparable.isNilComparable] at h

/-- C21: `splitCondition` separates the having list at the last sentinel.  With `i` the index
of the last `nilComparable`: when there is no sentinel, or the last sentinel is the final
element, the result is the input list as where list and the nil slice as having list;
otherwise the where list is the elements before index `i` and the having list the elements
after index `i`, so that where list, sentinel and having list make up the input, and the
having list is not empty and holds no sentinel. -/
theorem splitCondition_spec {V : Type} (conds : List (Comparable V)) :
    match lastSentinel conds with
    | none => splitCondition conds = (conds, none)
    | some i =>
      if i + 1 = conds.length then splitCondition conds = (conds, none)
      else
        splitCondition conds = (conds.take i, some (conds.drop (i + 1))) ∧
        conds.take i ++ Comparable.nilComparable :: conds.drop (i + 1) = conds ∧
        conds.drop (i + 1) ≠ [] ∧
        ∀ c ∈ conds.drop (i + 1), c.isNilComparable = false := by
  have hloop := splitCondition_loop_eq_last conds conds.length
  rcases lastIndex_spec (sentinelAt conds) conds.length with
    ⟨h1, _⟩ | ⟨i, h1, h2, h3, h4⟩
  · have hl : lastSentinel conds = none := h1
    rw [h1] at hloop
    simp only [hl]
    unfold splitCondition
    simp only [hloop]
    rw [if_neg (by omega)]
  · have hl : lastSentinel conds = some i := h1
    rw [h1] at hloop
    simp only [hl]
    by_cases hlast : i + 1 = conds.length
    · rw [if_pos hlast]
      unfold splitCondition
      simp only [hloop]
      rw [if_neg (by omega)]
    · rw [if_neg hlast]
      have hget : conds[i]? = some Comparable.nilComparable := by
        unfold sentinelAt at h3
        rw [List.get?_eq_getElem?] at h3
        cases hc : conds[i]? with
        | none => rw [hc] at h3; simp at h3
        | some c =>
          rw [hc] at h3
          rw [isNilComparable_eq c h3]
      refine ⟨?_, ?_, ?_, ?_⟩
      · unfold splitCondition
        simp only [hloop]
        rw [if_pos (by omega)]
        simp
      · have hd : conds.drop i = Comparable.nilComparable :: conds.drop (i + 1) := by
          rw [List.drop_eq_getElem_cons h2]
          congr 1
          have := List.getElem?_eq_getElem h2
          rw [hget] at this
          exact (Option.some.inj this).symm
        rw [← hd, List.take_append_drop]
      · intro he
        have hlen := congrArg List.length he
        simp at hlen
        omega
      · intro c hc
        obtain ⟨j, hj, hcj⟩ := List.getElem_of_mem hc
        rw [List.length_drop] at hj
        rw [List.getElem_drop] at hcj
        have hs := h4 (i + 1 + j) (by omega) (by omega)
        unfold sentinelAt at hs
        rw [List.get?_eq_getElem?, List.getElem?_eq_getElem (by omega), hcj] at hs
        exact hs

/-! ## Conditions that render nothing -/

theorem rendersNothing_Build {V : Type} [Inhabited V] (cond : Comparable V) (c : Int)
    (h : cond.rendersNothing = true) : cond.Build c = ([], [], c) := by
  cases cond with
  | nilComparable => rfl
  | _ m =>
    have hm : m = [] := by simpa [Comparable.rendersNothing] using h
    subst hm
    rfl

theorem rendersNothing_of_no_frag {V : Type} [Inhabited V] (cond : Comparable V) (c : Int)
    (h : (cond.Build c).1.length = 0) : cond.rendersNothing = true := by
  cases cond with
  | nilComparable => rfl
  | Like m => have := Like_Build_no_frag m c h; subst this; rfl
  | Eq m => have := build_no_frag m "=" c h; subst this; rfl
  | Ne m => have := build_no_frag m "!=" c h; subst this; rfl
  | Lt m => have := build_no_frag m "<" c h; subst this; rfl
  | Lte m => have := build_no_frag m "<=" c h; subst this; rfl
  | Gt m => have := build_no_frag m ">" c h; subst this; rfl
  | Gte m => have := build_no_frag m ">=" c h; subst this; rfl
  | In m => have := In_Build_no_frag m c h; subst this; rfl

/-- The conditions produce no fragment exactly when each is the sentinel or has an empty
map. -/
theorem threadedBuild_no_frag_iff {V : Type} [Inhabited V] :
    ∀ (conds : List (Comparable V)) (c : Int),
      ((threadedBuild conds c).map Prod.fst).flatten.length = 0
        ↔ ∀ cond ∈ conds, cond.rendersNothing = true
  | [], _ => by simp [threadedBuild]
  | cond :: rest, c => by
    have ih := threadedBuild_no_frag_iff rest (cond.Build c).2.2
    simp only [threadedBuild, List.map_cons, List.flatten_cons, List.length_append,
      List.forall_mem_cons]
    constructor
    · intro h
      exact ⟨rendersNothing_of_no_frag cond c (by omega), ih.mp (by omega)⟩
    · rintro ⟨h1, h2⟩
      have hb := rendersNothing_Build cond c h1
      have := ih.mpr h2
      rw [hb] at this ⊢
      simpa using this

theorem whereConnector_empty_iff {V : Type} [Inhabited V] (conds : List (Comparable V))
    (c : Int) :
    (whereConnector c conds).1 = "" ↔ ∀ cond ∈ conds, cond.rendersNothing = true :=
  (whereConnector_text_empty_iff conds c).trans (threadedBuild_no_frag_iff conds c)

theorem append_ne_self (s t : String) (h : t ≠ "") : s ++ t ≠ s := by
  intro e
  have hl := congrArg String.length e
  rw [String.length_append] at hl
  have ht : t.length ≠ 0 := by
    intro h0
    apply h
    apply String.ext
    exact List.length_eq_zero.mp h0
  omega

theorem whereConnector_In_empty {V : Type} [Inhabited V] (c : Int) (field : String) :
    whereConnector c [Comparable.In [(field, ([] : List V))]]
      = ("(" ++ field ++ " IN ())", [], c) := by
  have e : "(" ++ (field ++ " IN (" ++ "" ++ ")") ++ ")" = "(" ++ field ++ " IN ())" := by
    simp only [String.append_assoc, String.empty_append]
    rfl
  rw [← e]
  simp [whereConnector, whereConnector.loop, Comparable.Build, In.Build, In.loop,
    defaultSortAlgorithm, GoMap.keys, GoMap.get, buildIn, buildIn.loop, quoteField,
    strings.Join]

/-- C22: `whereConnector` returns the empty string exactly when every condition is the
sentinel or has an empty map, and `buildDelete` returns the unconditional
`DELETE FROM <table>` exactly in that case.  An `In` condition whose only field is bound to
the empty sequence still gives the clause `(<field> IN ())`, with no values. -/
theorem whereConnector_empty_spec {V : Type} [Inhabited V] (conds : List (Comparable V))
    (c : Int) (table field : String) :
    ((whereConnector c conds).1 = "" ↔ ∀ cond ∈ conds, cond.rendersNothing = true) ∧
    ((buildDelete table conds).1 = "DELETE FROM " ++ table
      ↔ ∀ cond ∈ conds, cond.rendersNothing = true) ∧
    whereConnector c [Comparable.In [(field, ([] : List V))]]
      = ("(" ++ field ++ " IN ())", [], c) ∧
    buildDelete table [Comparable.In [(field, ([] : List V))]]
      = ("DELETE FROM " ++ table ++ " WHERE " ++ ("(" ++ field ++ " IN ())"), [], none) := by
  have hw := whereConnector_empty_iff conds 0
  refine ⟨whereConnector_empty_iff conds c, ?_, whereConnector_In_empty c field, ?_⟩
  · rw [← hw]
    unfold buildDelete
    simp only [quoteField]
    by_cases he : (whereConnector 0 conds).1 = ""
    · rw [if_pos he.symm]
      exact ⟨fun _ => he, fun _ => rfl⟩
    · rw [if_neg (fun e => he e.symm)]
      constructor
      · intro h
        rw [String.append_assoc ("DELETE FROM " ++ table)] at h
        exact absurd h (append_ne_self ("DELETE FROM " ++ table)
          (" WHERE " ++ (whereConnector 0 conds).1) (by
          intro e
          have hl := congrArg String.length e
          rw [String.length_append] at hl
          have h1 : " WHERE ".length = 7 := by decide
          have h0 : "".length = 0 := by decide
          omega))
      · intro h
        exact absurd h he
  · unfold buildDelete
    simp only [whereConnector_In_empty, quoteField]
    rw [if_neg (fun e => by
      have hl := congrArg String.length e
      rw [String.length_append, String.length_append] at hl
      have h1 : "(".length = 1 := by decide
      have h0 : "".length = 0 := by decide
      omega)]

theorem whereConnector_eq_loop {V : Type} [Inhabited V] (conds : List (Comparable V))
    (c : Int) :
    whereConnector c conds
      = if (whereConnector.loop conds c).1.length = 0 then
          ("", [], (whereConnector.loop conds c).2.2)
        else ("(" ++ strings.Join (whereConnector.loop conds c).1 " AND " ++ ")",
              (whereConnector.loop conds c).2.1, (whereConnector.loop conds c).2.2) := by
  unfold whereConnector
  split
  · next h =>
    have : conds = [] := List.length_eq_zero.mp h
    subst this
    rfl
  · rfl

theorem whereConnector_loop_skip {V : Type} [Inhabited V] (x : Comparable V)
    (hx : x.rendersNothing = true) (B : List (Comparable V)) :
    ∀ (A : List (Comparable V)) (c : Int),
      whereConnector.loop (A ++ x :: B) c = whereConnector.loop (A ++ B) c
  | [], c => by
    simp only [List.nil_append, whereConnector.loop, rendersNothing_Build x c hx,
      List.length_nil, if_true]
  | a :: A, c => by
    have ih := whereConnector_loop_skip x hx B A (a.Build c).2.2
    rw [List.cons_append, List.cons_append, whereConnector.loop, whereConnector.loop, ih]

theorem whereConnector_loop_filter {V : Type} [Inhabited V] :
    ∀ (conds : List (Comparable V)) (c : Int),
      whereConnector.loop conds c
        = whereConnector.loop (conds.filter (fun d => !d.rendersNothing)) c
  | [], _ => rfl
  | a :: rest, c => by
    by_cases ha : a.rendersNothing = true
    · have hf : (a :: rest).filter (fun d => !d.rendersNothing)
          = rest.filter (fun d => !d.rendersNothing) := by
        simp [List.filter, ha]
      rw [hf, ← whereConnector_loop_filter rest c]
      exact whereConnector_loop_skip a ha rest [] c
    · have ha' : a.rendersNothing = false := by simpa using ha
      have hf : (a :: rest).filter (fun d => !d.rendersNothing)
          = a :: rest.filter (fun d => !d.rendersNothing) := by
        simp [List.filter, ha']
      rw [hf]
      simp only [whereConnector.loop, ← whereConnector_loop_filter rest (a.Build c).2.2]

/-- C23: `whereConnector` is insensitive to conditions that render nothing.  Inserting a
sentinel or a condition with an empty map anywhere into the list, or removing one, changes
neither the string, nor the values, nor the final counter; and every list gives the same
result as the list with all such conditions taken out. -/
theorem whereConnector_insensitive {V : Type} [Inhabited V] (c : Int)
    (A B : List (Comparable V)) (x : Comparable V) (hx : x.rendersNothing = true) :
    whereConnector c (A ++ x :: B) = whereConnector c (A ++ B) ∧
    ∀ conds : List (Comparable V),
      whereConnector c conds
        = whereConnector c (conds.filter (fun d => !d.rendersNothing)) := by
  constructor
  · rw [whereConnector_eq_loop, whereConnector_eq_loop, whereConnector_loop_skip x hx B A c]
  · intro conds
    rw [whereConnector_eq_loop, whereConnector_eq_loop, ← whereConnector_loop_filter conds c]

theorem whereConnector_insensitive_witness :
    (Comparable.Gt ([] : GoMap Nat)).rendersNothing = true ∧
    whereConnector 3 ([Comparable.Eq [("a", 1)]] ++ Comparable.Gt [] :: [Comparable.In [("b", [2])]])
      = whereConnector 3 ([Comparable.Eq [("a", 1)]] ++ [Comparable.In [("b", [2])]]) :=
  ⟨rfl, (whereConnector_insensitive 3 [Comparable.Eq [("a", 1)]] [Comparable.In [("b", [2])]]
    (Comparable.Gt []) rfl).1⟩

/-! ## The values of `buildSelect`, the errors of `buildUpdate` and `buildDelete`, `resolveKV` -/

/-- C24: the values returned by a successful `buildSelect` depend only on the conditions: two
calls on the same conditions that both return no error return the same values, whatever
their table names, field lists, `groupBy` strings, order-by lists and limits; these values
are the WHERE values followed by the HAVING values. -/
theorem buildSelect_values {V : Type} [Inhabited V] (conds : List (Comparable V))
    (table table' : String) (ufields ufields' : List String) (groupBy groupBy' : String)
    (uOrderBy uOrderBy' : List eleOrderBy) (limit limit' : Option eleLimit)
    (h : (buildSelect table ufields groupBy uOrderBy limit conds).2.2 = none)
    (h' : (buildSelect table' ufields' groupBy' uOrderBy' limit' conds).2.2 = none) :
    (buildSelect table ufields groupBy uOrderBy limit conds).2.1
        = (buildSelect table' ufields' groupBy' uOrderBy' limit' conds).2.1 ∧
    (buildSelect table ufields groupBy uOrderBy limit conds).2.1
        = (whereConnector 0 (splitCondition conds).1).2.1
          ++ (havingStep (whereConnector 0 (splitCondition conds).1).2.2
                (splitCondition conds).2).2 := by
  rw [buildSelect_shape] at h ⊢
  rw [buildSelect_shape] at h' ⊢
  by_cases hb : ∃ o ∈ uOrderBy, ¬validOrder o
  · rw [if_pos hb] at h
    simp at h
  · by_cases hb' : ∃ o ∈ uOrderBy', ¬validOrder o
    · rw [if_pos hb'] at h'
      simp at h'
    · rw [if_neg hb, if_neg hb']
      exact ⟨rfl, rfl⟩

theorem buildSelect_values_witness :
    (buildSelect "tb" ["a"] "g" [eleOrderBy.mk "a" "asc"] none
      [Comparable.Eq [("foo", 1)], Comparable.nilComparable, Comparable.Gt [("bar", 2)]]).2.2
      = none ∧
    (buildSelect "other" [] "" [] (some (eleLimit.mk 1 2))
      [Comparable.Eq [("foo", 1)], Comparable.nilComparable, Comparable.Gt [("bar", 2)]]).2.2
      = none ∧
    (buildSelect "tb" ["a"] "g" [eleOrderBy.mk "a" "asc"] none
      [Comparable.Eq [("foo", 1)], Comparable.nilComparable, Comparable.Gt [("bar", 2)]]).2.1
      = (buildSelect "other" [] "" [] (some (eleLimit.mk 1 2))
      [Comparable.Eq [("foo", 1)], Comparable.nilComparable, Comparable.Gt [("bar", 2)]]).2.1 :=
  ⟨by rfl, by rfl,
    (buildSelect_values
      [Comparable.Eq [("foo", 1)], Comparable.nilComparable, Comparable.Gt [("bar", 2)]]
      "tb" "other" ["a"] [] "g" "" [eleOrderBy.mk "a" "asc"] [] none (some (eleLimit.mk 1 2))
      (by rfl) (by rfl)).1⟩

/-- C25: `buildUpdate` and `buildDelete` never return an error.  For the empty or nil set map
`buildUpdate` returns `UPDATE <table> SET ` with no assignment, followed by ` WHERE <W>` when
the string `W` of `whereConnector` run from the counter `0` is not empty, and the values of that
`whereConnector` only; the placeholders of `W` are `1, 2, ...`, the `k`-th for the `k`-th
value. -/
theorem update_delete_no_error {V : Type} [Inhabited V] (table : String) (update : GoMap V)
    (conds : List (Comparable V)) :
    (buildUpdate table update conds).2.2 = none ∧
    (buildDelete table conds).2.2 = none ∧
    buildUpdate table ([] : GoMap V) conds
      = ("UPDATE " ++ table ++ " SET " ++ whereClause (whereConnector 0 conds).1,
         (whereConnector 0 conds).2.1, none) ∧
    renderPieces (whereConnectorT 0 conds) = (whereConnector 0 conds).1 ∧
    holders (whereConnectorT 0 conds) = numbered 0 (whereConnector 0 conds).2.1 := by
  refine ⟨?_, ?_, ?_, whereConnectorT_render conds 0, whereConnectorT_holders conds 0⟩
  · unfold buildUpdate
    simp only []
    split <;> rfl
  · unfold buildDelete
    simp only []
    split <;> rfl
  · have hk : resolveKV ([] : GoMap V) = ([], []) := rfl
    have hl : buildUpdate.loop [] 0 = ("", 0) := rfl
    have ht : strings.TrimRight "" "," = "" := by decide
    unfold buildUpdate
    simp only [hk, hl, ht, quoteField, whereClause, List.nil_append]
    by_cases hw : (whereConnector 0 conds).1 = ""
    · rw [if_neg (fun hne : "" ≠ _ => hne hw.symm), if_pos hw,
        whereConnector_vals_of_empty conds 0 hw.symm]
    · rw [if_pos (fun e : "" = _ => hw e.symm), if_neg hw]
      simp only [String.append_assoc, String.empty_append]

/-- C26: for a map `m` with distinct keys, `resolveKV` returns the keys of `m` in strictly
ascending order, each exactly once, and as many values, the `i`-th value being `m[keys[i]]`;
for the empty map both lists are empty. -/
theorem resolveKV_spec {V : Type} [Inhabited V] (m : GoMap V) (hm : m.NodupKeys) :
    (resolveKV m).1.Perm m.keys ∧ (resolveKV m).1.Sorted strLT ∧ (resolveKV m).1.Nodup ∧
    (resolveKV m).2.length = (resolveKV m).1.length ∧
    (∀ (i : Nat) (h : i < (resolveKV m).1.length),
      (resolveKV m).2[i]? = some (m.get (resolveKV m).1[i])) ∧
    resolveKV ([] : GoMap V) = ([], []) := by
  have hp : (resolveKV m).1.Perm m.keys := defaultSortAlgorithm_perm _
  refine ⟨hp, defaultSortAlgorithm_strict _ hm, hp.nodup_iff.mpr hm, ?_, ?_, rfl⟩
  · simp [resolveKV]
  · intro i h
    simp only [resolveKV] at h ⊢
    rw [List.getElem?_map, List.getElem?_eq_getElem h]
    rfl

theorem resolveKV_spec_witness :
    GoMap.NodupKeys [("qq", 7), ("some", 123), ("other", 456)] ∧
    resolveKV [("qq", 7), ("some", 123), ("other", 456)]
      = (["other", "qq", "some"], [456, 7, 123]) ∧
    (resolveKV [("qq", 7), ("some", 123), ("other", 456)]).1.Sorted strLT :=
  ⟨by decide, by decide,
    (resolveKV_spec [("qq", 7), ("some", 123), ("other", 456)] (by decide)).2.1⟩

/-! ## The counter of the machine -/

theorem succInt_eq (x : Int) (hlo : minInt ≤ x) (hhi : x < maxInt) : succInt x = x + 1 := by
  unfold succInt wrapInt
  unfold minInt at hlo
  unfold maxInt at hhi
  omega

theorem build_loop64_length {V : Type} [Inhabited V] (m : GoMap V) (op : String) :
    ∀ (ks : List String) (c : Int), (build.loop64 m op ks c).1.length = ks.length
  | [], _ => rfl
  | _ :: rest, c => by simp [build.loop64, build_loop64_length m op rest]

theorem build_loop64_vals {V : Type} [Inhabited V] (m : GoMap V) (op : String) :
    ∀ (ks : List String) (c : Int), (build.loop64 m op ks c).2.1 = ks.map (fun k => m.get k)
  | [], _ => rfl
  | _ :: rest, c => by simp [build.loop64, build_loop64_vals m op rest]

theorem build64_eq_loop {V : Type} [Inhabited V] (m : GoMap V) (op : String) (c : Int) :
    build64 m op c = build.loop64 m op (defaultSortAlgorithm m.keys) c := by
  unfold build64
  split
  · next h =>
    have hm : m = [] := List.length_eq_zero.mp h
    subst hm
    rfl
  · rfl

/-- The loop of `build` counts in the machine as in the integers while the counter stays in
the range of `int`. -/
theorem build_loop64_eq {V : Type} [Inhabited V] (m : GoMap V) (op : String) :
    ∀ (ks : List String) (c : Int), minInt ≤ c → c + ks.length ≤ maxInt →
      build.loop64 m op ks c = build.loop m op ks c
  | [], _, _, _ => rfl
  | k :: rest, c, hlo, hhi => by
    have hlen : ((k :: rest).length : Int) = (rest.length : Int) + 1 := by simp
    rw [hlen] at hhi
    have hs : succInt c = c + 1 := succInt_eq c hlo (by omega)
    have ih := build_loop64_eq m op rest (c + 1) (by omega) (by omega)
    simp only [build.loop64, build.loop, hs, ih]

theorem build64_eq {V : Type} [Inhabited V] (m : GoMap V) (op : String) (c : Int)
    (hlo : minInt ≤ c) (hhi : c + m.length ≤ maxInt) : build64 m op c = build m op c := by
  rw [build64_eq_loop, build_eq_loop]
  apply build_loop64_eq m op _ c hlo
  rw [defaultSortAlgorithm_length]
  simpa [GoMap.keys] using hhi

theorem Like_Build64_eq_loop {V : Type} [Inhabited V] (m : GoMap V) (c : Int) :
    Like.Build64 m c = Like.loop64 m (defaultSortAlgorithm m.keys) c := by
  unfold Like.Build64
  split
  · next h =>
    have hm : m = [] := List.length_eq_zero.mp h
    subst hm
    rfl
  · rfl

/-- The loop of `Like.Build` is the loop of `build` with the operator ` LIKE `. -/
theorem Like_loop64_eq_build_loop64 {V : Type} [Inhabited V] (m : GoMap V) :
    ∀ (ks : List String) (c : Int), Like.loop64 m ks c = build.loop64 m " LIKE " ks c
  | [], _ => rfl
  | k :: rest, c => by
    have e : k ++ " LIKE $" = k ++ " LIKE " ++ "$" := by
      rw [String.append_assoc]; rfl
    simp only [Like.loop64, build.loop64, assembleExpression, quoteField,
      Like_loop64_eq_build_loop64 m rest, e]

theorem Like_Build64_eq_build64 {V : Type} [Inhabited V] (m : GoMap V) (c : Int) :
    Like.Build64 m c = build64 m " LIKE " c := by
  rw [Like_Build64_eq_loop, Like_loop64_eq_build_loop64, ← build64_eq_loop]

theorem buildIn_loop64_eq {V : Type} :
    ∀ (vals : List V) (c : Int), minInt ≤ c → c + vals.length ≤ maxInt →
      buildIn.loop64 vals c = buildIn.loop vals c
  | [], _, _, _ => rfl
  | v :: rest, c, hlo, hhi => by
    have hlen : ((v :: rest).length : Int) = (rest.length : Int) + 1 := by simp
    rw [hlen] at hhi
    have hs : succInt c = c + 1 := succInt_eq c hlo (by omega)
    have ih := buildIn_loop64_eq rest (c + 1) (by omega) (by omega)
    simp only [buildIn.loop64, buildIn.loop, hs, ih]

theorem buildIn64_eq {V : Type} (field : String) (vals : List V) (c : Int)
    (hlo : minInt ≤ c) (hhi : c + vals.length ≤ maxInt) :
    buildIn64 field vals c = buildIn field vals c := by
  simp only [buildIn64, buildIn, buildIn_loop64_eq vals c hlo hhi]

theorem In_loop64_length {V : Type} (m : GoMap (List V)) :
    ∀ (ks : List String) (c : Int), (In.loop64 m ks c).1.length = ks.length
  | [], _ => rfl
  | _ :: rest, c => by simp [In.loop64, In_loop64_length m rest]

theorem In_loop64_vals {V : Type} (m : GoMap (List V)) :
    ∀ (ks : List String) (c : Int),
      (In.loop64 m ks c).2.1 = (ks.map (fun k => m.get k)).flatten
  | [], _ => rfl
  | _ :: rest, c => by simp [In.loop64, In_loop64_vals m rest]

theorem In_Build64_eq_loop {V : Type} (m : GoMap (List V)) (c : Int) :
    In.Build64 m c = In.loop64 m (defaultSortAlgorithm m.keys) c := by
  unfold In.Build64
  split
  · next h =>
    have hm : m = [] := List.length_eq_zero.mp h
    subst hm
    rfl
  · rfl

theorem In_loop64_eq {V : Type} (m : GoMap (List V)) :
    ∀ (ks : List String) (c : Int), minInt ≤ c →
      c + ((ks.map (fun k => m.get k)).flatten.length : Int) ≤ maxInt →
      In.loop64 m ks c = In.loop m ks c
  | [], _, _, _ => rfl
  | k :: rest, c, hlo, hhi => by
    simp only [List.map_cons, List.flatten_cons, List.length_append, Nat.cast_add] at hhi
    have hb := buildIn64_eq k (m.get k) c hlo (by omega)
    have hc : (buildIn k (m.get k) c).2 = c + (m.get k).length := by rw [buildIn_eq]
    have ih := In_loop64_eq m rest (c + (m.get k).length) (by omega) (by omega)
    simp only [In.loop64, In.loop, hb, hc, ih]

/-- The values of `In.Build` do not depend on the counter. -/
theorem In_Build64_vals {V : Type} (m : GoMap (List V)) (c c' : Int) :
    (In.Build64 m c).2.1 = (In.Build m c').2.1 := by
  rw [In_Build64_eq_loop, In_Build_eq_loop, In_loop64_vals, In_loop_vals]

theorem In_Build64_eq {V : Type} (m : GoMap (List V)) (c : Int) (hlo : minInt ≤ c)
    (hhi : c + ((In.Build m c).2.1.length : Int) ≤ maxInt) : In.Build64 m c = In.Build m c := by
  rw [In_Build_eq_loop, In_loop_vals] at hhi
  rw [In_Build64_eq_loop, In_Build_eq_loop]
  exact In_loop64_eq m _ c hlo hhi

theorem build64_shape {V : Type} [Inhabited V] (m : GoMap V) (op : String) (c c' : Int) :
    (build64 m op c).1.length = (build m op c').1.length ∧
    (build64 m op c).2.1 = (build m op c').2.1 := by
  rw [build64_eq_loop, build_eq_loop, build_loop64_length, build_loop_length,
    build_loop64_vals, build_loop_vals]
  exact ⟨rfl, rfl⟩

/-- The number of fragments and the values of a condition do not depend on the counter. -/
theorem Comparable_Build64_shape {V : Type} [Inhabited V] (cond : Comparable V) (c c' : Int) :
    (cond.Build64 c).1.length = (cond.Build c').1.length ∧
    (cond.Build64 c).2.1 = (cond.Build c').2.1 := by
  cases cond with
  | nilComparable => exact ⟨rfl, rfl⟩
  | Like m =>
    simp only [Comparable.Build64, Comparable.Build, Like_Build64_eq_build64,
      Like_Build_eq_build]
    exact build64_shape m _ c c'
  | In m =>
    simp only [Comparable.Build64, Comparable.Build]
    rw [In_Build64_eq_loop, In_Build_eq_loop, In_loop64_length, In_loop_length,
      In_loop64_vals, In_loop_vals]
    exact ⟨rfl, rfl⟩
  | _ => exact build64_shape _ _ c c'

theorem Comparable_Build64_eq {V : Type} [Inhabited V] (cond : Comparable V) (c : Int)
    (hlo : minInt ≤ c) (hhi : c + ((cond.Build c).2.1.length : Int) ≤ maxInt) :
    cond.Build64 c = cond.Build c := by
  have hb : ∀ (m : GoMap V) (op : String),
      c + ((build m op c).2.1.length : Int) ≤ maxInt → build64 m op c = build m op c := by
    intro m op h
    apply build64_eq m op c hlo
    rw [build_eq_loop, build_loop_vals, List.length_map, defaultSortAlgorithm_length] at h
    simpa [GoMap.keys] using h
  cases cond with
  | nilComparable => rfl
  | Like m =>
    simp only [Comparable.Build, Like_Build_eq_build] at hhi
    simp only [Comparable.Build64, Comparable.Build, Like_Build64_eq_build64,
      Like_Build_eq_build]
    exact hb m _ hhi
  | In m => exact In_Build64_eq m c hlo hhi
  | Eq m => exact hb m _ hhi
  | Ne m => exact hb m _ hhi
  | Lt m => exact hb m _ hhi
  | Lte m => exact hb m _ hhi
  | Gt m => exact hb m _ hhi
  | Gte m => exact hb m _ hhi

theorem whereConnector_loop64_shape {V : Type} [Inhabited V] :
    ∀ (conds : List (Comparable V)) (c c' : Int),
      (whereConnector.loop64 conds c).1.length = (whereConnector.loop conds c').1.length ∧
      (whereConnector.loop64 conds c).2.1 = (whereConnector.loop conds c').2.1
  | [], _, _ => ⟨rfl, rfl⟩
  | cond :: rest, c, c' => by
    have hb := Comparable_Build64_shape cond c c'
    have ih := whereConnector_loop64_shape rest (cond.Build64 c).2.2 (cond.Build c').2.2
    simp only [whereConnector.loop64, whereConnector.loop, hb.1]
    split
    · exact ih
    · simp only [List.length_append, hb.1, hb.2, ih.1, ih.2, and_self]

/-- The values of `whereConnector` do not depend on the counter. -/
theorem whereConnector64_vals {V : Type} [Inhabited V] (conds : List (Comparable V))
    (c c' : Int) : (whereConnector64 c conds).2.1 = (whereConnector c' conds).2.1 := by
  have h := whereConnector_loop64_shape conds c c'
  unfold whereConnector64 whereConnector
  split
  · rfl
  · simp only [h.1]
    split
    · rfl
    · exact h.2

theorem whereConnector_loop64_eq {V : Type} [Inhabited V] :
    ∀ (conds : List (Comparable V)) (c : Int), minInt ≤ c →
      c + ((whereConnector.loop conds c).2.1.length : Int) ≤ maxInt →
      whereConnector.loop64 conds c = whereConnector.loop conds c
  | [], _, _, _ => rfl
  | cond :: rest, c, hlo, hhi => by
    have hc := Comparable_Build_counter cond c
    simp only [whereConnector.loop] at hhi
    by_cases h0 : (cond.Build c).1.length = 0
    · rw [if_pos h0] at hhi
      have hn := Comparable_Build_no_frag cond c h0
      have hb : cond.Build64 c = cond.Build c := by
        apply Comparable_Build64_eq cond c hlo
        rw [hn]
        simpa using (show c ≤ maxInt by omega)
      rw [hn] at hhi
      have ih := whereConnector_loop64_eq rest c hlo hhi
      simp only [whereConnector.loop64, whereConnector.loop, hb, hn, ih]
    · rw [if_neg h0] at hhi
      simp only [List.length_append, Nat.cast_add] at hhi
      have hb : cond.Build64 c = cond.Build c :=
        Comparable_Build64_eq cond c hlo (by omega)
      have ih := whereConnector_loop64_eq rest (cond.Build c).2.2 (by omega) (by omega)
      simp only [whereConnector.loop64, whereConnector.loop, hb, ih]

/-- `whereConnector` counts in the machine as in the integers while the counter stays in the
range of `int`. -/
theorem whereConnector64_eq {V : Type} [Inhabited V] (conds : List (Comparable V)) (c : Int)
    (hlo : minInt ≤ c) (hhi : c + ((whereConnector64 c conds).2.1.length : Int) ≤ maxInt) :
    whereConnector64 c conds = whereConnector c conds := by
  rw [whereConnector64_vals conds c c] at hhi
  by_cases h0 : conds.length = 0
  · simp only [whereConnector64, whereConnector, if_pos h0]
  · have hl : c + ((whereConnector.loop conds c).2.1.length : Int) ≤ maxInt := by
      by_cases h1 : (whereConnector.loop conds c).1.length = 0
      · rw [whereConnector_loop_no_frag conds c h1]
        simp only [whereConnector, if_neg h0, if_pos h1] at hhi
        exact hhi
      · simp only [whereConnector, if_neg h0, if_neg h1] at hhi
        exact hhi
    simp only [whereConnector64, whereConnector, if_neg h0,
      whereConnector_loop64_eq conds c hlo hl]

/-! ## Reading the placeholders off the text -/

theorem digitChar_isDigit (d : Nat) (h : d < 10) :
    (Nat.digitChar d).isDigit = true ∧ (Nat.digitChar d).toNat - 48 = d := by
  interval_cases d <;> decide

theorem digitsValue_append (pre : List Char) (ch : Char) :
    digitsValue (pre ++ [ch]) = 10 * digitsValue pre + (ch.toNat - 48) := by
  simp [digitsValue, List.foldl_append]

/-- With enough fuel `Nat.toDigitsCore` puts the decimal digits of `n` in front of `ds`. -/
theorem toDigitsCore_spec (fuel : Nat) :
    ∀ (n : Nat) (ds : List Char), n < fuel →
      ∃ pre, Nat.toDigitsCore 10 fuel n ds = pre ++ ds ∧ pre ≠ [] ∧
        (∀ ch ∈ pre, ch.isDigit = true) ∧ digitsValue pre = n := by
  induction fuel with
  | zero => intro n ds h; exact absurd h (Nat.not_lt_zero n)
  | succ f ih =>
    intro n ds hn
    have hd := digitChar_isDigit (n % 10) (Nat.mod_lt _ (by decide))
    simp only [Nat.toDigitsCore]
    split
    · next h0 =>
      refine ⟨[Nat.digitChar (n % 10)], rfl, by simp, ?_, ?_⟩
      · intro ch hch
        rw [List.mem_singleton] at hch
        rw [hch]; exact hd.1
      · have := digitsValue_append [] (Nat.digitChar (n % 10))
        simp only [List.nil_append] at this
        rw [this, hd.2]
        simp only [digitsValue, List.foldl_nil]
        omega
    · next h0 =>
      obtain ⟨pre, hp, _, hall, hv⟩ := ih (n / 10) (Nat.digitChar (n % 10) :: ds) (by omega)
      refine ⟨pre ++ [Nat.digitChar (n % 10)], by rw [hp]; simp, by simp, ?_, ?_⟩
      · intro ch hch
        rw [List.mem_append, List.mem_singleton] at hch
        rcases hch with hch | hch
        · exact hall ch hch
        · rw [hch]; exact hd.1
      · rw [digitsValue_append, hv, hd.2]
        omega

/-- The decimal numeral of a natural number: a non-empty run of digits that denotes it. -/
theorem toDigits_spec (n : Nat) :
    Nat.toDigits 10 n ≠ [] ∧ (∀ ch ∈ Nat.toDigits 10 n, ch.isDigit = true) ∧
      digitsValue (Nat.toDigits 10 n) = n := by
  obtain ⟨pre, hp, hne, hall, hv⟩ := toDigitsCore_spec (n + 1) n [] (Nat.lt_succ_self n)
  have e : Nat.toDigits 10 n = pre := by
    unfold Nat.toDigits
    rw [hp, List.append_nil]
  rw [e]
  exact ⟨hne, hall, hv⟩

theorem takeWhile_append_of {p : Char → Bool} :
    ∀ (pre rest : List Char), (∀ ch ∈ pre, p ch = true) →
      (∀ ch, rest.head? = some ch → p ch = false) → (pre ++ rest).takeWhile p = pre
  | [], [], _, _ => rfl
  | [], r :: rs, _, h => by
    have := h r rfl
    simp [List.takeWhile, this]
  | a :: pre, rest, hall, h => by
    have ha : p a = true := hall a (List.mem_cons_self _ _)
    have ih := takeWhile_append_of pre rest (fun ch hch => hall ch (List.mem_cons_of_mem _ hch)) h
    simp [List.takeWhile, ha, ih]

theorem readDigits_toDigits (n : Nat) (rest : List Char) (h : noDigitHead rest) :
    readDigits (Nat.toDigits 10 n ++ rest) = some n := by
  obtain ⟨hne, hall, hv⟩ := toDigits_spec n
  unfold readDigits
  rw [takeWhile_append_of _ rest hall h, if_neg hne, hv]

theorem toDigits_head (n : Nat) :
    ∃ ch cs, Nat.toDigits 10 n = ch :: cs ∧ ch.isDigit = true := by
  obtain ⟨hne, hall, _⟩ := toDigits_spec n
  cases hd : Nat.toDigits 10 n with
  | nil => exact absurd hd hne
  | cons ch cs => exact ⟨ch, cs, rfl, hall ch (by rw [hd]; exact List.mem_cons_self _ _)⟩

theorem itoa_data_ofNat (k : Nat) : (itoa (Int.ofNat k)).data = Nat.toDigits 10 k := by
  simp [itoa, Nat.repr, List.asString]

theorem itoa_data_negSucc (k : Nat) :
    (itoa (Int.negSucc k)).data = '-' :: Nat.toDigits 10 (k + 1) := by
  simp [itoa, Nat.repr, List.asString]

/-- Reading back the numeral that `itoa` prints gives the number printed. -/
theorem readNumeral_itoa (n : Int) (rest : List Char) (h : noDigitHead rest) :
    readNumeral ((itoa n).data ++ rest) = some n := by
  cases n with
  | ofNat k =>
    rw [itoa_data_ofNat]
    have hr := readDigits_toDigits k rest h
    obtain ⟨ch, cs, hc, hdig⟩ := toDigits_head k
    rw [hc] at hr ⊢
    have hne : ch ≠ '-' := by
      intro e; rw [e] at hdig; exact absurd hdig (by decide)
    simp only [List.cons_append, readNumeral, if_neg hne] at hr ⊢
    rw [hr]
    rfl
  | negSucc k =>
    rw [itoa_data_negSucc]
    have hr := readDigits_toDigits (k + 1) rest h
    simp only [List.cons_append, readNumeral, if_true, hr, Option.map_some']
    rfl

theorem itoa_dollarFree (n : Int) : dollarFree (itoa n) := by
  have hd : ∀ k : Nat, '$' ∉ Nat.toDigits 10 k := by
    intro k hmem
    have := (toDigits_spec k).2.1 '$' hmem
    exact absurd this (by decide)
  unfold dollarFree
  cases n with
  | ofNat k => rw [itoa_data_ofNat]; exact hd k
  | negSucc k =>
    rw [itoa_data_negSucc]
    intro hmem
    rw [List.mem_cons] at hmem
    rcases hmem with h | h
    · exact absurd h (by decide)
    · exact hd _ h

theorem placeholderNumbers_append_of_dollarFree :
    ∀ (pre rest : List Char), '$' ∉ pre →
      placeholderNumbers (pre ++ rest) = placeholderNumbers rest
  | [], _, _ => rfl
  | ch :: pre, rest, h => by
    have hne : ch ≠ '$' := fun e => h (by rw [e]; exact List.mem_cons_self _ _)
    have ih := placeholderNumbers_append_of_dollarFree pre rest
      (fun hm => h (List.mem_cons_of_mem _ hm))
    simp only [List.cons_append, placeholderNumbers, if_neg hne]
    exact ih

/-- A placeholder in front of a text that does not begin with a digit is read as its number. -/
theorem placeholderNumbers_holder (n : Int) (rest : List Char) (h : noDigitHead rest) :
    placeholderNumbers (("$" ++ itoa n).data ++ rest) = n :: placeholderNumbers rest := by
  have e : ("$" ++ itoa n).data ++ rest = '$' :: ((itoa n).data ++ rest) := by
    simp [String.data_append]
  rw [e]
  simp only [placeholderNumbers, if_true, readNumeral_itoa n rest h]
  exact congrArg _ (placeholderNumbers_append_of_dollarFree _ rest (itoa_dollarFree n))

theorem noDigitHead_of_safeHead {cs : List Char} (h : safeHead cs) : noDigitHead cs :=
  fun ch hch => (h ch hch).1

theorem safeHead_nil : safeHead [] := by
  intro ch h
  simp at h

theorem safeHead_append_left (a b : List Char) (ch : Char) (h : a.head? = some ch)
    (hd : ch.isDigit = false ∧ ch ≠ '-') : safeHead (a ++ b) := by
  cases a with
  | nil => simp at h
  | cons x xs =>
    intro y hy
    simp only [List.cons_append, List.head?_cons, Option.some.injEq] at h hy
    rw [← hy, h]
    exact hd

theorem safeHead_append (a b : List Char) (ha : safeHead a) (hb : safeHead b) :
    safeHead (a ++ b) := by
  cases a with
  | nil => exact hb
  | cons x xs =>
    intro y hy
    exact ha y (by simpa using hy)

theorem takeWhile_append_nil {p : Char → Bool} (cs rest : List Char)
    (h : cs.takeWhile p = []) (hr : ∀ ch, rest.head? = some ch → p ch = false) :
    (cs ++ rest).takeWhile p = [] := by
  cases cs with
  | nil =>
    cases rest with
    | nil => rfl
    | cons r rs => simp [List.takeWhile, hr r rfl]
  | cons c cs' =>
    by_cases hc : p c = true
    · simp [List.takeWhile, hc] at h
    · have hc' : p c = false := by simpa using hc
      simp [List.takeWhile, hc']

theorem readDigits_eq_none {cs : List Char} :
    readDigits cs = none ↔ cs.takeWhile Char.isDigit = [] := by
  unfold readDigits
  split <;> simp_all

/-- A text with no numeral at its head has none when a text follows that begins neither with
a digit nor with `-`. -/
theorem readNumeral_append_none (cs rest : List Char) (h : readNumeral cs = none)
    (hr : safeHead rest) : readNumeral (cs ++ rest) = none := by
  have hrd : ∀ ch, rest.head? = some ch → Char.isDigit ch = false := fun ch hch => (hr ch hch).1
  cases cs with
  | nil =>
    cases rest with
    | nil => rfl
    | cons r rs =>
      have h1 := hr r rfl
      simp only [List.nil_append, readNumeral, if_neg h1.2, Option.map_eq_none',
        readDigits_eq_none]
      simp [List.takeWhile, h1.1]
  | cons c cs' =>
    simp only [readNumeral] at h
    simp only [List.cons_append, readNumeral]
    split
    · next hc =>
      rw [if_pos hc, Option.map_eq_none', readDigits_eq_none] at h
      rw [Option.map_eq_none', readDigits_eq_none]
      exact takeWhile_append_nil cs' rest h hrd
    · next hc =>
      rw [if_neg hc, Option.map_eq_none', readDigits_eq_none] at h
      rw [Option.map_eq_none', readDigits_eq_none]
      exact takeWhile_append_nil (c :: cs') rest h hrd

/-- A text that holds no placeholder adds none to a text that begins neither with a digit nor
with `-`. -/
theorem placeholderNumbers_append_of_free :
    ∀ (cs rest : List Char), placeholderNumbers cs = [] → safeHead rest →
      placeholderNumbers (cs ++ rest) = placeholderNumbers rest
  | [], _, _, _ => rfl
  | ch :: cs, rest, h, hr => by
    by_cases hc : ch = '$'
    · simp only [placeholderNumbers, if_pos hc] at h
      cases hn : readNumeral cs with
      | some n => rw [hn] at h; simp at h
      | none =>
        rw [hn] at h
        have ih := placeholderNumbers_append_of_free cs rest h hr
        have hn' : readNumeral (cs.append rest) = none := readNumeral_append_none cs rest hn hr
        simp only [List.cons_append, placeholderNumbers, if_pos hc, hn']
        exact ih
    · simp only [placeholderNumbers, if_neg hc] at h
      have ih := placeholderNumbers_append_of_free cs rest h hr
      simp only [List.cons_append, placeholderNumbers, if_neg hc]
      exact ih

theorem Sealed_of_dollarFree {s : String} (h : dollarFree s) : Sealed s.data :=
  fun rest => placeholderNumbers_append_of_dollarFree s.data rest h

theorem placeholderFree_of_dollarFree {s : String} (h : dollarFree s) : placeholderFree s := by
  have := placeholderNumbers_append_of_dollarFree s.data [] h
  simpa [placeholderFree, placeholderNumbers] using this

theorem Sealed_append {a b : String} (ha : Sealed a.data) (hb : Sealed b.data) :
    Sealed (a ++ b).data := by
  intro rest
  rw [String.data_append, List.append_assoc, ha, hb]

/-- A name that holds no placeholder, followed by a literal text without `$` that begins neither
with a digit nor with `-`. -/
theorem Sealed_name_literal {s lit : String} (ch : Char) (hs : placeholderFree s)
    (hl : dollarFree lit) (h : lit.data.head? = some ch)
    (hd : ch.isDigit = false ∧ ch ≠ '-') : Sealed (s ++ lit).data := by
  intro rest
  rw [String.data_append, List.append_assoc,
    placeholderNumbers_append_of_free s.data _ hs (safeHead_append_left _ _ ch h hd)]
  exact placeholderNumbers_append_of_dollarFree _ _ hl

/-- A text that adds no placeholder to what follows, followed by a name that holds none. -/
theorem placeholderFree_append {a b : String} (ha : Sealed a.data) (hb : placeholderFree b) :
    placeholderFree (a ++ b) := by
  unfold placeholderFree
  rw [String.data_append, ha]
  exact hb

/-- The placeholders read off the text of a readable list of pieces are its placeholders. -/
theorem placeholderNumbers_render {V : Type} :
    ∀ (ps : List (Piece V)), Readable ps →
      placeholderNumbers (renderPieces ps).data = (holders ps).map Prod.fst
  | [], _ => rfl
  | Piece.text s :: ps, h => by
    have ih := placeholderNumbers_render ps h.2
    simp only [renderPieces, Piece.render, String.data_append, holders]
    rcases h.1 with hs | ⟨hf, hh⟩
    · rw [hs, ih]
    · rw [placeholderNumbers_append_of_free _ _ hf hh, ih]
  | Piece.holder n v :: ps, h => by
    have ih := placeholderNumbers_render ps h.2
    simp only [renderPieces, Piece.render, holders, List.map_cons]
    rw [String.data_append, placeholderNumbers_holder n _ h.1, ih]

theorem numbered_map_fst {V : Type} (c : Int) (vals : List V) :
    (numbered c vals).map Prod.fst = seqFrom c vals.length := by
  unfold numbered seqFrom
  rw [List.map_fst_zip]
  simp

theorem dollarFree_append {a b : String} (ha : dollarFree a) (hb : dollarFree b) :
    dollarFree (a ++ b) := by
  unfold dollarFree at *
  rw [String.data_append, List.mem_append]
  exact fun h => h.elim ha hb

theorem noDigitHead_nil : noDigitHead [] := by
  intro ch h
  simp at h

theorem noDigitHead_append (a b : List Char) (ha : noDigitHead a) (hb : noDigitHead b) :
    noDigitHead (a ++ b) := by
  cases a with
  | nil => exact hb
  | cons x xs =>
    intro y hy
    exact ha y (by simpa using hy)

/-- A list of pieces that opens with a literal text whose first character is neither a digit
nor `-`. -/
theorem safeHead_text {V : Type} (s : String) (ps : List (Piece V)) (ch : Char)
    (h : s.data.head? = some ch) (hd : ch.isDigit = false ∧ ch ≠ '-') :
    safeHead (renderPieces (Piece.text s :: ps)).data := by
  simp only [renderPieces, Piece.render, String.data_append]
  exact safeHead_append_left _ _ ch h hd

theorem head_append_left (a b : String) (ch : Char) (h : a.data.head? = some ch) :
    (a ++ b).data.head? = some ch := by
  rw [String.data_append]
  cases hd : a.data with
  | nil => rw [hd] at h; simp at h
  | cons x xs => rw [hd] at h; simpa using h

theorem Readable_nil {V : Type} : Readable ([] : List (Piece V)) := trivial

theorem Readable_single {V : Type} (s : String) (hs : placeholderFree s) :
    Readable ([Piece.text s] : List (Piece V)) :=
  ⟨Or.inr ⟨hs, safeHead_nil⟩, trivial⟩

theorem Readable_append {V : Type} :
    ∀ (a b : List (Piece V)), Readable a → Readable b → safeHead (renderPieces b).data →
      Readable (a ++ b)
  | [], _, _, hb, _ => hb
  | Piece.text s :: ps, b, ha, hb, hn => by
    refine ⟨?_, Readable_append ps b ha.2 hb hn⟩
    rcases ha.1 with hs | ⟨hf, hh⟩
    · exact Or.inl hs
    · refine Or.inr ⟨hf, ?_⟩
      show safeHead (renderPieces (ps ++ b)).data
      rw [renderPieces_append, String.data_append]
      exact safeHead_append _ _ hh hn
  | Piece.holder n v :: ps, b, ha, hb, hn => by
    refine ⟨?_, Readable_append ps b ha.2 hb hn⟩
    show noDigitHead (renderPieces (ps ++ b)).data
    rw [renderPieces_append, String.data_append]
    exact noDigitHead_append _ _ ha.1 (noDigitHead_of_safeHead hn)

/-- Readable pieces followed by a literal text that adds no placeholder to what follows it and
opens with a character that is neither a digit nor `-`. -/
theorem Readable_append_sealed {V : Type} (a b : List (Piece V)) (s : String) (ch : Char)
    (ha : Readable a) (hs : Sealed s.data) (h : s.data.head? = some ch)
    (hd : ch.isDigit = false ∧ ch ≠ '-') (hb : Readable b) :
    Readable (a ++ Piece.text s :: b) :=
  Readable_append a _ ha ⟨Or.inl hs, hb⟩ (safeHead_text s b ch h hd)

/-- Readable pieces followed by a last literal text that holds no placeholder and opens with
a character that is neither a digit nor `-`. -/
theorem Readable_append_free {V : Type} (a : List (Piece V)) (s : String) (ch : Char)
    (ha : Readable a) (hs : placeholderFree s) (h : s.data.head? = some ch)
    (hd : ch.isDigit = false ∧ ch ≠ '-') : Readable (a ++ [Piece.text s]) :=
  Readable_append a _ ha (Readable_single s hs) (safeHead_text s [] ch h hd)

theorem Sealed_literal_name_literal {a t l : String} (ch : Char) (ha : dollarFree a)
    (ht : placeholderFree t) (hl : dollarFree l) (h : l.data.head? = some ch)
    (hd : ch.isDigit = false ∧ ch ≠ '-') : Sealed (a ++ t ++ l).data := by
  rw [String.append_assoc]
  exact Sealed_append (Sealed_of_dollarFree ha) (Sealed_name_literal ch ht hl h hd)

theorem placeholderFree_Join :
    ∀ (l : List String), (∀ s ∈ l, placeholderFree s) → placeholderFree (strings.Join l ",")
  | [], _ => by
    show placeholderFree ""
    decide
  | [a], h => h a (List.mem_cons_self _ _)
  | a :: b :: rest, h => by
    have ih := placeholderFree_Join (b :: rest) (fun s hs => h s (List.mem_cons_of_mem _ hs))
    exact placeholderFree_append
      (Sealed_name_literal ',' (h a (List.mem_cons_self _ _)) (by decide) (by decide)
        (by decide)) ih

theorem Sealed_Join (sep : String) (hsep : Sealed sep.data) :
    ∀ (l : List String), (∀ s ∈ l, Sealed s.data) → Sealed (strings.Join l sep).data
  | [], _ => by
    show Sealed ("" : String).data
    exact Sealed_of_dollarFree (by decide)
  | [a], h => h a (List.mem_cons_self _ _)
  | a :: b :: rest, h => by
    have ih := Sealed_Join sep hsep (b :: rest) (fun s hs => h s (List.mem_cons_of_mem _ hs))
    exact Sealed_append (Sealed_append (h a (List.mem_cons_self _ _)) hsep) ih

theorem joinPieces_readable {V : Type} (sep : String) (ch : Char) (hsep : dollarFree sep)
    (h : sep.data.head? = some ch) (hd : ch.isDigit = false ∧ ch ≠ '-') :
    ∀ (l : List (List (Piece V))), (∀ f ∈ l, Readable f) → Readable (joinPieces l sep)
  | [], _ => trivial
  | [a], hl => hl a (List.mem_cons_self _ _)
  | a :: b :: rest, hl => by
    have ih := joinPieces_readable sep ch hsep h hd (b :: rest)
      (fun f hf => hl f (List.mem_cons_of_mem _ hf))
    exact Readable_append_sealed a _ sep ch (hl a (List.mem_cons_self _ _))
      (Sealed_of_dollarFree hsep) h hd ih

theorem build_loopT_readable {V : Type} [Inhabited V] (m : GoMap V) (op : String) (ch : Char)
    (hop : dollarFree op) (hh : op.data.head? = some ch)
    (hd : ch.isDigit = false ∧ ch ≠ '-') :
    ∀ (ks : List String) (c : Int), (∀ k ∈ ks, placeholderFree k) →
      ∀ f ∈ build.loopT m op ks c, Readable f
  | [], _, _, f, hf => by simp [build.loopT] at hf
  | k :: rest, c, hk, f, hf => by
    simp only [build.loopT, List.mem_cons] at hf
    rcases hf with hf | hf
    · rw [hf]
      exact ⟨Or.inl (Sealed_name_literal ch (hk k (List.mem_cons_self _ _)) hop hh hd),
        noDigitHead_nil, trivial⟩
    · exact build_loopT_readable m op ch hop hh hd rest (c + 1)
        (fun x hx => hk x (List.mem_cons_of_mem _ hx)) f hf

theorem mem_defaultSortAlgorithm {xs : List String} {k : String}
    (h : k ∈ defaultSortAlgorithm xs) : k ∈ xs :=
  (defaultSortAlgorithm_perm xs).mem_iff.mp h

theorem buildT_readable {V : Type} [Inhabited V] (m : GoMap V) (op : String) (c : Int)
    (ch : Char) (hop : dollarFree op) (hh : op.data.head? = some ch)
    (hd : ch.isDigit = false ∧ ch ≠ '-') (hk : ∀ k ∈ m.keys, placeholderFree k) :
    ∀ f ∈ buildT m op c, Readable f := by
  unfold buildT
  split
  · intro f hf; simp at hf
  · exact build_loopT_readable m op ch hop hh hd _ c
      (fun k hk' => hk k (mem_defaultSortAlgorithm hk'))

theorem buildIn_loopT_readable {V : Type} :
    ∀ (vals : List V) (c : Int), Readable (buildIn.loopT vals c)
  | [], _ => trivial
  | _ :: [], c => by
    refine ⟨?_, Or.inl ?_, trivial⟩
    · exact noDigitHead_nil
    · show Sealed ("" : String).data
      exact Sealed_of_dollarFree (by decide)
  | _ :: w :: rest, c => by
    have ih := buildIn_loopT_readable (w :: rest) (c + 1)
    have e : (if (w :: rest).length = 0 then "" else ",") = "," := by simp
    refine ⟨?_, Or.inl ?_, ih⟩
    · rw [e]
      exact noDigitHead_of_safeHead (safeHead_text _ _ ',' (by decide) (by decide))
    · rw [e]
      exact Sealed_of_dollarFree (by decide)

theorem buildInT_readable {V : Type} (field : String) (vals : List V) (c : Int)
    (hf : placeholderFree field) : Readable (buildInT field vals c) := by
  refine ⟨Or.inl (Sealed_name_literal ' ' hf (by decide) (by decide) (by decide)), ?_⟩
  exact Readable_append_sealed _ [] ")" ')' (buildIn_loopT_readable vals c)
    (Sealed_of_dollarFree (by decide)) (by decide) (by decide) trivial

theorem In_loopT_readable {V : Type} (m : GoMap (List V)) :
    ∀ (ks : List String) (c : Int), (∀ k ∈ ks, placeholderFree k) →
      ∀ f ∈ In.loopT m ks c, Readable f
  | [], _, _, f, hf => by simp [In.loopT] at hf
  | k :: rest, c, hk, f, hf => by
    simp only [In.loopT, List.mem_cons] at hf
    rcases hf with hf | hf
    · rw [hf]
      exact buildInT_readable k _ c (hk k (List.mem_cons_self _ _))
    · exact In_loopT_readable m rest _ (fun x hx => hk x (List.mem_cons_of_mem _ hx)) f hf

theorem In_BuildT_readable {V : Type} (m : GoMap (List V)) (c : Int)
    (hk : ∀ k ∈ m.keys, placeholderFree k) : ∀ f ∈ In.BuildT m c, Readable f := by
  unfold In.BuildT
  split
  · intro f hf; simp at hf
  · exact In_loopT_readable m _ c (fun k hk' => hk k (mem_defaultSortAlgorithm hk'))

theorem Comparable_BuildT_readable {V : Type} [Inhabited V] (cond : Comparable V) (c : Int)
    (hk : ∀ k ∈ cond.fields, placeholderFree k) : ∀ f ∈ cond.BuildT c, Readable f := by
  cases cond with
  | nilComparable => intro f hf; simp [Comparable.BuildT] at hf
  | In m => exact In_BuildT_readable m c hk
  | Like m => exact buildT_readable m _ c ' ' (by decide) (by decide) (by decide) hk
  | Eq m => exact buildT_readable m _ c '=' (by decide) (by decide) (by decide) hk
  | Ne m => exact buildT_readable m _ c '!' (by decide) (by decide) (by decide) hk
  | Lt m => exact buildT_readable m _ c '<' (by decide) (by decide) (by decide) hk
  | Lte m => exact buildT_readable m _ c '<' (by decide) (by decide) (by decide) hk
  | Gt m => exact buildT_readable m _ c '>' (by decide) (by decide) (by decide) hk
  | Gte m => exact buildT_readable m _ c '>' (by decide) (by decide) (by decide) hk

theorem whereConnector_loopT_readable {V : Type} [Inhabited V] :
    ∀ (conds : List (Comparable V)) (c : Int),
      (∀ cond ∈ conds, ∀ k ∈ cond.fields, placeholderFree k) →
      ∀ f ∈ whereConnector.loopT conds c, Readable f
  | [], _, _, f, hf => by simp [whereConnector.loopT] at hf
  | cond :: rest, c, hk, f, hf => by
    have ih := whereConnector_loopT_readable rest (cond.Build c).2.2
      (fun x hx => hk x (List.mem_cons_of_mem _ hx))
    have hb := Comparable_BuildT_readable cond c (hk cond (List.mem_cons_self _ _))
    simp only [whereConnector.loopT] at hf
    split at hf
    · exact ih f hf
    · rcases List.mem_append.mp hf with h | h
      · exact hb f h
      · exact ih f h

/-- The text of `whereConnector` is readable when no key holds a placeholder. -/
theorem whereConnectorT_readable {V : Type} [Inhabited V] (conds : List (Comparable V))
    (c : Int) (hk : ∀ cond ∈ conds, ∀ k ∈ cond.fields, placeholderFree k) :
    Readable (whereConnectorT c conds) := by
  unfold whereConnectorT
  split
  · trivial
  · simp only []
    split
    · trivial
    · refine ⟨Or.inl (Sealed_of_dollarFree (by decide)), ?_⟩
      exact Readable_append_sealed _ [] ")" ')'
        (joinPieces_readable " AND " ' ' (by decide) (by decide) (by decide) _
          (whereConnector_loopT_readable conds c hk))
        (Sealed_of_dollarFree (by decide)) (by decide) (by decide) trivial

theorem setsT_readable {V : Type} [Inhabited V] (update : GoMap V) :
    ∀ (ks : List String) (c : Int), (∀ k ∈ ks, placeholderFree k) →
      Readable (buildUpdate.setsT update ks c)
  | [], _, _ => trivial
  | [k], c, hk =>
    ⟨Or.inl (Sealed_name_literal '=' (hk k (List.mem_cons_self _ _)) (by decide) (by decide)
      (by decide)), noDigitHead_nil, trivial⟩
  | k :: k' :: rest, c, hk => by
    have ih := setsT_readable update (k' :: rest) (c + 1)
      (fun x hx => hk x (List.mem_cons_of_mem _ hx))
    exact ⟨Or.inl (Sealed_name_literal '=' (hk k (List.mem_cons_self _ _)) (by decide)
        (by decide) (by decide)),
      noDigitHead_of_safeHead (safeHead_text _ _ ',' (by decide) (by decide)),
      Or.inl (Sealed_of_dollarFree (by decide)), ih⟩

theorem buildUpdateT_readable {V : Type} [Inhabited V] (table : String) (update : GoMap V)
    (conds : List (Comparable V)) (ht : placeholderFree table)
    (hu : ∀ k ∈ update.keys, placeholderFree k)
    (hk : ∀ cond ∈ conds, ∀ k ∈ cond.fields, placeholderFree k) :
    Readable (buildUpdateT table update conds) := by
  unfold buildUpdateT
  simp only []
  have hs := setsT_readable update (resolveKV update).1 0
    (fun k hk' => hu k (mem_defaultSortAlgorithm hk'))
  refine ⟨Or.inl (Sealed_literal_name_literal ' ' (by decide) ht (by decide) (by decide)
    (by decide)), ?_⟩
  split
  · exact Readable_append_sealed _ _ " WHERE " ' ' hs (Sealed_of_dollarFree (by decide))
      (by decide) (by decide) (whereConnectorT_readable conds _ hk)
  · rw [List.append_nil]; exact hs

theorem buildDeleteT_readable {V : Type} [Inhabited V] (table : String)
    (conds : List (Comparable V)) (ht : placeholderFree table)
    (hk : ∀ cond ∈ conds, ∀ k ∈ cond.fields, placeholderFree k) :
    Readable (buildDeleteT table conds) := by
  unfold buildDeleteT
  simp only []
  split
  · exact Readable_single _ (placeholderFree_append (Sealed_of_dollarFree (by decide)) ht)
  · exact ⟨Or.inl (Sealed_literal_name_literal ' ' (by decide) ht (by decide) (by decide)
      (by decide)), whereConnectorT_readable conds 0 hk⟩

theorem ToUpper_dollarFree_of_valid (o : eleOrderBy) (h : validOrder o) :
    dollarFree (strings.ToUpper o.order) := by
  rcases h with h | h <;> rw [h] <;> decide

/-- The text of `orderBy` adds no placeholder to what follows it when no field holds one. -/
theorem orderBy_sealed (l : List eleOrderBy) (h : ∀ o ∈ l, placeholderFree o.field) :
    Sealed (orderBy l).1.data := by
  by_cases hv : ∀ o ∈ l, validOrder o
  · rw [orderBy_valid l hv]
    apply Sealed_Join "," (Sealed_of_dollarFree (by decide))
    intro s hs
    obtain ⟨o, ho, rfl⟩ := List.mem_map.mp hs
    exact Sealed_append
      (Sealed_name_literal ' ' (h o ho) (by decide) (by decide) (by decide))
      (Sealed_of_dollarFree (ToUpper_dollarFree_of_valid o (hv o ho)))
  · have hex : ∃ o ∈ l, ¬validOrder o := by
      by_contra hne
      exact hv (fun o ho => Classical.not_not.mp (fun hn => hne ⟨o, ho, hn⟩))
    rw [orderBy_invalid l hex]
    exact Sealed_of_dollarFree (by decide)

theorem splitCondition_mem {V : Type} (conds : List (Comparable V)) :
    (∀ cond ∈ (splitCondition conds).1, cond ∈ conds) ∧
    (∀ having, (splitCondition conds).2 = some having → ∀ cond ∈ having, cond ∈ conds) := by
  unfold splitCondition
  simp only []
  split
  · exact ⟨fun cond h => List.mem_of_mem_take h,
      fun having hh cond h => by
        simp only [Option.some.injEq] at hh
        rw [← hh] at h
        exact List.mem_of_mem_drop h⟩
  · exact ⟨fun cond h => h, fun having hh => by simp at hh⟩

theorem limit_sealed (l : eleLimit) :
    Sealed (" LIMIT " ++ itoa l.begin ++ " OFFSET " ++ itoa l.step).data :=
  Sealed_of_dollarFree (dollarFree_append (dollarFree_append (dollarFree_append (by decide)
    (itoa_dollarFree _)) (by decide)) (itoa_dollarFree _))

theorem limit_head (l : eleLimit) :
    (" LIMIT " ++ itoa l.begin ++ " OFFSET " ++ itoa l.step).data.head? = some ' ' :=
  head_append_left _ _ _ (head_append_left _ _ _ (head_append_left _ _ _ (by decide)))

theorem Readable_append_limit {V : Type} (a : List (Piece V)) (l : eleLimit)
    (ha : Readable a) :
    Readable (a ++ [Piece.text (" LIMIT " ++ itoa l.begin ++ " OFFSET " ++ itoa l.step)]) :=
  Readable_append_sealed a [] _ ' ' ha (limit_sealed l) (limit_head l) (by decide) trivial

theorem buildSelectT_readable {V : Type} [Inhabited V] (table : String) (ufields : List String)
    (groupBy : String) (uOrderBy : List eleOrderBy) (limit : Option eleLimit)
    (conds : List (Comparable V)) (ht : placeholderFree table)
    (hf : ∀ f ∈ ufields, placeholderFree f) (hg : placeholderFree groupBy)
    (ho : ∀ o ∈ uOrderBy, placeholderFree o.field)
    (hk : ∀ cond ∈ conds, ∀ k ∈ cond.fields, placeholderFree k) :
    Readable (buildSelectT table ufields groupBy uOrderBy limit conds) := by
  have hfields : placeholderFree
      (if ufields.length > 0 then strings.Join (ufields.map quoteField) "," else "*") := by
    split
    · apply placeholderFree_Join
      intro s hs
      obtain ⟨f, hfm, rfl⟩ := List.mem_map.mp hs
      exact hf f hfm
    · decide
  have hO : Sealed (" ORDER BY " ++ (orderBy uOrderBy).1).data :=
    Sealed_append (Sealed_of_dollarFree (by decide)) (orderBy_sealed uOrderBy ho)
  have hOh : (" ORDER BY " ++ (orderBy uOrderBy).1).data.head? = some ' ' :=
    head_append_left _ _ _ (by decide)
  have hG : placeholderFree (" GROUP BY " ++ groupBy) :=
    placeholderFree_append (Sealed_of_dollarFree (by decide)) hg
  have hGh : (" GROUP BY " ++ groupBy).data.head? = some ' ' :=
    head_append_left _ _ _ (by decide)
  have hW : Sealed (" WHERE " : String).data := Sealed_of_dollarFree (by decide)
  have hH : Sealed (" HAVING " : String).data := Sealed_of_dollarFree (by decide)
  have hsp := splitCondition_mem conds
  have hw : ∀ cond ∈ (splitCondition conds).1, ∀ k ∈ cond.fields, placeholderFree k :=
    fun cond hc => hk cond (hsp.1 cond hc)
  have hh : ∀ having, (splitCondition conds).2 = some having →
      ∀ cond ∈ having, ∀ k ∈ cond.fields, placeholderFree k :=
    fun having e cond hc => hk cond (hsp.2 having e cond hc)
  clear hsp
  unfold buildSelectT
  simp only [quoteField]
  generalize (if ufields.length > 0 then strings.Join (ufields.map quoteField) "," else "*")
    = fields at hfields ⊢
  have hP : placeholderFree ("SELECT " ++ fields ++ " FROM " ++ table) :=
    placeholderFree_append (Sealed_literal_name_literal ' ' (by decide) hfields (by decide)
      (by decide) (by decide)) ht
  generalize splitCondition conds = sp at hw hh ⊢
  generalize orderBy uOrderBy = ob at hO hOh ⊢
  obtain ⟨w, hv⟩ := sp
  obtain ⟨str, err⟩ := ob
  simp only [] at hw hh hO hOh
  cases hv with
  | none =>
    cases limit <;> cases err <;> simp only [] <;> split_ifs <;>
    (repeat' first
      | with_reducible exact Readable_nil
      | with_reducible exact Readable_single _ hP
      | with_reducible refine Readable_append_free _ _ ' ' ?_ hG hGh (by decide)
      | with_reducible refine Readable_append_sealed _ _ _ ' ' ?_ hW (by decide) (by decide) ?_
      | with_reducible refine Readable_append_sealed _ _ _ ' ' ?_ hO hOh (by decide) ?_
      | with_reducible refine Readable_append_limit _ _ ?_
      | with_reducible exact whereConnectorT_readable _ _ hw)
  | some having =>
    have hh' := hh having rfl
    cases limit <;> cases err <;> simp only [] <;> split_ifs <;>
    (repeat' first
      | with_reducible exact Readable_nil
      | with_reducible exact Readable_single _ hP
      | with_reducible refine Readable_append_free _ _ ' ' ?_ hG hGh (by decide)
      | with_reducible refine Readable_append_sealed _ _ _ ' ' ?_ hW (by decide) (by decide) ?_
      | with_reducible refine Readable_append_sealed _ _ _ ' ' ?_ hH (by decide) (by decide) ?_
      | with_reducible refine Readable_append_sealed _ _ _ ' ' ?_ hO hOh (by decide) ?_
      | with_reducible refine Readable_append_limit _ _ ?_
      | with_reducible exact whereConnectorT_readable _ _ hw
      | with_reducible exact whereConnectorT_readable _ _ hh')

/-! ## `Build` from every counter of the machine -/

/-- C1 fails as stated: from the largest `int` the counter wraps around, so `Eq.Build` on a map
with the one key `foo` returns the fragment `foo=$-9223372036854775808` and leaves the counter
at the smallest `int`, not at `c + 1`. -/
theorem Eq_Build64_overflow :
    Eq.Build64 [("foo", 7)] maxInt = (["foo=$-9223372036854775808"], [7], minInt) ∧
    ¬ ScalarResult [("foo", 7)] "=" maxInt (Eq.Build64 [("foo", 7)] maxInt) := by
  refine ⟨by decide, ?_⟩
  rintro ⟨_, _, _, _, _, _, hc⟩
  exact absurd hc (by decide)

/-- C1, amended: for each scalar operator (`Eq` with `=`, `Ne` with `!=`, `Lt` with `<`, `Lte`
with `<=`, `Gt` with `>`, `Gte` with `>=`), every map `m` with `n` distinct keys and every
counter `c` of type `int` with `c + n` not above the largest `int`, `Build` returns `n`
fragments and `n` values; with the keys in strictly ascending order, the `i`-th fragment is the
key, the operator, `$` and the decimal numeral of `c + i`, the `i`-th value is the value of
that key, and the counter is left at `c + n`. -/
theorem scalar_Build64_sorted {V : Type} [Inhabited V] (m : GoMap V) (c : Int)
    (hm : m.NodupKeys) (hlo : minInt ≤ c) (hhi : c + m.length ≤ maxInt) :
    ScalarResult m "=" c (Eq.Build64 m c) ∧ ScalarResult m "!=" c (Ne.Build64 m c) ∧
    ScalarResult m "<" c (Lt.Build64 m c) ∧ ScalarResult m "<=" c (Lte.Build64 m c) ∧
    ScalarResult m ">" c (Gt.Build64 m c) ∧ ScalarResult m ">=" c (Gte.Build64 m c) := by
  have h : ∀ op : String, ScalarResult m op c (build64 m op c) := by
    intro op
    rw [build64_eq m op c hlo hhi]
    exact build_scalarResult m op c hm
  exact ⟨h "=", h "!=", h "<", h "<=", h ">", h ">="⟩

theorem scalar_Build64_sorted_witness :
    (GoMap.NodupKeys [("foo", 7), ("baz", 1), ("qq", 9)] ∧ minInt ≤ maxInt - 3 ∧
      maxInt - 3 + (([("foo", 7), ("baz", 1), ("qq", 9)] : GoMap Nat).length : Int) ≤ maxInt) ∧
    ScalarResult [("foo", 7), ("baz", 1), ("qq", 9)] "=" (maxInt - 3)
      (Eq.Build64 [("foo", 7), ("baz", 1), ("qq", 9)] (maxInt - 3)) :=
  ⟨by decide,
   (scalar_Build64_sorted [("foo", 7), ("baz", 1), ("qq", 9)] (maxInt - 3) (by decide)
     (by decide) (by decide)).1⟩

/-- C3 fails as stated: from the largest `int` the counter wraps around, so `Like.Build` on a
map with the one key `foo` returns the fragment `foo LIKE $-9223372036854775808` and leaves the
counter at the smallest `int`, not at `c + 1`. -/
theorem Like_Build64_overflow :
    Like.Build64 [("foo", 7)] maxInt = (["foo LIKE $-9223372036854775808"], [7], minInt) ∧
    ¬ ScalarResult [("foo", 7)] " LIKE " maxInt (Like.Build64 [("foo", 7)] maxInt) := by
  refine ⟨by decide, ?_⟩
  rintro ⟨_, _, _, _, _, _, hc⟩
  exact absurd hc (by decide)

/-- C3, amended: for every `Like` map `m` with `n` distinct keys and every counter `c` of type
`int` with `c + n` not above the largest `int`, `Like.Build` returns `n` fragments and `n`
values; with the keys in strictly ascending order the `i`-th fragment is the key followed by
` LIKE $` and the decimal numeral of `c + i`, the `i`-th value is the value of that key, and
the counter is left at `c + n`. -/
theorem Like_Build64_sorted {V : Type} [Inhabited V] (m : GoMap V) (c : Int)
    (hm : m.NodupKeys) (hlo : minInt ≤ c) (hhi : c + m.length ≤ maxInt) :
    ScalarResult m " LIKE " c (Like.Build64 m c) := by
  rw [Like_Build64_eq_build64, build64_eq m _ c hlo hhi]
  exact build_scalarResult m " LIKE " c hm

theorem Like_Build64_sorted_witness :
    (GoMap.NodupKeys [("name", 3), ("city", 4)] ∧ minInt ≤ minInt ∧
      minInt + (([("name", 3), ("city", 4)] : GoMap Nat).length : Int) ≤ maxInt) ∧
    ScalarResult [("name", 3), ("city", 4)] " LIKE " minInt
      (Like.Build64 [("name", 3), ("city", 4)] minInt) :=
  ⟨by decide,
   Like_Build64_sorted [("name", 3), ("city", 4)] minInt (by decide) (by decide) (by decide)⟩

/-- C2 fails as stated: from the counter one below the largest `int` the second placeholder of
a sequence of two wraps around, so `In.Build` returns `foo IN
($9223372036854775807,$-9223372036854775808)` and leaves the counter at the smallest `int`,
not at `c + 2`. -/
theorem In_Build64_overflow :
    In.Build64 [("foo", [7, 8])] (maxInt - 1)
      = (["foo IN ($9223372036854775807,$-9223372036854775808)"], [7, 8], minInt) ∧
    ¬ InResult [("foo", [7, 8])] (maxInt - 1) (In.Build64 [("foo", [7, 8])] (maxInt - 1)) := by
  refine ⟨by decide, ?_⟩
  rintro ⟨_, _, _, _, _, _, hc⟩
  exact absurd hc (by decide)

/-- C2, amended: for every `In` map with distinct fields and every counter `c` of type `int`
such that `c` plus the number of values is not above the largest `int`, `In.Build` returns one
fragment per field, the fields in ascending order; the fragment of a field bound to a sequence
of length `n` is the field followed by ` IN ($p+1,...,$p+n)`, where `p` is `c` plus the lengths
of the sequences of the earlier fields (also for `n = 0` and `n = 1`); the values are the
sequences concatenated in that field order, each in its own order; and the counter is left at
`c` plus the number of values. -/
theorem In_Build64_sorted {V : Type} (m : GoMap (List V)) (c : Int) (hm : m.NodupKeys)
    (hlo : minInt ≤ c) (hhi : c + ((In.Build64 m c).2.1.length : Int) ≤ maxInt) :
    InResult m c (In.Build64 m c) := by
  rw [In_Build64_vals m c c] at hhi
  rw [In_Build64_eq m c hlo hhi]
  exact In_Build_inResult m c hm

theorem In_Build64_sorted_witness :
    (GoMap.NodupKeys [("foo", [10, 11]), ("age", [5, 7, 9, 11]), ("zz", ([] : List Nat))] ∧
      minInt ≤ maxInt - 6 ∧
      maxInt - 6 + (((In.Build64 [("foo", [10, 11]), ("age", [5, 7, 9, 11]),
        ("zz", ([] : List Nat))] (maxInt - 6)).2.1.length : Nat) : Int) ≤ maxInt) ∧
    InResult [("foo", [10, 11]), ("age", [5, 7, 9, 11]), ("zz", ([] : List Nat))] (maxInt - 6)
      (In.Build64 [("foo", [10, 11]), ("age", [5, 7, 9, 11]), ("zz", ([] : List Nat))]
        (maxInt - 6)) :=
  ⟨by decide,
   In_Build64_sorted [("foo", [10, 11]), ("age", [5, 7, 9, 11]), ("zz", ([] : List Nat))]
     (maxInt - 6) (by decide) (by decide) (by decide)⟩

/-! ## The placeholders of the returned text -/

theorem placeholders_of_pieces {V : Type} (ps : List (Piece V)) (text : String)
    (vals : List V) (c : Int) (hr : Readable ps) (ht : renderPieces ps = text)
    (hh : holders ps = numbered c vals) :
    placeholderNumbers text.data = seqFrom c vals.length := by
  rw [← ht, placeholderNumbers_render ps hr, hh, numbered_map_fst]

theorem highest_of_pieces {V : Type} (ps : List (Piece V)) (text : String)
    (vals : List V) (hr : Readable ps) (ht : renderPieces ps = text)
    (hh : holders ps = numbered 0 vals) : highestPlaceholder text = vals.length := by
  unfold highestPlaceholder
  rw [← ht, placeholderNumbers_render ps hr, hh, highestHolder_numbered vals 0, zero_add]

/-- C6 fails as stated.  From the counter one below the largest `int` the second placeholder
wraps around and the counter ends at the smallest `int`, not at `c + 2`.  And a key that holds
the text of a placeholder puts it into the returned text: the text of this DELETE has the
placeholder `$1` twice for its one value. -/
theorem placeholders_misaligned :
    (whereConnector64 (maxInt - 1) [Comparable.Eq [("a", 1), ("b", 2)]]
        = ("(a=$9223372036854775807 AND b=$-9223372036854775808)", [1, 2], minInt) ∧
      (whereConnector64 (maxInt - 1) [Comparable.Eq [("a", 1), ("b", 2)]]).2.2
        ≠ maxInt - 1
          + ((whereConnector64 (maxInt - 1) [Comparable.Eq [("a", 1), ("b", 2)]]).2.1.length
              : Int)) ∧
    (buildDelete "tb" [Comparable.Eq [("a=$1 OR b", 7)]]
        = ("DELETE FROM tb WHERE (a=$1 OR b=$1)", [7], none) ∧
      placeholderNumbers (buildDelete "tb" [Comparable.Eq [("a=$1 OR b", 7)]]).1.data = [1, 1] ∧
      placeholderNumbers (buildDelete "tb" [Comparable.Eq [("a=$1 OR b", 7)]]).1.data
        ≠ seqFrom 0 (buildDelete "tb" [Comparable.Eq [("a=$1 OR b", 7)]]).2.1.length) := by
  decide

/-- C6, amended: placeholder/value alignment when the counter stays in the range of `int` and
no name holds a placeholder, that is a `$` directly followed by a decimal numeral.  For every
list of conditions whose keys hold no placeholder and every counter `c` of type `int` such that
`c` plus the number of values returned is not above the largest `int`, after `whereConnector`
the counter is `c` plus the number of values returned, and the placeholders of the returned
text, read from left to right, are `c + 1, ..., c + len(values)`; the text is that of the pieces
written by the code, where the `k`-th placeholder stands at the place written for the `k`-th
value.  Consequently, when the table, the fields, the group-by text, the order-by fields and the
keys to update hold no placeholder either, the placeholders of the text returned by
`buildSelect`, `buildUpdate` and `buildDelete`, where the counter starts at `0`, are
`1, ..., len(values)`, the `k`-th one for the `k`-th returned value, so that the highest
placeholder number of the text is the number of values returned. -/
theorem placeholders_in_text {V : Type} [Inhabited V] (conds : List (Comparable V)) (c : Int)
    (table : String) (ufields : List String) (groupBy : String) (uOrderBy : List eleOrderBy)
    (limit : Option eleLimit) (update : GoMap V)
    (hlo : minInt ≤ c) (hhi : c + ((whereConnector64 c conds).2.1.length : Int) ≤ maxInt)
    (hk : ∀ cond ∈ conds, ∀ k ∈ cond.fields, placeholderFree k)
    (ht : placeholderFree table) (hf : ∀ f ∈ ufields, placeholderFree f)
    (hg : placeholderFree groupBy)
    (ho : ∀ o ∈ uOrderBy, placeholderFree o.field)
    (hu : ∀ k ∈ update.keys, placeholderFree k) :
    ((whereConnector64 c conds).2.2 = c + (whereConnector64 c conds).2.1.length ∧
      placeholderNumbers (whereConnector64 c conds).1.data
        = seqFrom c (whereConnector64 c conds).2.1.length ∧
      renderPieces (whereConnectorT c conds) = (whereConnector64 c conds).1 ∧
      holders (whereConnectorT c conds) = numbered c (whereConnector64 c conds).2.1) ∧
    (placeholderNumbers (buildSelect table ufields groupBy uOrderBy limit conds).1.data
        = seqFrom 0 (buildSelect table ufields groupBy uOrderBy limit conds).2.1.length ∧
      highestPlaceholder (buildSelect table ufields groupBy uOrderBy limit conds).1
        = (buildSelect table ufields groupBy uOrderBy limit conds).2.1.length ∧
      renderPieces (buildSelectT table ufields groupBy uOrderBy limit conds)
        = (buildSelect table ufields groupBy uOrderBy limit conds).1 ∧
      holders (buildSelectT table ufields groupBy uOrderBy limit conds)
        = numbered 0 (buildSelect table ufields groupBy uOrderBy limit conds).2.1) ∧
    (placeholderNumbers (buildUpdate table update conds).1.data
        = seqFrom 0 (buildUpdate table update conds).2.1.length ∧
      highestPlaceholder (buildUpdate table update conds).1
        = (buildUpdate table update conds).2.1.length ∧
      renderPieces (buildUpdateT table update conds) = (buildUpdate table update conds).1 ∧
      holders (buildUpdateT table update conds)
        = numbered 0 (buildUpdate table update conds).2.1) ∧
    (placeholderNumbers (buildDelete table conds).1.data
        = seqFrom 0 (buildDelete table conds).2.1.length ∧
      highestPlaceholder (buildDelete table conds).1 = (buildDelete table conds).2.1.length ∧
      renderPieces (buildDeleteT table conds) = (buildDelete table conds).1 ∧
      holders (buildDeleteT table conds) = numbered 0 (buildDelete table conds).2.1) := by
  have hw := whereConnectorT_readable conds c hk
  have hs := buildSelectT_readable table ufields groupBy uOrderBy limit conds ht hf hg ho hk
  have hup := buildUpdateT_readable table update conds ht hu hk
  have hd := buildDeleteT_readable table conds ht hk
  have e := whereConnector64_eq conds c hlo hhi
  rw [e]
  exact ⟨⟨whereConnector_counter conds c,
      placeholders_of_pieces _ _ _ c hw (whereConnectorT_render conds c)
        (whereConnectorT_holders conds c),
      whereConnectorT_render conds c, whereConnectorT_holders conds c⟩,
    ⟨placeholders_of_pieces _ _ _ 0 hs
        (buildSelectT_render table ufields groupBy uOrderBy limit conds)
        (buildSelectT_holders table ufields groupBy uOrderBy limit conds),
      highest_of_pieces _ _ _ hs
        (buildSelectT_render table ufields groupBy uOrderBy limit conds)
        (buildSelectT_holders table ufields groupBy uOrderBy limit conds),
      buildSelectT_render table ufields groupBy uOrderBy limit conds,
      buildSelectT_holders table ufields groupBy uOrderBy limit conds⟩,
    ⟨placeholders_of_pieces _ _ _ 0 hup (buildUpdateT_render table update conds)
        (buildUpdateT_holders table update conds),
      highest_of_pieces _ _ _ hup (buildUpdateT_render table update conds)
        (buildUpdateT_holders table update conds),
      buildUpdateT_render table update conds, buildUpdateT_holders table update conds⟩,
    ⟨placeholders_of_pieces _ _ _ 0 hd (buildDeleteT_render table conds)
        (buildDeleteT_holders table conds),
      highest_of_pieces _ _ _ hd (buildDeleteT_render table conds)
        (buildDeleteT_holders table conds),
      buildDeleteT_render table conds, buildDeleteT_holders table conds⟩⟩

theorem placeholders_in_text_witness :
    (minInt ≤ 5 ∧
      5 + ((whereConnector64 5 [Comparable.Eq [("b", 2), ("a", 1)],
        Comparable.In [("x", [3, 4])]]).2.1.length : Int) ≤ maxInt ∧
      (∀ cond ∈ [Comparable.Eq [("b", 2), ("a", 1)], Comparable.In [("x", [3, 4])]],
        ∀ k ∈ cond.fields, placeholderFree k)) ∧
    placeholderNumbers (whereConnector64 5 [Comparable.Eq [("b", 2), ("a", 1)],
        Comparable.In [("x", [3, 4])]]).1.data
      = seqFrom 5 (whereConnector64 5 [Comparable.Eq [("b", 2), ("a", 1)],
        Comparable.In [("x", [3, 4])]]).2.1.length :=
  ⟨by decide,
   (placeholders_in_text [Comparable.Eq [("b", 2), ("a", 1)], Comparable.In [("x", [3, 4])]] 5
     "tb" ["id", "name"] "g" [⟨"id", "asc"⟩] (some ⟨0, 10⟩) [("k", 9)]
     (by decide) (by decide) (by decide) (by decide) (by decide) (by decide) (by decide)
     (by decide)).1.2.1⟩

/-! ## `buildInsert`: columns added by a later record -/

theorem lookup_restrictTo {V : Type} (first : GoMap V) (k : String) (hk : k ∈ first.keys) :
    ∀ (r : GoMap V), List.lookup k (restrictTo first r) = List.lookup k r
  | [] => rfl
  | (k', v') :: rest => by
    have ih := lookup_restrictTo first k hk rest
    unfold restrictTo at ih ⊢
    by_cases hkk : k = k'
    · subst hkk
      simp [List.filter, hk, List.lookup]
    · have hb : (k == k') = false := by simpa using hkk
      by_cases hin : k' ∈ first.keys
      · simp [List.filter, hin, List.lookup, hb, ih]
      · simp [List.filter, hin, List.lookup, hb, ih]

theorem fieldLoop_restrictTo {V : Type} (first r : GoMap V) :
    ∀ (fields : List String), (∀ f ∈ fields, strings.Trim f "`" ∈ first.keys) →
      buildInsert.fieldLoop (restrictTo first r) fields = buildInsert.fieldLoop r fields
  | [], _ => rfl
  | field :: rest, h => by
    have ih := fieldLoop_restrictTo first r rest (fun f hf => h f (List.mem_cons_of_mem _ hf))
    have hl := lookup_restrictTo first _ (h field (List.mem_cons_self _ _)) r
    simp only [buildInsert.fieldLoop, GoMap.get?, hl, ih]

theorem loop_restrictTo {V : Type} (first : GoMap V) (fields : List String)
    (placeholder : String) (h : ∀ f ∈ fields, strings.Trim f "`" ∈ first.keys) :
    ∀ (recs : List (GoMap V)),
      buildInsert.loop fields placeholder (recs.map (restrictTo first))
        = buildInsert.loop fields placeholder recs
  | [] => rfl
  | r :: rest => by
    simp only [List.map_cons, buildInsert.loop, fieldLoop_restrictTo first r fields h,
      loop_restrictTo first fields placeholder h rest]

theorem resolveFields_trim_mem {V : Type} (first : GoMap V)
    (hq : ∀ k ∈ first.keys, noBacktickEnds k) :
    ∀ f ∈ resolveFields first, strings.Trim f "`" ∈ first.keys := by
  intro f hf
  have hmem : f ∈ first.keys := by
    unfold resolveFields at hf
    rw [(defaultSortAlgorithm_perm _).mem_iff] at hf
    simpa [quoteField] using hf
  rw [Trim_of_noBacktickEnds f (hq f hmem)]
  exact hmem

/-- C10, amended: as long as no key of the first record begins or ends with a backtick,
`buildInsert` returns `errInsertDataNotMatch` exactly when some record after the first lacks
one of the first record's keys, and it returns no other error; a record after the first that
adds a key is accepted and the added key is ignored: the call returns what it returns when
the keys that the first record does not have are removed from the later records. -/
theorem buildInsert_added_keys_ignored {V : Type} (table : String) (first : GoMap V)
    (rest : List (GoMap V)) (hq : ∀ k ∈ first.keys, noBacktickEnds k) :
    (buildInsert table (first :: rest) = some ("", [], some BuildError.errInsertDataNotMatch)
      ↔ ∃ r ∈ rest, ∃ k ∈ first.keys, k ∉ r.keys) ∧
    (∀ res, buildInsert table (first :: rest) = some res →
      res = ("", [], some BuildError.errInsertDataNotMatch) ∨ res.2.2 = none) ∧
    buildInsert table (first :: rest)
      = buildInsert table (first :: rest.map (restrictTo first)) := by
  refine ⟨buildInsert_error_iff_missing_key table first rest hq, ?_, ?_⟩
  · intro res hres
    simp only [buildInsert] at hres
    cases hl : buildInsert.loop (resolveFields first)
        ("(" ++ strings.TrimRight (strings.Repeat "$%d," (resolveFields first).length) ","
          ++ ")") (first :: rest) with
    | none =>
      rw [hl] at hres
      simp only [Option.some.injEq] at hres
      exact Or.inl hres.symm
    | some p =>
      obtain ⟨sets, vals⟩ := p
      rw [hl] at hres
      simp only [Option.map_eq_some'] at hres
      obtain ⟨conds, _, hc⟩ := hres
      rw [← hc]
      exact Or.inr rfl
  · have ht := resolveFields_trim_mem first hq
    have hl := loop_restrictTo first (resolveFields first)
      ("(" ++ strings.TrimRight (strings.Repeat "$%d," (resolveFields first).length) ","
        ++ ")") ht rest
    simp only [buildInsert, buildInsert.loop] at hl ⊢
    rw [hl]

theorem buildInsert_added_keys_ignored_witness :
    (∀ k ∈ GoMap.keys [("a", 1), ("c", 5)], noBacktickEnds k) ∧
    buildInsert "t" [[("a", 1), ("c", 5)], [("a", 2), ("b", 3), ("c", 4)]]
      = buildInsert "t" ([("a", 1), ("c", 5)]
          :: [[("a", 2), ("b", 3), ("c", 4)]].map (restrictTo [("a", 1), ("c", 5)])) :=
  ⟨by decide,
    (buildInsert_added_keys_ignored "t" [("a", 1), ("c", 5)] [[("a", 2), ("b", 3), ("c", 4)]]
      (by decide)).2.2⟩

end Builder
